import Mathlib

/-!
# ParticleInterpolator (Emu, `Source/ParticleInterpolator.H`)

A shallow embedding of the particle-in-cell shape-function stencil, in two readings of the
same source lines.

* The exact reading (namespace `Emu`): `Real` values are exact rationals and `int` values
  are integers without bound.  It describes the program wherever no `int` overflows and no
  floating-point operation rounds.
* The reading on machine numbers (namespace `Emu.Machine`): `int` has 32 bits and an
  overflow is a fault; every operation on `Real` is followed by the rounding of the real
  type, a parameter; the range assertion of `operator()` is active or not, a parameter.

The weight array `shape_functions[max_spline_order+1]` is a list of `max_spline_order+1`
slots; a slot is `none` until it is written.  A write outside the array is a fault.
-/

namespace Emu

/-- The conversion `static_cast<int>(x)` of a real to an integer: the fractional part is
discarded, that is, the value is rounded toward zero.  The range of `int` is added by
`Machine.static_cast_int`. -/
def static_cast_int (x : ℚ) : Int :=
  if 0 ≤ x then ⌊x⌋ else ⌈x⌉

/-- Source lines 109-116: `nearest_cell_center_index`, in exact arithmetic. -/
def nearest_cell_center_index (delta : ℚ) : Int :=
  let dstar : ℚ := if delta - 1 / 2 < 0 then delta - 1 else delta
  static_cast_int dstar

/-- Source lines 118-127: `nearest_cell_center_offset`, in exact arithmetic. -/
def nearest_cell_center_offset (delta : ℚ) : ℚ :=
  let fraction : ℚ := delta - (static_cast_int delta : ℚ)
  let offset : ℚ := if delta ≤ 0 then fraction + 1 / 2 else fraction - 1 / 2
  offset

/-- The weight array: one slot per entry, `none` while the slot has not been written. -/
abbrev Slots := List (Option ℚ)

/-- The array `Real shape_functions[max_spline_order+1]` before any write. -/
def fresh_shape_functions (max_spline_order : Nat) : Slots :=
  List.replicate (max_spline_order + 1) none

/-- The assignment `shape_functions[i] = v`; `none` when slot `i` is outside the array. -/
def store (a : Slots) (i : Nat) (v : ℚ) : Option Slots :=
  if i < a.length then some (a.set i (some v)) else none

/-- The data members of `ParticleInterpolator<max_spline_order>` (source lines 129-130). -/
structure ParticleInterpolator (max_spline_order : Nat) where
  first_cell : Int
  last_cell : Int
  shape_functions : Slots
  deriving DecidableEq

/-- Source lines 67-75: `compute_order_0`. -/
def compute_order_0 (M : Nat) (delta : ℚ) : Option (ParticleInterpolator M) :=
  let first_cell := nearest_cell_center_index delta
  let last_cell := first_cell
  (store (fresh_shape_functions M) 0 1).bind fun s0 =>
  some { first_cell := first_cell, last_cell := last_cell, shape_functions := s0 }

/-- Source lines 77-94: `compute_order_1`. -/
def compute_order_1 (M : Nat) (delta : ℚ) : Option (ParticleInterpolator M) :=
  let nearest := nearest_cell_center_index delta
  let offset := nearest_cell_center_offset delta
  if offset ≥ 0 then
    let first_cell := nearest
    (store (fresh_shape_functions M) 0 (1 - offset)).bind fun s0 =>
    (store s0 1 offset).bind fun s1 =>
    some { first_cell := first_cell, last_cell := first_cell + 1, shape_functions := s1 }
  else
    let first_cell := nearest - 1
    (store (fresh_shape_functions M) 0 (-offset)).bind fun s0 =>
    (store s0 1 (1 + offset)).bind fun s1 =>
    some { first_cell := first_cell, last_cell := first_cell + 1, shape_functions := s1 }

/-- Source lines 96-107: `compute_order_2`. -/
def compute_order_2 (M : Nat) (delta : ℚ) : Option (ParticleInterpolator M) :=
  let first_cell := nearest_cell_center_index delta - 1
  let last_cell := first_cell + 2
  let offset := nearest_cell_center_offset delta
  (store (fresh_shape_functions M) 0 (1 / 2 * (1 / 2 - offset) * (1 / 2 - offset))).bind fun s0 =>
  (store s0 1 (3 / 4 - offset * offset)).bind fun s1 =>
  (store s1 2 (1 / 2 * (1 / 2 + offset) * (1 / 2 + offset))).bind fun s2 =>
  some { first_cell := first_cell, last_cell := last_cell, shape_functions := s2 }

/-- Source lines 38-47: the constructor `ParticleInterpolator(Real delta, int order)`.
The result is `none` when a weight would be written outside the weight array. -/
def ParticleInterpolator.construct (M : Nat) (delta : ℚ) (order : Int) :
    Option (ParticleInterpolator M) :=
  if M ≥ 2 ∧ order > 1 then compute_order_2 M delta
  else if M ≥ 1 ∧ order > 0 then compute_order_1 M delta
  else compute_order_0 M delta

/-- Source lines 55-58: `first()`. -/
def ParticleInterpolator.first {M : Nat} (p : ParticleInterpolator M) : Int :=
  p.first_cell

/-- Source lines 60-63: `last()`. -/
def ParticleInterpolator.last {M : Nat} (p : ParticleInterpolator M) : Int :=
  p.last_cell

/-- The ways a construction or a weight query can fail. -/
inductive Fault where
  | assertion_failed
  | out_of_bounds
  | uninitialised
  | int_overflow
  deriving DecidableEq

/-- Modelled from the spec: the AMReX assertion `AMREX_ASSERT(cond)`, whose definition is
not part of the repository.  The spec describes a failed range assertion as a debug-mode
assertion failure; this is the assertion of a debug build.  `Machine.AMREX_ASSERT` has the
switch between the builds. -/
def AMREX_ASSERT (cond : Bool) : Except Fault Unit :=
  if cond then .ok () else .error Fault.assertion_failed

/-- The read `shape_functions[k]` with the index computed in `int`. -/
def load (a : Slots) (k : Int) : Except Fault ℚ :=
  if k < 0 then .error Fault.out_of_bounds
  else
    match a.get? k.toNat with
    | none => .error Fault.out_of_bounds
    | some none => .error Fault.uninitialised
    | some (some w) => .ok w

/-- Source lines 49-53: `operator()(int i)`. -/
def ParticleInterpolator.call {M : Nat} (p : ParticleInterpolator M) (i : Int) :
    Except Fault ℚ :=
  match AMREX_ASSERT (decide (i ≥ p.first) && decide (i ≤ p.last)) with
  | .error e => .error e
  | .ok () => load p.shape_functions (i - p.first)

/-- The cell indices `First(), First()+1, ..., Last()` of a stencil, in increasing order. -/
def ParticleInterpolator.cells {M : Nat} (p : ParticleInterpolator M) : List Int :=
  (List.range (p.last - p.first + 1).toNat).map fun j => p.first + (j : Int)

/-- The weights `Weight(i)` for the cells `i` of a list, in order; a failed query fails
the whole collection. -/
def ParticleInterpolator.weightsOn {M : Nat} (p : ParticleInterpolator M) :
    List Int → Except Fault (List ℚ)
  | [] => .ok []
  | i :: rest =>
    match p.call i with
    | .error e => .error e
    | .ok w =>
      match p.weightsOn rest with
      | .error e => .error e
      | .ok ws => .ok (w :: ws)

/-- The weights `Weight(i)` for `i` from `First()` to `Last()`. -/
def ParticleInterpolator.weights {M : Nat} (p : ParticleInterpolator M) :
    Except Fault (List ℚ) :=
  p.weightsOn p.cells

/-! ## The program on machine numbers

The definitions above read the source in exact arithmetic.  The definitions of the namespace
`Machine` read the same source lines on machine numbers:

* `int` is a 32-bit signed integer; a conversion or an addition whose result does not fit is
  undefined in the source and is the fault `Fault.int_overflow` here;
* every arithmetic operation on `Real` is followed by the rounding `rnd` of the real type,
  a parameter (`rnd = id` is exact arithmetic, `rnd = binary64` is IEEE double precision);
* the range assertion of `operator()` is active or not, a parameter; a read of a slot that
  was never written returns whatever the memory holds, the parameter `junk`.
-/

namespace Machine

/-- Round a rational to the nearest integer, a tie going to the even neighbour. -/
def round_half_even (m : ℚ) : Int :=
  if m - (⌊m⌋ : ℚ) < 1 / 2 then ⌊m⌋
  else if 1 / 2 < m - (⌊m⌋ : ℚ) then ⌊m⌋ + 1
  else if ⌊m⌋ % 2 = 0 then ⌊m⌋ else ⌊m⌋ + 1

/-- Modelled from the spec: the real type `amrex::Real` comes from `AMReX_REAL.H`, which is
not part of the repository; the spec calls the precision (single or double) a build-time
choice.  This is IEEE 754 round-to-nearest-even onto a binary format with `prec` significand
bits whose smallest positive number is `2 ^ emin`; overflow to infinity is not modelled. -/
def round_binary (prec : Nat) (emin : Int) (x : ℚ) : ℚ :=
  if x = 0 then 0
  else
    let e : Int := Int.log 2 |x|
    let q : Int := max (e + 1 - (prec : Int)) emin
    (round_half_even (x / (2 : ℚ) ^ q) : ℚ) * (2 : ℚ) ^ q

/-- Rounding of IEEE double precision: 53 significand bits, smallest number `2 ^ (-1074)`. -/
def binary64 (x : ℚ) : ℚ :=
  round_binary 53 (-1074) x

/-- The least value of a 32-bit `int`. -/
def INT_MIN : Int := -2147483648

/-- The greatest value of a 32-bit `int`. -/
def INT_MAX : Int := 2147483647

/-- An integer result stored in an `int`: a fault when it does not fit. -/
def to_int (z : Int) : Except Fault Int :=
  if INT_MIN ≤ z ∧ z ≤ INT_MAX then .ok z else .error Fault.int_overflow

/-- The conversion `static_cast<int>(x)`: the value is rounded toward zero; the behaviour is
undefined when the result does not fit an `int`. -/
def static_cast_int (x : ℚ) : Except Fault Int :=
  to_int (Emu.static_cast_int x)

/-- Source lines 109-116: `nearest_cell_center_index`, on machine numbers. -/
def nearest_cell_center_index (rnd : ℚ → ℚ) (delta : ℚ) : Except Fault Int :=
  let dstar : ℚ := if rnd (delta - 1 / 2) < 0 then rnd (delta - 1) else delta
  static_cast_int dstar

/-- Source lines 118-127: `nearest_cell_center_offset`, on machine numbers.  The `int`
returned by the conversion is converted back to `Real` for the subtraction. -/
def nearest_cell_center_offset (rnd : ℚ → ℚ) (delta : ℚ) : Except Fault ℚ :=
  (static_cast_int delta).bind fun t =>
  let fraction : ℚ := rnd (delta - rnd (t : ℚ))
  let offset : ℚ := if delta ≤ 0 then rnd (fraction + 1 / 2) else rnd (fraction - 1 / 2)
  .ok offset

/-- The assignment `shape_functions[i] = v`; a fault when slot `i` is outside the array. -/
def store (a : Slots) (i : Nat) (v : ℚ) : Except Fault Slots :=
  if i < a.length then .ok (a.set i (some v)) else .error Fault.out_of_bounds

/-- Source lines 67-75: `compute_order_0`, on machine numbers. -/
def compute_order_0 (rnd : ℚ → ℚ) (M : Nat) (delta : ℚ) :
    Except Fault (ParticleInterpolator M) :=
  (nearest_cell_center_index rnd delta).bind fun first_cell =>
  let last_cell := first_cell
  (store (fresh_shape_functions M) 0 1).bind fun s0 =>
  .ok { first_cell := first_cell, last_cell := last_cell, shape_functions := s0 }

/-- Source lines 77-94: `compute_order_1`, on machine numbers. -/
def compute_order_1 (rnd : ℚ → ℚ) (M : Nat) (delta : ℚ) :
    Except Fault (ParticleInterpolator M) :=
  (nearest_cell_center_index rnd delta).bind fun nearest =>
  (nearest_cell_center_offset rnd delta).bind fun offset =>
  if offset ≥ 0 then
    let first_cell := nearest
    (store (fresh_shape_functions M) 0 (rnd (1 - offset))).bind fun s0 =>
    (store s0 1 offset).bind fun s1 =>
    (to_int (first_cell + 1)).bind fun last_cell =>
    .ok { first_cell := first_cell, last_cell := last_cell, shape_functions := s1 }
  else
    (to_int (nearest - 1)).bind fun first_cell =>
    (store (fresh_shape_functions M) 0 (-offset)).bind fun s0 =>
    (store s0 1 (rnd (1 + offset))).bind fun s1 =>
    (to_int (first_cell + 1)).bind fun last_cell =>
    .ok { first_cell := first_cell, last_cell := last_cell, shape_functions := s1 }

/-- Source lines 96-107: `compute_order_2`, on machine numbers.  A product of three factors
is evaluated from the left, each product rounded. -/
def compute_order_2 (rnd : ℚ → ℚ) (M : Nat) (delta : ℚ) :
    Except Fault (ParticleInterpolator M) :=
  (nearest_cell_center_index rnd delta).bind fun nearest =>
  (to_int (nearest - 1)).bind fun first_cell =>
  (to_int (first_cell + 2)).bind fun last_cell =>
  (nearest_cell_center_offset rnd delta).bind fun offset =>
  (store (fresh_shape_functions M) 0
    (rnd (rnd (1 / 2 * rnd (1 / 2 - offset)) * rnd (1 / 2 - offset)))).bind fun s0 =>
  (store s0 1 (rnd (3 / 4 - rnd (offset * offset)))).bind fun s1 =>
  (store s1 2
    (rnd (rnd (1 / 2 * rnd (1 / 2 + offset)) * rnd (1 / 2 + offset)))).bind fun s2 =>
  .ok { first_cell := first_cell, last_cell := last_cell, shape_functions := s2 }

/-- Source lines 38-47: the constructor, on machine numbers. -/
def construct (rnd : ℚ → ℚ) (M : Nat) (delta : ℚ) (order : Int) :
    Except Fault (ParticleInterpolator M) :=
  if M ≥ 2 ∧ order > 1 then compute_order_2 rnd M delta
  else if M ≥ 1 ∧ order > 0 then compute_order_1 rnd M delta
  else compute_order_0 rnd M delta

/-- Modelled from the spec: the AMReX assertion `AMREX_ASSERT(cond)`, whose definition is
not part of the repository.  The spec makes it a debug-mode assertion: it fails on a false
condition when assertions are active and does nothing otherwise. -/
def AMREX_ASSERT (assertions : Bool) (cond : Bool) : Except Fault Unit :=
  if assertions then (if cond then .ok () else .error Fault.assertion_failed) else .ok ()

/-- The read `shape_functions[k]`: a fault outside the array; a slot that was never written
yields the value `junk k` left in memory. -/
def load (junk : Nat → ℚ) (a : Slots) (k : Int) : Except Fault ℚ :=
  if k < 0 then .error Fault.out_of_bounds
  else
    match a.get? k.toNat with
    | none => .error Fault.out_of_bounds
    | some none => .ok (junk k.toNat)
    | some (some w) => .ok w

/-- Source lines 49-53: `operator()(int i)`, on machine numbers. -/
def call (assertions : Bool) (junk : Nat → ℚ) {M : Nat} (p : ParticleInterpolator M)
    (i : Int) : Except Fault ℚ :=
  (AMREX_ASSERT assertions (decide (i ≥ p.first) && decide (i ≤ p.last))).bind fun _ =>
  (to_int (i - p.first)).bind fun k =>
  load junk p.shape_functions k

/-- The weights `Weight(i)` for the cells `i` of a list, in order; a failed query fails the
whole collection. -/
def weightsOn (assertions : Bool) (junk : Nat → ℚ) {M : Nat} (p : ParticleInterpolator M) :
    List Int → Except Fault (List ℚ)
  | [] => .ok []
  | i :: rest =>
    (call assertions junk p i).bind fun w =>
    (weightsOn assertions junk p rest).bind fun ws =>
    .ok (w :: ws)

/-- The weights `Weight(i)` for `i` from `First()` to `Last()`. -/
def weights (assertions : Bool) (junk : Nat → ℚ) {M : Nat} (p : ParticleInterpolator M) :
    Except Fault (List ℚ) :=
  weightsOn assertions junk p p.cells

/-- The positions whose conversions and cell indices fit an `int` with room for the
stencil: `|delta| ≤ 2^31 - 2`. -/
def InRange (delta : ℚ) : Prop :=
  -2147483646 ≤ delta ∧ delta ≤ 2147483646

/-- The operations of `nearest_cell_center_index` that are executed at `delta` round
nothing away: the sign test sees the sign of `delta - 1/2`, and the subtraction
`delta - 1` is exact when it is executed. -/
def ExactIndex (rnd : ℚ → ℚ) (delta : ℚ) : Prop :=
  (rnd (delta - 1 / 2) < 0 ↔ delta - 1 / 2 < 0) ∧
  (delta - 1 / 2 < 0 → rnd (delta - 1) = delta - 1)

/-- The operations of `nearest_cell_center_offset` that are executed at `delta` are exact. -/
def ExactOffset (rnd : ℚ → ℚ) (delta : ℚ) : Prop :=
  rnd (Emu.static_cast_int delta : ℚ) = (Emu.static_cast_int delta : ℚ) ∧
  rnd (delta - (Emu.static_cast_int delta : ℚ)) = delta - (Emu.static_cast_int delta : ℚ) ∧
  (delta ≤ 0 → rnd (delta - (Emu.static_cast_int delta : ℚ) + 1 / 2)
      = delta - (Emu.static_cast_int delta : ℚ) + 1 / 2) ∧
  (¬ delta ≤ 0 → rnd (delta - (Emu.static_cast_int delta : ℚ) - 1 / 2)
      = delta - (Emu.static_cast_int delta : ℚ) - 1 / 2)

/-- The operations of `compute_order_1` that are executed at `delta` are exact. -/
def ExactOrder1 (rnd : ℚ → ℚ) (delta : ℚ) : Prop :=
  ExactIndex rnd delta ∧ ExactOffset rnd delta ∧
  (Emu.nearest_cell_center_offset delta ≥ 0 →
    rnd (1 - Emu.nearest_cell_center_offset delta) = 1 - Emu.nearest_cell_center_offset delta) ∧
  (¬ Emu.nearest_cell_center_offset delta ≥ 0 →
    rnd (1 + Emu.nearest_cell_center_offset delta) = 1 + Emu.nearest_cell_center_offset delta)

/-- The operations of `compute_order_2` at `delta` are exact. -/
def ExactOrder2 (rnd : ℚ → ℚ) (delta : ℚ) : Prop :=
  ExactIndex rnd delta ∧ ExactOffset rnd delta ∧
  rnd (1 / 2 - Emu.nearest_cell_center_offset delta)
    = 1 / 2 - Emu.nearest_cell_center_offset delta ∧
  rnd (1 / 2 * (1 / 2 - Emu.nearest_cell_center_offset delta))
    = 1 / 2 * (1 / 2 - Emu.nearest_cell_center_offset delta) ∧
  rnd (1 / 2 * (1 / 2 - Emu.nearest_cell_center_offset delta)
      * (1 / 2 - Emu.nearest_cell_center_offset delta))
    = 1 / 2 * (1 / 2 - Emu.nearest_cell_center_offset delta)
      * (1 / 2 - Emu.nearest_cell_center_offset delta) ∧
  rnd (Emu.nearest_cell_center_offset delta * Emu.nearest_cell_center_offset delta)
    = Emu.nearest_cell_center_offset delta * Emu.nearest_cell_center_offset delta ∧
  rnd (3 / 4 - Emu.nearest_cell_center_offset delta * Emu.nearest_cell_center_offset delta)
    = 3 / 4 - Emu.nearest_cell_center_offset delta * Emu.nearest_cell_center_offset delta ∧
  rnd (1 / 2 + Emu.nearest_cell_center_offset delta)
    = 1 / 2 + Emu.nearest_cell_center_offset delta ∧
  rnd (1 / 2 * (1 / 2 + Emu.nearest_cell_center_offset delta))
    = 1 / 2 * (1 / 2 + Emu.nearest_cell_center_offset delta) ∧
  rnd (1 / 2 * (1 / 2 + Emu.nearest_cell_center_offset delta)
      * (1 / 2 + Emu.nearest_cell_center_offset delta))
    = 1 / 2 * (1 / 2 + Emu.nearest_cell_center_offset delta)
      * (1 / 2 + Emu.nearest_cell_center_offset delta)

/-- Every arithmetic operation that the constructor executes for `(delta, order)` with
maximum order `M` is exact. -/
def Exact (rnd : ℚ → ℚ) (M : Nat) (delta : ℚ) (order : Int) : Prop :=
  if M ≥ 2 ∧ order > 1 then ExactOrder2 rnd delta
  else if M ≥ 1 ∧ order > 0 then ExactOrder1 rnd delta
  else ExactIndex rnd delta

end Machine


/-! ## Rounding toward zero -/

theorem static_cast_int_of_nonneg {x : ℚ} (h : 0 ≤ x) : static_cast_int x = ⌊x⌋ := by
  simp [static_cast_int, h]

theorem static_cast_int_of_neg {x : ℚ} (h : x < 0) : static_cast_int x = ⌈x⌉ := by
  simp [static_cast_int, not_le.mpr h]

theorem static_cast_int_nonneg_bounds {x : ℚ} (h : 0 ≤ x) :
    (static_cast_int x : ℚ) ≤ x ∧ x < (static_cast_int x : ℚ) + 1 := by
  rw [static_cast_int_of_nonneg h]
  exact ⟨Int.floor_le x, Int.lt_floor_add_one x⟩

theorem static_cast_int_neg_bounds {x : ℚ} (h : x < 0) :
    x ≤ (static_cast_int x : ℚ) ∧ (static_cast_int x : ℚ) < x + 1 := by
  rw [static_cast_int_of_neg h]
  exact ⟨Int.le_ceil x, Int.ceil_lt_add_one x⟩

/-! ## The two helpers strictly inside a cell -/

/-- Strictly between the cell edges `k` and `k + 1` the index is `k`. -/
theorem nearest_cell_center_index_interior {delta : ℚ} {k : Int}
    (h1 : (k : ℚ) < delta) (h2 : delta < (k : ℚ) + 1) :
    nearest_cell_center_index delta = k := by
  unfold nearest_cell_center_index
  by_cases h : delta - 1 / 2 < 0
  · have hneg : delta - 1 < 0 := by linarith
    simp only [h, if_true]
    rw [static_cast_int_of_neg hneg, Int.ceil_eq_iff]
    constructor <;> linarith
  · have hpos : 0 ≤ delta := by linarith [not_lt.mp h]
    simp only [h, if_false]
    rw [static_cast_int_of_nonneg hpos, Int.floor_eq_iff]
    constructor <;> linarith

/-- Strictly between the cell edges `k` and `k + 1` the offset is the signed distance to
the centre `k + 1/2` of cell `k`. -/
theorem nearest_cell_center_offset_interior {delta : ℚ} {k : Int}
    (h1 : (k : ℚ) < delta) (h2 : delta < (k : ℚ) + 1) :
    nearest_cell_center_offset delta = delta - ((k : ℚ) + 1 / 2) := by
  unfold nearest_cell_center_offset
  by_cases h : delta ≤ 0
  · have hne : delta ≠ 0 := by
      intro h0
      rw [h0] at h1 h2
      have a : k < 0 := by exact_mod_cast h1
      have b : 0 < k + 1 := by exact_mod_cast h2
      omega
    have hneg : delta < 0 := lt_of_le_of_ne h hne
    have hc : static_cast_int delta = k + 1 := by
      rw [static_cast_int_of_neg hneg, Int.ceil_eq_iff]
      constructor <;> first | linarith | (push_cast; linarith)
    simp only [h, if_true, hc]
    push_cast
    ring
  · have hpos : 0 ≤ delta := le_of_lt (not_le.mp h)
    have hc : static_cast_int delta = k := by
      rw [static_cast_int_of_nonneg hpos, Int.floor_eq_iff]
      constructor <;> linarith
    simp only [h, if_false, hc]
    ring

/-- The offset always lies in the closed interval from `-1/2` to `1/2`. -/
theorem nearest_cell_center_offset_bounds (delta : ℚ) :
    -(1 / 2) ≤ nearest_cell_center_offset delta ∧ nearest_cell_center_offset delta ≤ 1 / 2 := by
  unfold nearest_cell_center_offset
  by_cases h : delta ≤ 0
  · simp only [h, if_true]
    rcases eq_or_lt_of_le h with h0 | hneg
    · subst h0
      have : static_cast_int (0 : ℚ) = 0 := by simp [static_cast_int]
      rw [this]
      norm_num
    · have := static_cast_int_neg_bounds hneg
      constructor <;> linarith [this.1, this.2]
  · simp only [h, if_false]
    have := static_cast_int_nonneg_bounds (le_of_lt (not_le.mp h))
    constructor <;> linarith [this.1, this.2]

/-! ## The three stencil shapes -/

theorem compute_order_0_eq (M : Nat) (delta : ℚ) :
    compute_order_0 M delta =
      some { first_cell := nearest_cell_center_index delta,
             last_cell := nearest_cell_center_index delta,
             shape_functions := some 1 :: List.replicate M none } := by
  simp [compute_order_0, store, fresh_shape_functions, List.replicate_succ]

theorem compute_order_1_eq (M : Nat) (delta : ℚ) :
    compute_order_1 (M + 1) delta =
      if nearest_cell_center_offset delta ≥ 0 then
        some { first_cell := nearest_cell_center_index delta,
               last_cell := nearest_cell_center_index delta + 1,
               shape_functions :=
                 some (1 - nearest_cell_center_offset delta) ::
                 some (nearest_cell_center_offset delta) :: List.replicate M none }
      else
        some { first_cell := nearest_cell_center_index delta - 1,
               last_cell := nearest_cell_center_index delta - 1 + 1,
               shape_functions :=
                 some (-nearest_cell_center_offset delta) ::
                 some (1 + nearest_cell_center_offset delta) :: List.replicate M none } := by
  simp [compute_order_1, store, fresh_shape_functions, List.replicate_succ]

theorem compute_order_2_eq (M : Nat) (delta : ℚ) :
    compute_order_2 (M + 2) delta =
      some { first_cell := nearest_cell_center_index delta - 1,
             last_cell := nearest_cell_center_index delta - 1 + 2,
             shape_functions :=
               some (1 / 2 * (1 / 2 - nearest_cell_center_offset delta)
                  * (1 / 2 - nearest_cell_center_offset delta)) ::
               some (3 / 4 - nearest_cell_center_offset delta * nearest_cell_center_offset delta) ::
               some (1 / 2 * (1 / 2 + nearest_cell_center_offset delta)
                  * (1 / 2 + nearest_cell_center_offset delta)) :: List.replicate M none } := by
  simp [compute_order_2, store, fresh_shape_functions, List.replicate_succ]

/-- The constructor runs `compute_order_2` exactly when there is room for three weights and
the requested order exceeds one. -/
theorem construct_order_2 (M : Nat) (delta : ℚ) (order : Int) (h : 1 < order) :
    ParticleInterpolator.construct (M + 2) delta order = compute_order_2 (M + 2) delta := by
  rw [ParticleInterpolator.construct, if_pos ⟨by omega, h⟩]

theorem construct_order_1 (M : Nat) (delta : ℚ) (order : Int) (h : 0 < order)
    (h2 : M = 0 ∨ order ≤ 1) :
    ParticleInterpolator.construct (M + 1) delta order = compute_order_1 (M + 1) delta := by
  have : ¬ (M + 1 ≥ 2 ∧ order > 1) := by
    rintro ⟨a, b⟩
    rcases h2 with h2 | h2 <;> omega
  rw [ParticleInterpolator.construct, if_neg this, if_pos ⟨by omega, h⟩]

theorem construct_order_0 (M : Nat) (delta : ℚ) (order : Int) (h : M = 0 ∨ order ≤ 0) :
    ParticleInterpolator.construct M delta order = compute_order_0 M delta := by
  have a : ¬ (M ≥ 2 ∧ order > 1) := by
    rintro ⟨a, b⟩
    rcases h with h | h <;> omega
  have b : ¬ (M ≥ 1 ∧ order > 0) := by
    rintro ⟨a, b⟩
    rcases h with h | h <;> omega
  rw [ParticleInterpolator.construct, if_neg a, if_neg b]

/-- Every construction succeeds, and the stencil has one of three shapes: one, two or three
written weights, which are non-negative and add up to one, followed by unwritten slots. -/
theorem construct_shape (M : Nat) (delta : ℚ) (order : Int) :
    (∃ n r, ParticleInterpolator.construct M delta order
        = some { first_cell := n, last_cell := n, shape_functions := some 1 :: r }
        ∧ r.length = M) ∨
    (∃ n w0 w1 r, ParticleInterpolator.construct M delta order
        = some { first_cell := n, last_cell := n + 1, shape_functions := some w0 :: some w1 :: r }
        ∧ r.length + 1 = M ∧ 0 ≤ w0 ∧ 0 ≤ w1 ∧ w0 + w1 = 1) ∨
    (∃ n w0 w1 w2 r, ParticleInterpolator.construct M delta order
        = some { first_cell := n, last_cell := n + 2,
                 shape_functions := some w0 :: some w1 :: some w2 :: r }
        ∧ r.length + 2 = M ∧ 0 ≤ w0 ∧ 0 ≤ w1 ∧ 0 ≤ w2 ∧ w0 + w1 + w2 = 1) := by
  obtain ⟨hlo, hhi⟩ := nearest_cell_center_offset_bounds delta
  by_cases h0 : M = 0 ∨ order ≤ 0
  · left
    exact ⟨_, _, by rw [construct_order_0 M delta order h0, compute_order_0_eq], by simp⟩
  · right
    have hM : 1 ≤ M := by omega
    have ho : 0 < order := by omega
    by_cases h1 : M = 1 ∨ order ≤ 1
    · left
      obtain ⟨M1, rfl⟩ : ∃ M1, M = M1 + 1 := ⟨M - 1, by omega⟩
      have hc := construct_order_1 M1 delta order ho (by omega)
      rw [compute_order_1_eq] at hc
      by_cases hs : nearest_cell_center_offset delta ≥ 0
      · rw [if_pos hs] at hc
        exact ⟨_, _, _, _, hc, by simp, by linarith, hs, by ring⟩
      · rw [if_neg hs] at hc
        have hs2 : nearest_cell_center_offset delta < 0 := not_le.mp hs
        exact ⟨_, _, _, _, hc, by simp, by linarith, by linarith, by ring⟩
    · right
      obtain ⟨M2, rfl⟩ : ∃ M2, M = M2 + 2 := ⟨M - 2, by omega⟩
      have hc := construct_order_2 M2 delta order (by omega)
      rw [compute_order_2_eq] at hc
      refine ⟨_, _, _, _, _, hc, by simp, ?_, ?_, ?_, by ring⟩
      · exact mul_nonneg (mul_nonneg (by norm_num) (by linarith)) (by linarith)
      · nlinarith
      · exact mul_nonneg (mul_nonneg (by norm_num) (by linarith)) (by linarith)

/-! ## Weight queries -/

theorem call_in_range {M : Nat} (p : ParticleInterpolator M) (i : Int)
    (h1 : p.first ≤ i) (h2 : i ≤ p.last) :
    p.call i = load p.shape_functions (i - p.first) := by
  simp [ParticleInterpolator.call, AMREX_ASSERT, h1, h2]

theorem call_out_of_range {M : Nat} (p : ParticleInterpolator M) (i : Int)
    (h : ¬ (p.first ≤ i ∧ i ≤ p.last)) :
    p.call i = .error Fault.assertion_failed := by
  have : (decide (i ≥ p.first) && decide (i ≤ p.last)) = false := by
    simpa [not_and] using h
  simp [ParticleInterpolator.call, AMREX_ASSERT, this]

theorem load_zero (w : ℚ) (r : Slots) : load (some w :: r) 0 = .ok w := by
  simp [load]

theorem load_one (x : Option ℚ) (w : ℚ) (r : Slots) : load (x :: some w :: r) 1 = .ok w := by
  simp [load]

theorem load_two (x y : Option ℚ) (w : ℚ) (r : Slots) :
    load (x :: y :: some w :: r) 2 = .ok w := by
  simp [load]

theorem cells_mk {M : Nat} (n : Int) (k : Nat) (r : Slots) :
    (@ParticleInterpolator.mk M n (n + k) r).cells
      = (List.range (k + 1)).map fun j => n + (j : Int) := by
  have h : (n + (k : Int) - n + 1).toNat = k + 1 := by
    have : n + (k : Int) - n + 1 = ((k + 1 : Nat) : Int) := by push_cast; ring
    rw [this, Int.toNat_ofNat]
  simp only [ParticleInterpolator.cells, ParticleInterpolator.first, ParticleInterpolator.last, h]

theorem weights_one {M : Nat} (n : Int) (w : ℚ) (r : Slots) :
    (@ParticleInterpolator.mk M n n (some w :: r)).weights = .ok [w] := by
  have h := cells_mk (M := M) n 0 (some w :: r)
  simp only [Nat.cast_zero, add_zero] at h
  simp [ParticleInterpolator.weights, h, ParticleInterpolator.weightsOn, ParticleInterpolator.first,
    ParticleInterpolator.last, ParticleInterpolator.call, AMREX_ASSERT, load, List.range_succ]

theorem weights_two {M : Nat} (n : Int) (w0 w1 : ℚ) (r : Slots) :
    (@ParticleInterpolator.mk M n (n + 1) (some w0 :: some w1 :: r)).weights
      = .ok [w0, w1] := by
  have h := cells_mk (M := M) n 1 (some w0 :: some w1 :: r)
  simp only [Nat.cast_one] at h
  simp [ParticleInterpolator.weights, h, ParticleInterpolator.weightsOn, ParticleInterpolator.first,
    ParticleInterpolator.last, ParticleInterpolator.call, AMREX_ASSERT, load, List.range_succ]

theorem weights_three {M : Nat} (n : Int) (w0 w1 w2 : ℚ) (r : Slots) :
    (@ParticleInterpolator.mk M n (n + 2)
      (some w0 :: some w1 :: some w2 :: r)).weights = .ok [w0, w1, w2] := by
  have h := cells_mk (M := M) n 2 (some w0 :: some w1 :: some w2 :: r)
  simp only [Nat.cast_ofNat] at h
  simp [ParticleInterpolator.weights, h, ParticleInterpolator.weightsOn, ParticleInterpolator.first,
    ParticleInterpolator.last, ParticleInterpolator.call, AMREX_ASSERT, load, List.range_succ]

/-- In each of the three shapes, a query inside the stencil returns the stored weight. -/
theorem call_shape_one {M : Nat} (n : Int) (w : ℚ) (r : Slots) (i : Int)
    (h1 : n ≤ i) (h2 : i ≤ n) :
    (@ParticleInterpolator.mk M n n (some w :: r)).call i = .ok w := by
  obtain rfl : i = n := le_antisymm h2 h1
  rw [call_in_range (@ParticleInterpolator.mk M i i (some w :: r)) i (le_refl _) (le_refl _)]
  simp [ParticleInterpolator.first, load_zero]

theorem call_shape_two {M : Nat} (n : Int) (w0 w1 : ℚ) (r : Slots) (i : Int)
    (h1 : n ≤ i) (h2 : i ≤ n + 1) :
    (i = n ∧ (@ParticleInterpolator.mk M n (n + 1)
        (some w0 :: some w1 :: r)).call i = .ok w0) ∨
    (i = n + 1 ∧ (@ParticleInterpolator.mk M n (n + 1)
        (some w0 :: some w1 :: r)).call i = .ok w1) := by
  rw [call_in_range (@ParticleInterpolator.mk M n (n + 1) (some w0 :: some w1 :: r)) i h1 h2]
  have : i = n ∨ i = n + 1 := by omega
  rcases this with rfl | rfl
  · left; simp [ParticleInterpolator.first, load_zero]
  · right; simp [ParticleInterpolator.first, load_one]

theorem call_shape_three {M : Nat} (n : Int) (w0 w1 w2 : ℚ) (r : Slots) (i : Int)
    (h1 : n ≤ i) (h2 : i ≤ n + 2) :
    (i = n ∧ (@ParticleInterpolator.mk M n (n + 2)
        (some w0 :: some w1 :: some w2 :: r)).call i = .ok w0) ∨
    (i = n + 1 ∧ (@ParticleInterpolator.mk M n (n + 2)
        (some w0 :: some w1 :: some w2 :: r)).call i = .ok w1) ∨
    (i = n + 2 ∧ (@ParticleInterpolator.mk M n (n + 2)
        (some w0 :: some w1 :: some w2 :: r)).call i = .ok w2) := by
  rw [call_in_range (@ParticleInterpolator.mk M n (n + 2) (some w0 :: some w1 :: some w2 :: r))
    i h1 h2]
  have : i = n ∨ i = n + 1 ∨ i = n + 2 := by omega
  rcases this with rfl | rfl | rfl
  · left; simp [ParticleInterpolator.first, load_zero]
  · right; left; simp [ParticleInterpolator.first, load_one]
  · right; right; simp [ParticleInterpolator.first, load_two]

/-! ## Properties of the constructed stencil -/

/-- In exact arithmetic, with unbounded integers. Partition of unity: for every maximum order `M` (in particular 0, 1 and 2), every
integer `order` and every rational `delta`, the construction succeeds, every query
`Weight(i)` for `i` from `First()` to `Last()` succeeds, and the weights returned add up
to exactly one. -/
theorem exact_partition_of_unity (M : Nat) (delta : ℚ) (order : Int) :
    ∃ p ws, ParticleInterpolator.construct M delta order = some p ∧
      p.weights = .ok ws ∧ ws.sum = 1 := by
  rcases construct_shape M delta order with
    ⟨n, r, hc, -⟩ | ⟨n, w0, w1, r, hc, -, -, -, hs⟩ | ⟨n, w0, w1, w2, r, hc, -, -, -, -, hs⟩
  · exact ⟨_, [1], hc, weights_one n 1 r, by simp⟩
  · refine ⟨_, [w0, w1], hc, weights_two n w0 w1 r, ?_⟩
    simpa using hs
  · refine ⟨_, [w0, w1, w2], hc, weights_three n w0 w1 w2 r, ?_⟩
    simp only [List.sum_cons, List.sum_nil, add_zero]
    linarith

/-- In exact arithmetic, with unbounded integers. Non-negativity: for every maximum order `M` (in particular 0, 1 and 2), every integer
`order` and every `delta`, each query `Weight(i)` with `First() ≤ i ≤ Last()` on the
constructed stencil returns a weight that is at least zero. -/
theorem exact_weights_nonneg (M : Nat) (delta : ℚ) (order : Int) :
    ∃ p, ParticleInterpolator.construct M delta order = some p ∧
      ∀ i : Int, p.first ≤ i → i ≤ p.last → ∃ w, p.call i = .ok w ∧ 0 ≤ w := by
  rcases construct_shape M delta order with
    ⟨n, r, hc, -⟩ | ⟨n, w0, w1, r, hc, -, h0, h1, -⟩ |
    ⟨n, w0, w1, w2, r, hc, -, h0, h1, h2, -⟩
  · refine ⟨_, hc, fun i hi1 hi2 => ⟨1, call_shape_one n 1 r i hi1 hi2, by norm_num⟩⟩
  · refine ⟨_, hc, fun i hi1 hi2 => ?_⟩
    rcases call_shape_two (M := M) n w0 w1 r i hi1 hi2 with ⟨-, h⟩ | ⟨-, h⟩
    · exact ⟨w0, h, h0⟩
    · exact ⟨w1, h, h1⟩
  · refine ⟨_, hc, fun i hi1 hi2 => ?_⟩
    rcases call_shape_three (M := M) n w0 w1 w2 r i hi1 hi2 with ⟨-, h⟩ | ⟨-, h⟩ | ⟨-, h⟩
    · exact ⟨w0, h, h0⟩
    · exact ⟨w1, h, h1⟩
    · exact ⟨w2, h, h2⟩

/-- In exact arithmetic, with unbounded integers. Stencil width: for every `delta` and every `order` among 0, 1 and 2, with a maximum
order `M` that is at least `order`, the constructed stencil satisfies
`Last() - First() = order`. -/
theorem exact_stencil_width (M : Nat) (delta : ℚ) (order : Int)
    (ho : order = 0 ∨ order = 1 ∨ order = 2) (hM : order ≤ (M : Int)) :
    ∃ p, ParticleInterpolator.construct M delta order = some p ∧
      p.last - p.first = order := by
  rcases ho with rfl | rfl | rfl
  · refine ⟨_, by rw [construct_order_0 M delta 0 (Or.inr (le_refl _)), compute_order_0_eq], ?_⟩
    simp [ParticleInterpolator.first, ParticleInterpolator.last]
  · obtain ⟨M1, rfl⟩ : ∃ M1, M = M1 + 1 := ⟨M - 1, by omega⟩
    have hc := construct_order_1 M1 delta 1 (by norm_num) (Or.inr (le_refl _))
    rw [compute_order_1_eq] at hc
    by_cases hs : nearest_cell_center_offset delta ≥ 0
    · rw [if_pos hs] at hc
      exact ⟨_, hc, by simp [ParticleInterpolator.first, ParticleInterpolator.last]⟩
    · rw [if_neg hs] at hc
      exact ⟨_, hc, by simp [ParticleInterpolator.first, ParticleInterpolator.last]⟩
  · obtain ⟨M2, rfl⟩ : ∃ M2, M = M2 + 2 := ⟨M - 2, by omega⟩
    have hc := construct_order_2 M2 delta 2 (by norm_num)
    rw [compute_order_2_eq] at hc
    exact ⟨_, hc, by simp [ParticleInterpolator.first, ParticleInterpolator.last]⟩

/-- C4. Silent clamping of the order: for every maximum order `M` (in particular 0, 1 and 2),
every `delta` and every requested order greater than `M`, the construction succeeds and
yields exactly the stencil (bounds and weight array) built with order `M`. -/
theorem order_clamped (M : Nat) (delta : ℚ) (order : Int) (h : (M : Int) < order) :
    (∃ p, ParticleInterpolator.construct M delta order = some p) ∧
      ParticleInterpolator.construct M delta order
        = ParticleInterpolator.construct M delta (M : Int) := by
  constructor
  · rcases construct_shape M delta order with
      ⟨n, r, hc, -⟩ | ⟨n, w0, w1, r, hc, -⟩ | ⟨n, w0, w1, w2, r, hc, -⟩
    exacts [⟨_, hc⟩, ⟨_, hc⟩, ⟨_, hc⟩]
  · rcases Nat.lt_or_ge M 2 with hlt | hge
    · rcases Nat.eq_zero_or_pos M with rfl | hpos
      · rw [construct_order_0 0 delta order (Or.inl rfl),
          construct_order_0 0 delta _ (Or.inl rfl)]
      · obtain rfl : M = 0 + 1 := by omega
        rw [construct_order_1 0 delta order (by omega) (Or.inl rfl),
          construct_order_1 0 delta _ (by norm_num) (Or.inl rfl)]
    · obtain ⟨M2, rfl⟩ : ∃ M2, M = M2 + 2 := ⟨M - 2, by omega⟩
      rw [construct_order_2 M2 delta order (by omega),
        construct_order_2 M2 delta _ (by push_cast; omega)]

/-- Witness for C4: maximum order 1, `delta = 3/4`, requested order 5. -/
theorem order_clamped_witness :
    (((1 : Nat) : Int) < 5) ∧
      ((∃ p, ParticleInterpolator.construct 1 (3 / 4) 5 = some p) ∧
        ParticleInterpolator.construct 1 (3 / 4) 5
          = ParticleInterpolator.construct 1 (3 / 4) ((1 : Nat) : Int)) :=
  ⟨by decide, order_clamped 1 (3 / 4) 5 (by decide)⟩

/-- A write `shape_functions[i] = v` fails exactly when slot `i` is outside the array. -/
theorem store_eq_none_iff (a : Slots) (i : Nat) (v : ℚ) :
    store a i v = none ↔ a.length ≤ i := by
  unfold store
  by_cases h : i < a.length
  · simp [h]
  · simp [h, not_lt.mp h]

/-- In exact arithmetic, with unbounded integers. Weight storage is never overflowed: for every maximum order `M`, every integer
`order` (above `M` and negative ones included) and every `delta`, the construction performs
no write outside the weight array (it succeeds), the array keeps its `M + 1` slots,
`0 ≤ Last() - First() ≤ M`, and every slot `i - First()` read by `Weight(i)` for
`First() ≤ i ≤ Last()` lies within the `M + 1` slots. -/
theorem exact_weight_storage_in_bounds (M : Nat) (delta : ℚ) (order : Int) :
    ∃ p, ParticleInterpolator.construct M delta order = some p ∧
      p.shape_functions.length = M + 1 ∧
      0 ≤ p.last - p.first ∧ p.last - p.first ≤ (M : Int) ∧
      ∀ i : Int, p.first ≤ i → i ≤ p.last →
        0 ≤ i - p.first ∧ (i - p.first).toNat < p.shape_functions.length := by
  rcases construct_shape M delta order with
    ⟨n, r, hc, hr⟩ | ⟨n, w0, w1, r, hc, hr, -⟩ | ⟨n, w0, w1, w2, r, hc, hr, -⟩
  all_goals
    refine ⟨_, hc, ?_, ?_, ?_, ?_⟩
    · simp only [List.length_cons]; omega
    · simp only [ParticleInterpolator.first, ParticleInterpolator.last]; omega
    · simp only [ParticleInterpolator.first, ParticleInterpolator.last]; omega
    · intro i h1 h2
      simp only [ParticleInterpolator.first, ParticleInterpolator.last, List.length_cons] at *
      omega

/-- In exact arithmetic, with unbounded integers. Weight query contract: on every constructed stencil and for every integer `i`, the
query `Weight(i)` succeeds when `First() ≤ i ≤ Last()` and then returns the weight stored in
slot `i - First()`; for `i` outside that range the range assertion fails and no weight is
returned.  Hence the query succeeds exactly when `i` is in range. -/
theorem exact_weight_query_contract (M : Nat) (delta : ℚ) (order : Int) :
    ∃ p, ParticleInterpolator.construct M delta order = some p ∧
      ∀ i : Int,
        ((p.first ≤ i ∧ i ≤ p.last) →
          ∃ w, p.shape_functions.get? (i - p.first).toNat = some (some w) ∧ p.call i = .ok w) ∧
        (¬ (p.first ≤ i ∧ i ≤ p.last) → p.call i = .error Fault.assertion_failed) ∧
        ((∃ w, p.call i = .ok w) ↔ (p.first ≤ i ∧ i ≤ p.last)) := by
  have key : ∀ p : ParticleInterpolator M,
      (∀ i : Int, p.first ≤ i → i ≤ p.last →
        ∃ w, p.shape_functions.get? (i - p.first).toNat = some (some w) ∧ p.call i = .ok w) →
      ∀ i : Int,
        ((p.first ≤ i ∧ i ≤ p.last) →
          ∃ w, p.shape_functions.get? (i - p.first).toNat = some (some w) ∧ p.call i = .ok w) ∧
        (¬ (p.first ≤ i ∧ i ≤ p.last) → p.call i = .error Fault.assertion_failed) ∧
        ((∃ w, p.call i = .ok w) ↔ (p.first ≤ i ∧ i ≤ p.last)) := by
    intro p hp i
    refine ⟨fun h => hp i h.1 h.2, call_out_of_range p i, ?_, fun h => ?_⟩
    · rintro ⟨w, hw⟩
      by_contra hn
      rw [call_out_of_range p i hn] at hw
      cases hw
    · obtain ⟨w, -, hw⟩ := hp i h.1 h.2
      exact ⟨w, hw⟩
  rcases construct_shape M delta order with
    ⟨n, r, hc, -⟩ | ⟨n, w0, w1, r, hc, -⟩ | ⟨n, w0, w1, w2, r, hc, -⟩
  · refine ⟨_, hc, key _ fun i h1 h2 => ?_⟩
    have hi : i = n := le_antisymm h2 h1
    refine ⟨1, ?_, call_shape_one n 1 r i h1 h2⟩
    simp [ParticleInterpolator.first, hi]
  · refine ⟨_, hc, key _ fun i h1 h2 => ?_⟩
    rcases call_shape_two (M := M) n w0 w1 r i h1 h2 with ⟨hi, h⟩ | ⟨hi, h⟩
    · exact ⟨w0, by simp [ParticleInterpolator.first, hi], h⟩
    · exact ⟨w1, by simp [ParticleInterpolator.first, hi], h⟩
  · refine ⟨_, hc, key _ fun i h1 h2 => ?_⟩
    rcases call_shape_three (M := M) n w0 w1 w2 r i h1 h2 with ⟨hi, h⟩ | ⟨hi, h⟩ | ⟨hi, h⟩
    · exact ⟨w0, by simp [ParticleInterpolator.first, hi], h⟩
    · exact ⟨w1, by simp [ParticleInterpolator.first, hi], h⟩
    · exact ⟨w2, by simp [ParticleInterpolator.first, hi], h⟩

/-- C7. Order-0 exactness: for every `delta` and every maximum order `M` (in particular 0, 1
and 2), the stencil constructed with order 0 has
`First() = Last() = nearest_cell_center_index delta` and `Weight(First()) = 1`. -/
theorem order_0_exact (M : Nat) (delta : ℚ) :
    ∃ p, ParticleInterpolator.construct M delta 0 = some p ∧
      p.first = nearest_cell_center_index delta ∧ p.last = nearest_cell_center_index delta ∧
      p.first = p.last ∧ p.call p.first = .ok 1 := by
  have hc := construct_order_0 M delta 0 (Or.inr (le_refl _))
  rw [compute_order_0_eq] at hc
  exact ⟨_, hc, rfl, rfl, rfl, call_shape_one _ 1 _ _ (le_refl _) (le_refl _)⟩

/-- In exact arithmetic, with unbounded integers. Order-2 symmetry at a cell centre: for every integer `k` (positive, zero or negative)
and every maximum order `M ≥ 2`, at `delta = k + 1/2` the offset is zero and the order-2
stencil has `Weight(First()) = Weight(Last()) = 1/8`, middle weight
`Weight(First()+1) = 3/4`, and `First() + 1 = k`. -/
theorem exact_order_2_symmetric_at_centre (M : Nat) (k : Int) (hM : 2 ≤ M) :
    nearest_cell_center_offset ((k : ℚ) + 1 / 2) = 0 ∧
    ∃ p, ParticleInterpolator.construct M ((k : ℚ) + 1 / 2) 2 = some p ∧
      p.last = p.first + 2 ∧
      p.call p.first = .ok (1 / 8) ∧ p.call p.last = .ok (1 / 8) ∧
      p.call (p.first + 1) = .ok (3 / 4) ∧ p.first + 1 = k := by
  have h1 : (k : ℚ) < (k : ℚ) + 1 / 2 := by linarith
  have h2 : (k : ℚ) + 1 / 2 < (k : ℚ) + 1 := by linarith
  have hoff : nearest_cell_center_offset ((k : ℚ) + 1 / 2) = 0 := by
    rw [nearest_cell_center_offset_interior h1 h2]; ring
  have hidx := nearest_cell_center_index_interior h1 h2
  refine ⟨hoff, ?_⟩
  obtain ⟨M2, rfl⟩ : ∃ M2, M = M2 + 2 := ⟨M - 2, by omega⟩
  have hc := construct_order_2 M2 ((k : ℚ) + 1 / 2) 2 (by norm_num)
  rw [compute_order_2_eq, hoff, hidx] at hc
  refine ⟨_, hc, rfl, ?_, ?_, ?_, ?_⟩
  · rcases call_shape_three (M := M2 + 2) (k - 1) _ _ _ _ (k - 1) (by omega) (by omega) with
      ⟨-, h⟩ | ⟨hi, -⟩ | ⟨hi, -⟩
    · simp only [ParticleInterpolator.first]; rw [h]; norm_num
    · omega
    · omega
  · rcases call_shape_three (M := M2 + 2) (k - 1) _ _ _ _ (k - 1 + 2) (by omega) (by omega) with
      ⟨hi, -⟩ | ⟨hi, -⟩ | ⟨-, h⟩
    · omega
    · omega
    · simp only [ParticleInterpolator.last]; rw [h]; norm_num
  · rcases call_shape_three (M := M2 + 2) (k - 1) _ _ _ _ (k - 1 + 1) (by omega) (by omega) with
      ⟨hi, -⟩ | ⟨-, h⟩ | ⟨hi, -⟩
    · omega
    · simp only [ParticleInterpolator.first]; rw [h]; norm_num
    · omega
  · simp [ParticleInterpolator.first]

/-! ## Behaviour at half-integer and integer positions -/

/-- C9, as stated, fails: with order 0 and cell `k = 1`, the positions `5/4` (between `1` and
`3/2`) and `7/4` (between `3/2` and `2`) both give `First() = Last() = 1`, so the stencil
does not move when `delta` passes the half-integer `3/2`. -/
theorem half_integer_no_shift_counterexample :
    (((1 : Int) : ℚ) < 5 / 4 ∧ (5 / 4 : ℚ) < ((1 : Int) : ℚ) + 1 / 2) ∧
    (((1 : Int) : ℚ) + 1 / 2 < 7 / 4 ∧ (7 / 4 : ℚ) < ((1 : Int) : ℚ) + 1) ∧
    ∃ p1 p2, ParticleInterpolator.construct 0 (5 / 4) 0 = some p1 ∧
      ParticleInterpolator.construct 0 (7 / 4) 0 = some p2 ∧
      p1.first = 1 ∧ p1.last = 1 ∧ p2.first = 1 ∧ p2.last = 1 ∧
      ¬ (p2.first = p1.first + 1 ∧ p2.last = p1.last + 1) := by
  have i1 : nearest_cell_center_index (5 / 4) = 1 :=
    nearest_cell_center_index_interior (k := 1) (by norm_num) (by norm_num)
  have i2 : nearest_cell_center_index (7 / 4) = 1 :=
    nearest_cell_center_index_interior (k := 1) (by norm_num) (by norm_num)
  have c1 := construct_order_0 0 (5 / 4) 0 (Or.inl rfl)
  have c2 := construct_order_0 0 (7 / 4) 0 (Or.inl rfl)
  rw [compute_order_0_eq, i1] at c1
  rw [compute_order_0_eq, i2] at c2
  refine ⟨by norm_num, by norm_num, _, _, c1, c2, rfl, rfl, rfl, rfl, ?_⟩
  simp [ParticleInterpolator.first]

/-- In exact arithmetic, with unbounded integers: for every integer `k`, every `delta1` with `k < delta1 < k + 1/2` and every
`delta2` with `k + 1/2 < delta2 < k + 1`, and every `order` among 0, 1 and 2 with maximum
order `M ≥ order`: with order 1 the stencil for `delta2` has `First()` and `Last()` each
exactly one greater than the stencil for `delta1`; with order 0 or 2 the two stencils have
the same `First()` and the same `Last()`. -/
theorem exact_stencil_shift_at_half_integer (M : Nat) (order : Int) (k : Int) (delta1 delta2 : ℚ)
    (ho : order = 0 ∨ order = 1 ∨ order = 2) (hM : order ≤ (M : Int))
    (h1 : (k : ℚ) < delta1) (h1' : delta1 < (k : ℚ) + 1 / 2)
    (h2 : (k : ℚ) + 1 / 2 < delta2) (h2' : delta2 < (k : ℚ) + 1) :
    ∃ p1 p2, ParticleInterpolator.construct M delta1 order = some p1 ∧
      ParticleInterpolator.construct M delta2 order = some p2 ∧
      (order = 1 → p2.first = p1.first + 1 ∧ p2.last = p1.last + 1) ∧
      (order ≠ 1 → p2.first = p1.first ∧ p2.last = p1.last) := by
  have i1 : nearest_cell_center_index delta1 = k :=
    nearest_cell_center_index_interior h1 (by linarith)
  have i2 : nearest_cell_center_index delta2 = k :=
    nearest_cell_center_index_interior (by linarith) h2'
  have o1 : nearest_cell_center_offset delta1 = delta1 - ((k : ℚ) + 1 / 2) :=
    nearest_cell_center_offset_interior h1 (by linarith)
  have o2 : nearest_cell_center_offset delta2 = delta2 - ((k : ℚ) + 1 / 2) :=
    nearest_cell_center_offset_interior (by linarith) h2'
  rcases ho with rfl | rfl | rfl
  · have c1 := construct_order_0 M delta1 0 (Or.inr (le_refl _))
    have c2 := construct_order_0 M delta2 0 (Or.inr (le_refl _))
    rw [compute_order_0_eq, i1] at c1
    rw [compute_order_0_eq, i2] at c2
    exact ⟨_, _, c1, c2, fun h => absurd h (by norm_num), fun _ => ⟨rfl, rfl⟩⟩
  · obtain ⟨M1, rfl⟩ : ∃ M1, M = M1 + 1 := ⟨M - 1, by omega⟩
    have c1 := construct_order_1 M1 delta1 1 (by norm_num) (Or.inr (le_refl _))
    have c2 := construct_order_1 M1 delta2 1 (by norm_num) (Or.inr (le_refl _))
    have s1 : ¬ nearest_cell_center_offset delta1 ≥ 0 := by rw [o1]; linarith
    have s2 : nearest_cell_center_offset delta2 ≥ 0 := by rw [o2]; linarith
    rw [compute_order_1_eq, if_neg s1, i1] at c1
    rw [compute_order_1_eq, if_pos s2, i2] at c2
    refine ⟨_, _, c1, c2, fun _ => ?_, fun h => absurd rfl h⟩
    simp [ParticleInterpolator.first, ParticleInterpolator.last]
  · obtain ⟨M2, rfl⟩ : ∃ M2, M = M2 + 2 := ⟨M - 2, by omega⟩
    have c1 := construct_order_2 M2 delta1 2 (by norm_num)
    have c2 := construct_order_2 M2 delta2 2 (by norm_num)
    rw [compute_order_2_eq, i1] at c1
    rw [compute_order_2_eq, i2] at c2
    exact ⟨_, _, c1, c2, fun h => absurd h (by norm_num), fun _ => ⟨rfl, rfl⟩⟩

/-- C10, as stated, fails: at `delta = 1` the offset is exactly `-1/2`, which is not strictly
greater than `-1/2`. -/
theorem offset_minus_half_counterexample :
    nearest_cell_center_offset 1 = -(1 / 2) ∧
      ¬ (-(1 / 2) < nearest_cell_center_offset 1 ∧ nearest_cell_center_offset 1 ≤ 1 / 2) := by
  have h : nearest_cell_center_offset 1 = -(1 / 2) := by
    norm_num [nearest_cell_center_offset, static_cast_int]
  refine ⟨h, ?_⟩
  rw [h]
  norm_num

/-- In exact arithmetic, with unbounded integers: for every `delta` the offset lies in the closed interval from `-1/2` to
`1/2`, and the value `-1/2` is taken exactly when `delta` is a positive integer (so
`-1/2 < offset ≤ 1/2` for every other `delta`). -/
theorem exact_offset_range (delta : ℚ) :
    -(1 / 2) ≤ nearest_cell_center_offset delta ∧ nearest_cell_center_offset delta ≤ 1 / 2 ∧
      (nearest_cell_center_offset delta = -(1 / 2) ↔ 0 < delta ∧ ∃ n : Int, delta = (n : ℚ)) := by
  obtain ⟨hlo, hhi⟩ := nearest_cell_center_offset_bounds delta
  refine ⟨hlo, hhi, ?_⟩
  unfold nearest_cell_center_offset
  by_cases h : delta ≤ 0
  · simp only [h, if_true]
    constructor
    · intro he
      exfalso
      rcases eq_or_lt_of_le h with h0 | hneg
      · subst h0
        have : static_cast_int (0 : ℚ) = 0 := by simp [static_cast_int]
        rw [this] at he
        norm_num at he
      · have := static_cast_int_neg_bounds hneg
        linarith [this.2]
    · rintro ⟨hpos, -⟩
      exact absurd hpos (not_lt.mpr h)
  · have hpos : 0 < delta := not_le.mp h
    simp only [h, if_false]
    constructor
    · intro he
      exact ⟨hpos, static_cast_int delta, by linarith⟩
    · rintro ⟨-, n, rfl⟩
      have : static_cast_int (n : ℚ) = n := by
        rw [static_cast_int_of_nonneg (le_of_lt hpos), Int.floor_intCast]
      rw [this]
      ring


/-! ## Closed forms of the two helpers -/

/-- At an integer position the index is the cell on the right for positive positions and the
cell on the left otherwise. -/
theorem nearest_cell_center_index_intCast (n : Int) :
    nearest_cell_center_index (n : ℚ) = if 1 ≤ n then n else n - 1 := by
  unfold nearest_cell_center_index
  by_cases h : 1 ≤ n
  · have hq : (1 : ℚ) ≤ (n : ℚ) := by exact_mod_cast h
    have h1 : ¬ ((n : ℚ) - 1 / 2 < 0) := by linarith
    simp only [h1, if_false, h, if_true]
    rw [static_cast_int_of_nonneg (by linarith), Int.floor_intCast]
  · have hq : (n : ℚ) ≤ 0 := by exact_mod_cast (show n ≤ 0 by omega)
    have h1 : (n : ℚ) - 1 / 2 < 0 := by linarith
    simp only [h1, if_true, h, if_false]
    rw [static_cast_int_of_neg (by linarith), Int.ceil_eq_iff]
    constructor <;> push_cast <;> linarith

/-- A position that is not an integer lies strictly between its floor and the next integer. -/
theorem floor_lt_of_not_int {delta : ℚ} (hd : ∀ n : Int, delta ≠ (n : ℚ)) :
    ((⌊delta⌋ : Int) : ℚ) < delta ∧ delta < ((⌊delta⌋ : Int) : ℚ) + 1 :=
  ⟨lt_of_le_of_ne (Int.floor_le delta) (fun h => hd _ h.symm), Int.lt_floor_add_one delta⟩

/-- The selected cell contains the position: its edges `index` and `index + 1` enclose
`delta`. -/
theorem nearest_cell_center_index_bounds (delta : ℚ) :
    (nearest_cell_center_index delta : ℚ) ≤ delta ∧
      delta ≤ (nearest_cell_center_index delta : ℚ) + 1 := by
  by_cases hd : ∀ n : Int, delta ≠ (n : ℚ)
  · obtain ⟨a, b⟩ := floor_lt_of_not_int hd
    rw [nearest_cell_center_index_interior a b]
    exact ⟨le_of_lt a, le_of_lt b⟩
  · push_neg at hd
    obtain ⟨n, rfl⟩ := hd
    rw [nearest_cell_center_index_intCast]
    by_cases h : 1 ≤ n
    · simp only [h, if_true]
      constructor <;> linarith
    · simp only [h, if_false]
      constructor <;> push_cast <;> linarith

/-- At an integer position the offset is `-1/2` for positive positions and `1/2`
otherwise. -/
theorem nearest_cell_center_offset_intCast (n : Int) :
    nearest_cell_center_offset (n : ℚ) = if 1 ≤ n then -(1 / 2) else 1 / 2 := by
  unfold nearest_cell_center_offset
  have hc : static_cast_int (n : ℚ) = n := by
    unfold static_cast_int
    split_ifs
    · exact Int.floor_intCast n
    · exact Int.ceil_intCast n
  by_cases h : 1 ≤ n
  · have hq : (1 : ℚ) ≤ (n : ℚ) := by exact_mod_cast h
    have h0 : ¬ ((n : ℚ) ≤ 0) := by linarith
    simp only [h, if_true, h0, if_false, hc]
    ring
  · have hq : (n : ℚ) ≤ 0 := by exact_mod_cast (show n ≤ 0 by omega)
    simp only [h, if_false, hq, if_true, hc]
    ring

/-- The offset is the signed distance from `delta` to the centre of the selected cell. -/
theorem nearest_cell_center_offset_eq (delta : ℚ) :
    nearest_cell_center_offset delta
      = delta - ((nearest_cell_center_index delta : ℚ) + 1 / 2) := by
  by_cases hd : ∀ n : Int, delta ≠ (n : ℚ)
  · obtain ⟨a, b⟩ := floor_lt_of_not_int hd
    rw [nearest_cell_center_index_interior a b, nearest_cell_center_offset_interior a b]
  · push_neg at hd
    obtain ⟨n, rfl⟩ := hd
    rw [nearest_cell_center_index_intCast, nearest_cell_center_offset_intCast]
    by_cases h : 1 ≤ n
    · simp only [h, if_true]; ring
    · simp only [h, if_false]; push_cast; ring

/-- Away from the cell edges, moving the position by a whole number of cells moves the
index by the same number. -/
theorem nearest_cell_center_index_add_int {delta : ℚ} (hd : ∀ n : Int, delta ≠ (n : ℚ))
    (k : Int) :
    nearest_cell_center_index (delta + (k : ℚ)) = nearest_cell_center_index delta + k := by
  obtain ⟨a, b⟩ := floor_lt_of_not_int hd
  rw [nearest_cell_center_index_interior a b]
  apply nearest_cell_center_index_interior <;> push_cast <;> linarith

/-- Away from the cell edges, moving the position by a whole number of cells leaves the
offset unchanged. -/
theorem nearest_cell_center_offset_add_int {delta : ℚ} (hd : ∀ n : Int, delta ≠ (n : ℚ))
    (k : Int) :
    nearest_cell_center_offset (delta + (k : ℚ)) = nearest_cell_center_offset delta := by
  obtain ⟨a, b⟩ := floor_lt_of_not_int hd
  rw [nearest_cell_center_offset_interior a b,
    nearest_cell_center_offset_interior (k := ⌊delta⌋ + k) (by push_cast; linarith)
      (by push_cast; linarith)]
  push_cast
  ring

/-- The order-1 stencil, written out. -/
theorem construct_one_eq (M : Nat) (delta : ℚ) :
    ParticleInterpolator.construct (M + 1) delta 1 =
      if nearest_cell_center_offset delta ≥ 0 then
        some { first_cell := nearest_cell_center_index delta,
               last_cell := nearest_cell_center_index delta + 1,
               shape_functions :=
                 some (1 - nearest_cell_center_offset delta) ::
                 some (nearest_cell_center_offset delta) :: List.replicate M none }
      else
        some { first_cell := nearest_cell_center_index delta - 1,
               last_cell := nearest_cell_center_index delta - 1 + 1,
               shape_functions :=
                 some (-nearest_cell_center_offset delta) ::
                 some (1 + nearest_cell_center_offset delta) :: List.replicate M none } := by
  rw [construct_order_1 M delta 1 (by norm_num) (Or.inr (le_refl _)), compute_order_1_eq]

/-- The order-2 stencil, written out. -/
theorem construct_two_eq (M : Nat) (delta : ℚ) :
    ParticleInterpolator.construct (M + 2) delta 2 =
      some { first_cell := nearest_cell_center_index delta - 1,
             last_cell := nearest_cell_center_index delta - 1 + 2,
             shape_functions :=
               some (1 / 2 * (1 / 2 - nearest_cell_center_offset delta)
                  * (1 / 2 - nearest_cell_center_offset delta)) ::
               some (3 / 4 - nearest_cell_center_offset delta * nearest_cell_center_offset delta) ::
               some (1 / 2 * (1 / 2 + nearest_cell_center_offset delta)
                  * (1 / 2 + nearest_cell_center_offset delta)) :: List.replicate M none } := by
  rw [construct_order_2 M delta 2 (by norm_num), compute_order_2_eq]

/-- The order-0 stencil, written out. -/
theorem construct_zero_eq (M : Nat) (delta : ℚ) :
    ParticleInterpolator.construct M delta 0 =
      some { first_cell := nearest_cell_center_index delta,
             last_cell := nearest_cell_center_index delta,
             shape_functions := some 1 :: List.replicate M none } := by
  rw [construct_order_0 M delta 0 (Or.inr (le_refl _)), compute_order_0_eq]

/-- A stencil moved by `k` cells with the same weight array answers the query for cell
`i + k` as the original answers the query for cell `i`. -/
theorem call_translate {M : Nat} (p q : ParticleInterpolator M) (k : Int)
    (hf : q.first = p.first + k) (hl : q.last = p.last + k)
    (hs : q.shape_functions = p.shape_functions) (i : Int) :
    q.call (i + k) = p.call i := by
  unfold ParticleInterpolator.call
  rw [hf, hl, hs]
  have e1 : (i + k ≥ p.first + k) = (i ≥ p.first) := by
    apply propext; constructor <;> intro h <;> omega
  have e2 : (i + k ≤ p.last + k) = (i ≤ p.last) := by
    apply propext; constructor <;> intro h <;> omega
  have e3 : i + k - (p.first + k) = i - p.first := by ring
  simp only [e1, e2, e3]

/-! ## The helpers and the cell geometry -/

/-- In exact arithmetic, with unbounded integers. `nearest_cell_center_index` returns a nearest cell: for every `delta` and every
integer `j`, with the centre of cell `j` at `j + 1/2`, the distance from `delta` to the
centre of the selected cell is at most the distance from `delta` to the centre of cell `j`. -/
theorem exact_nearest_cell_center_index_is_nearest (delta : ℚ) (j : Int) :
    |delta - ((nearest_cell_center_index delta : ℚ) + 1 / 2)| ≤ |delta - ((j : ℚ) + 1 / 2)| := by
  obtain ⟨a, b⟩ := nearest_cell_center_index_bounds delta
  have hnear : |delta - ((nearest_cell_center_index delta : ℚ) + 1 / 2)| ≤ 1 / 2 := by
    rw [abs_le]
    constructor <;> linarith
  rcases lt_trichotomy j (nearest_cell_center_index delta) with hj | hj | hj
  · have hq : (j : ℚ) + 1 ≤ (nearest_cell_center_index delta : ℚ) := by exact_mod_cast hj
    have : 1 / 2 ≤ delta - ((j : ℚ) + 1 / 2) := by linarith
    exact le_trans hnear (le_trans this (le_abs_self _))
  · rw [hj]
  · have hq : (nearest_cell_center_index delta : ℚ) + 1 ≤ (j : ℚ) := by exact_mod_cast hj
    have : 1 / 2 ≤ -(delta - ((j : ℚ) + 1 / 2)) := by linarith
    exact le_trans hnear (le_trans this (neg_le_abs _))

/-- In exact arithmetic, with unbounded integers. The two helpers agree: for every `delta` (integer and negative positions included),
`nearest_cell_center_offset delta` equals `delta - (nearest_cell_center_index delta + 1/2)`,
the signed distance from `delta` to the centre of the selected cell. -/
theorem exact_offset_agrees_with_index (delta : ℚ) :
    nearest_cell_center_offset delta
      = delta - ((nearest_cell_center_index delta : ℚ) + 1 / 2) := by
  by_cases hd : ∀ n : Int, delta ≠ (n : ℚ)
  · -- strictly inside the cell `⌊delta⌋`: both helpers use that cell
    obtain ⟨a, b⟩ := floor_lt_of_not_int hd
    rw [nearest_cell_center_index_interior a b, nearest_cell_center_offset_interior a b]
  · -- on a cell edge `n`: both helpers pick the right cell when `n ≥ 1`, the left one otherwise
    push_neg at hd
    obtain ⟨n, rfl⟩ := hd
    rw [nearest_cell_center_index_intCast, nearest_cell_center_offset_intCast]
    by_cases h : 1 ≤ n
    · rw [if_pos h, if_pos h]; ring
    · rw [if_neg h, if_neg h]; push_cast; ring

/-- C13. Concrete order-1 scenarios, for every maximum order `M + 1 ≥ 1`: `delta = 1/2` gives
`First() = 0`, `Last() = 1` and weights `1, 0`; `delta = 1` gives `First() = 0`, `Last() = 1`
and weights `1/2, 1/2`; `delta = -1/2` gives `First() = -1`, `Last() = 0` and weights
`1, 0`. -/
theorem order_1_scenarios (M : Nat) :
    (∃ p, ParticleInterpolator.construct (M + 1) (1 / 2) 1 = some p ∧
      p.first = 0 ∧ p.last = 1 ∧ p.weights = .ok [1, 0]) ∧
    (∃ p, ParticleInterpolator.construct (M + 1) 1 1 = some p ∧
      p.first = 0 ∧ p.last = 1 ∧ p.weights = .ok [1 / 2, 1 / 2]) ∧
    (∃ p, ParticleInterpolator.construct (M + 1) (-1 / 2) 1 = some p ∧
      p.first = -1 ∧ p.last = 0 ∧ p.weights = .ok [1, 0]) := by
  have ia : nearest_cell_center_index (1 / 2) = 0 :=
    nearest_cell_center_index_interior (k := 0) (by norm_num) (by norm_num)
  have oa : nearest_cell_center_offset (1 / 2) = 0 := by
    rw [nearest_cell_center_offset_interior (k := 0) (by norm_num) (by norm_num)]; norm_num
  have ib : nearest_cell_center_index 1 = 1 := by
    have := nearest_cell_center_index_intCast 1
    simpa using this
  have ob : nearest_cell_center_offset 1 = -(1 / 2) := by
    rw [nearest_cell_center_offset_eq, ib]; norm_num
  have ic : nearest_cell_center_index (-1 / 2) = -1 :=
    nearest_cell_center_index_interior (k := -1) (by norm_num) (by norm_num)
  have oc : nearest_cell_center_offset (-1 / 2) = 0 := by
    rw [nearest_cell_center_offset_interior (k := -1) (by norm_num) (by norm_num)]; norm_num
  refine ⟨?_, ?_, ?_⟩
  · have hc := construct_one_eq M (1 / 2)
    rw [oa, if_pos (le_refl _), ia] at hc
    refine ⟨_, hc, rfl, rfl, ?_⟩
    rw [weights_two]; norm_num
  · have hc := construct_one_eq M 1
    rw [ob, if_neg (by norm_num), ib] at hc
    refine ⟨_, hc, rfl, rfl, ?_⟩
    rw [weights_two]; norm_num
  · have hc := construct_one_eq M (-1 / 2)
    rw [oc, if_pos (le_refl _), ic] at hc
    refine ⟨_, hc, rfl, rfl, ?_⟩
    rw [weights_two]; norm_num

/-- C14. Concrete order-0 and order-2 scenarios: `delta = 1/2` with order 0 (any maximum
order `M`) gives `First() = Last() = 0` and the single weight `1`; `delta = 3/2` with order 2
(any maximum order `M + 2 ≥ 2`) gives `First() = 0`, `Last() = 2` and weights
`1/8, 3/4, 1/8`. -/
theorem order_0_and_order_2_scenarios (M : Nat) :
    (∃ p, ParticleInterpolator.construct M (1 / 2) 0 = some p ∧
      p.first = 0 ∧ p.last = 0 ∧ p.weights = .ok [1]) ∧
    (∃ p, ParticleInterpolator.construct (M + 2) (3 / 2) 2 = some p ∧
      p.first = 0 ∧ p.last = 2 ∧ p.weights = .ok [1 / 8, 3 / 4, 1 / 8]) := by
  have ia : nearest_cell_center_index (1 / 2) = 0 :=
    nearest_cell_center_index_interior (k := 0) (by norm_num) (by norm_num)
  have ib : nearest_cell_center_index (3 / 2) = 1 :=
    nearest_cell_center_index_interior (k := 1) (by norm_num) (by norm_num)
  have ob : nearest_cell_center_offset (3 / 2) = 0 := by
    rw [nearest_cell_center_offset_interior (k := 1) (by norm_num) (by norm_num)]; norm_num
  refine ⟨?_, ?_⟩
  · have hc := construct_zero_eq M (1 / 2)
    rw [ia] at hc
    exact ⟨_, hc, rfl, rfl, weights_one 0 1 _⟩
  · have hc := construct_two_eq M (3 / 2)
    rw [ob, ib] at hc
    refine ⟨_, hc, rfl, rfl, ?_⟩
    rw [show ((1 : Int) - 1 + 2) = (1 - 1 : Int) + 2 from rfl, weights_three]; norm_num

/-! ## Order-1 and order-2 weights as kernels of the distance to the cell centre -/

/-- In exact arithmetic, with unbounded integers. Order-1 bracketing: for every `delta` (and every maximum order `M + 1 ≥ 1`), the two
cells of the order-1 stencil are adjacent, `Last() = First() + 1`, and their centres bracket
`delta`: `First() + 1/2 ≤ delta ≤ Last() + 1/2`. -/
theorem exact_order_1_brackets (M : Nat) (delta : ℚ) :
    ∃ p, ParticleInterpolator.construct (M + 1) delta 1 = some p ∧
      p.last = p.first + 1 ∧
      (p.first : ℚ) + 1 / 2 ≤ delta ∧ delta ≤ (p.last : ℚ) + 1 / 2 := by
  obtain ⟨hlo, hhi⟩ := nearest_cell_center_offset_bounds delta
  have he := nearest_cell_center_offset_eq delta
  have hc := construct_one_eq M delta
  by_cases hs : nearest_cell_center_offset delta ≥ 0
  · rw [if_pos hs] at hc
    refine ⟨_, hc, rfl, ?_, ?_⟩
    · simp only [ParticleInterpolator.first]; linarith
    · simp only [ParticleInterpolator.last]; push_cast; linarith
  · rw [if_neg hs] at hc
    have hs2 : nearest_cell_center_offset delta < 0 := not_le.mp hs
    refine ⟨_, hc, rfl, ?_, ?_⟩
    · simp only [ParticleInterpolator.first]; push_cast; linarith
    · simp only [ParticleInterpolator.last]; push_cast; linarith

/-- In exact arithmetic, with unbounded integers. Order-1 weights are the tent function: for every `delta` and every cell `i` with
`First() ≤ i ≤ Last()` of the order-1 stencil, `Weight(i) = 1 - |delta - (i + 1/2)|`; and for
every integer `j` outside that range, `|delta - (j + 1/2)| ≥ 1`. -/
theorem exact_order_1_weights_are_tent (M : Nat) (delta : ℚ) :
    ∃ p, ParticleInterpolator.construct (M + 1) delta 1 = some p ∧
      (∀ i : Int, p.first ≤ i → i ≤ p.last →
        p.call i = .ok (1 - |delta - ((i : ℚ) + 1 / 2)|)) ∧
      (∀ j : Int, ¬ (p.first ≤ j ∧ j ≤ p.last) → 1 ≤ |delta - ((j : ℚ) + 1 / 2)|) := by
  obtain ⟨hlo, hhi⟩ := nearest_cell_center_offset_bounds delta
  have he := nearest_cell_center_offset_eq delta
  have hc := construct_one_eq M delta
  have outside : ∀ (f : Int), (f : ℚ) + 1 / 2 ≤ delta → delta ≤ (f : ℚ) + 1 + 1 / 2 →
      ∀ j : Int, ¬ (f ≤ j ∧ j ≤ f + 1) → 1 ≤ |delta - ((j : ℚ) + 1 / 2)| := by
    intro f h1 h2 j hj
    have : j ≤ f - 1 ∨ f + 2 ≤ j := by omega
    rcases this with h | h
    · have hq : (j : ℚ) ≤ (f : ℚ) - 1 := by exact_mod_cast h
      exact le_trans (by linarith) (le_abs_self _)
    · have hq : (f : ℚ) + 2 ≤ (j : ℚ) := by exact_mod_cast h
      exact le_trans (by linarith) (neg_le_abs _)
  by_cases hs : nearest_cell_center_offset delta ≥ 0
  · rw [if_pos hs] at hc
    refine ⟨_, hc, fun i h1 h2 => ?_, ?_⟩
    · rcases call_shape_two (M := M + 1) (nearest_cell_center_index delta)
          (1 - nearest_cell_center_offset delta) (nearest_cell_center_offset delta)
          (List.replicate M none) i h1 h2 with ⟨hi, h⟩ | ⟨hi, h⟩
      · rw [h, hi, abs_of_nonneg (by linarith)]
        congr 1; linarith
      · rw [h, hi, abs_of_nonpos (by push_cast; linarith)]
        congr 1; push_cast; linarith
    · exact outside (nearest_cell_center_index delta) (by linarith) (by linarith)
  · rw [if_neg hs] at hc
    have hs2 : nearest_cell_center_offset delta < 0 := not_le.mp hs
    refine ⟨_, hc, fun i h1 h2 => ?_, ?_⟩
    · rcases call_shape_two (M := M + 1) (nearest_cell_center_index delta - 1)
          (-nearest_cell_center_offset delta) (1 + nearest_cell_center_offset delta)
          (List.replicate M none) i h1 h2 with ⟨hi, h⟩ | ⟨hi, h⟩
      · rw [h, hi, abs_of_nonneg (by push_cast; linarith)]
        congr 1; push_cast; linarith
      · rw [h, hi, abs_of_nonpos (by push_cast; linarith)]
        congr 1; push_cast; linarith
    · exact outside (nearest_cell_center_index delta - 1) (by push_cast; linarith)
        (by push_cast; linarith)

/-- In exact arithmetic, with unbounded integers. Order-2 weights are the quadratic B-spline kernel of the distance to the cell
centre: for every `delta` and every cell `i` with `First() ≤ i ≤ Last()` of the order-2
stencil, writing `x = delta - (i + 1/2)`, the query returns a weight `w` with `|x| ≤ 3/2`,
`w = 3/4 - x^2` when `|x| ≤ 1/2`, and `w = (1/2) * (3/2 - |x|)^2` when `1/2 ≤ |x|`. -/
theorem exact_order_2_weights_are_bspline (M : Nat) (delta : ℚ) :
    ∃ p, ParticleInterpolator.construct (M + 2) delta 2 = some p ∧
      ∀ i : Int, p.first ≤ i → i ≤ p.last →
        ∃ w, p.call i = .ok w ∧
          |delta - ((i : ℚ) + 1 / 2)| ≤ 3 / 2 ∧
          (|delta - ((i : ℚ) + 1 / 2)| ≤ 1 / 2 → w = 3 / 4 - (delta - ((i : ℚ) + 1 / 2)) ^ 2) ∧
          (1 / 2 ≤ |delta - ((i : ℚ) + 1 / 2)| →
            w = 1 / 2 * (3 / 2 - |delta - ((i : ℚ) + 1 / 2)|) ^ 2) := by
  obtain ⟨hlo, hhi⟩ := nearest_cell_center_offset_bounds delta
  have he := nearest_cell_center_offset_eq delta
  have hc := construct_two_eq M delta
  refine ⟨_, hc, fun i h1 h2 => ?_⟩
  rcases call_shape_three (M := M + 2) (nearest_cell_center_index delta - 1)
      (1 / 2 * (1 / 2 - nearest_cell_center_offset delta)
        * (1 / 2 - nearest_cell_center_offset delta))
      (3 / 4 - nearest_cell_center_offset delta * nearest_cell_center_offset delta)
      (1 / 2 * (1 / 2 + nearest_cell_center_offset delta)
        * (1 / 2 + nearest_cell_center_offset delta))
      (List.replicate M none) i h1 h2 with ⟨hi, h⟩ | ⟨hi, h⟩ | ⟨hi, h⟩
  · have hx : delta - ((i : ℚ) + 1 / 2) = nearest_cell_center_offset delta + 1 := by
      rw [hi, he]; push_cast; ring
    have hpos : 0 ≤ nearest_cell_center_offset delta + 1 := by linarith
    refine ⟨_, h, ?_, ?_, ?_⟩
    · rw [hx, abs_of_nonneg hpos]; linarith
    · rw [hx, abs_of_nonneg hpos]
      intro hle
      have : nearest_cell_center_offset delta = -(1 / 2) := by linarith
      rw [this]; norm_num
    · rw [hx, abs_of_nonneg hpos]
      intro _
      ring
  · have hx : delta - ((i : ℚ) + 1 / 2) = nearest_cell_center_offset delta := by
      rw [hi, he]; push_cast; ring
    refine ⟨_, h, ?_, ?_, ?_⟩
    · rw [hx, abs_le]; constructor <;> linarith
    · rw [hx]; intro _; ring
    · rw [hx]
      intro hge
      rcases le_or_lt 0 (nearest_cell_center_offset delta) with hp | hn
      · rw [abs_of_nonneg hp] at hge ⊢
        have : nearest_cell_center_offset delta = 1 / 2 := by linarith
        rw [this]; norm_num
      · rw [abs_of_neg hn] at hge ⊢
        have : nearest_cell_center_offset delta = -(1 / 2) := by linarith
        rw [this]; norm_num
  · have hx : delta - ((i : ℚ) + 1 / 2) = nearest_cell_center_offset delta - 1 := by
      rw [hi, he]; push_cast; ring
    have hneg : nearest_cell_center_offset delta - 1 ≤ 0 := by linarith
    refine ⟨_, h, ?_, ?_, ?_⟩
    · rw [hx, abs_of_nonpos hneg]; linarith
    · rw [hx, abs_of_nonpos hneg]
      intro hle
      have : nearest_cell_center_offset delta = 1 / 2 := by linarith
      rw [this]; norm_num
    · rw [hx, abs_of_nonpos hneg]
      intro _
      ring

/-! ## Closed form of the index and translation by whole cells -/

/-- In exact arithmetic, with unbounded integers. Closed form of `nearest_cell_center_index`, with no off-by-one for negative
positions: for every `delta` that is not an integer (negative or positive) the index is
`⌊delta⌋`, the cell containing `delta`; for an integer `delta = n` the index is `n` when
`n ≥ 1` and `n - 1` when `n ≤ 0`; in particular `delta = 0` gives cell `-1` and `delta = 1`
gives cell `1`. -/
theorem exact_nearest_cell_center_index_closed_form :
    (∀ delta : ℚ, (∀ n : Int, delta ≠ (n : ℚ)) → nearest_cell_center_index delta = ⌊delta⌋) ∧
    (∀ n : Int, 1 ≤ n → nearest_cell_center_index (n : ℚ) = n) ∧
    (∀ n : Int, n ≤ 0 → nearest_cell_center_index (n : ℚ) = n - 1) ∧
    nearest_cell_center_index 0 = -1 ∧ nearest_cell_center_index 1 = 1 := by
  refine ⟨fun delta hd => ?_, fun n hn => ?_, fun n hn => ?_, ?_, ?_⟩
  · obtain ⟨a, b⟩ := floor_lt_of_not_int hd
    exact nearest_cell_center_index_interior a b
  · rw [nearest_cell_center_index_intCast, if_pos hn]
  · rw [nearest_cell_center_index_intCast, if_neg (by omega)]
  · have := nearest_cell_center_index_intCast 0
    simpa using this
  · have := nearest_cell_center_index_intCast 1
    simpa using this

/-- Every query inside the range of a constructed stencil succeeds. -/
theorem call_succeeds {M : Nat} {delta : ℚ} {order : Int} {p : ParticleInterpolator M}
    (hp : ParticleInterpolator.construct M delta order = some p) (i : Int)
    (h1 : p.first ≤ i) (h2 : i ≤ p.last) : ∃ w, p.call i = .ok w := by
  rcases construct_shape M delta order with
    ⟨n, r, hc, -⟩ | ⟨n, w0, w1, r, hc, -⟩ | ⟨n, w0, w1, w2, r, hc, -⟩
  · rw [hp] at hc
    obtain rfl := Option.some.inj hc
    exact ⟨_, call_shape_one n 1 r i h1 h2⟩
  · rw [hp] at hc
    obtain rfl := Option.some.inj hc
    rcases call_shape_two (M := M) n w0 w1 r i h1 h2 with ⟨-, h⟩ | ⟨-, h⟩
    exacts [⟨_, h⟩, ⟨_, h⟩]
  · rw [hp] at hc
    obtain rfl := Option.some.inj hc
    rcases call_shape_three (M := M) n w0 w1 w2 r i h1 h2 with ⟨-, h⟩ | ⟨-, h⟩ | ⟨-, h⟩
    exacts [⟨_, h⟩, ⟨_, h⟩, ⟨_, h⟩]

/-- Two constructed stencils whose bounds differ by `k` and whose weight arrays coincide
return the same weights position by position. -/
theorem translated_stencils_agree {M : Nat} {delta : ℚ} {order : Int} (k : Int)
    (p q : ParticleInterpolator M)
    (hp : ParticleInterpolator.construct M delta order = some p)
    (hf : q.first = p.first + k) (hl : q.last = p.last + k)
    (hs : q.shape_functions = p.shape_functions) :
    ∀ i : Int, p.first ≤ i → i ≤ p.last →
      ∃ w, p.call i = .ok w ∧ q.call (i + k) = .ok w := by
  intro i h1 h2
  obtain ⟨w, hw⟩ := call_succeeds hp i h1 h2
  exact ⟨w, hw, by rw [call_translate p q k hf hl hs i, hw]⟩

/-- In exact arithmetic, with unbounded integers. Translation invariance away from cell edges: for every maximum order `M` (in
particular 0, 1 and 2), every integer `order`, every `delta` that is not an integer and every
integer `k`, the stencil for `delta + k` has `First()` and `Last()` equal to those for `delta`
plus `k`, and for `First() ≤ i ≤ Last()` the query `Weight(i + k)` at `delta + k` returns the
weight that `Weight(i)` returns at `delta`.  No assumption is made on the signs of `delta`
and `delta + k`, so the positions may lie on opposite sides of `0` or of `1/2`. -/
theorem exact_translation_invariant (M : Nat) (order : Int) (delta : ℚ) (k : Int)
    (hd : ∀ n : Int, delta ≠ (n : ℚ)) :
    ∃ p q, ParticleInterpolator.construct M delta order = some p ∧
      ParticleInterpolator.construct M (delta + (k : ℚ)) order = some q ∧
      q.first = p.first + k ∧ q.last = p.last + k ∧
      ∀ i : Int, p.first ≤ i → i ≤ p.last →
        ∃ w, p.call i = .ok w ∧ q.call (i + k) = .ok w := by
  have hi := nearest_cell_center_index_add_int hd k
  have hoff := nearest_cell_center_offset_add_int hd k
  by_cases h0 : M = 0 ∨ order ≤ 0
  · have cp := construct_order_0 M delta order h0
    have cq := construct_order_0 M (delta + (k : ℚ)) order h0
    rw [compute_order_0_eq] at cp
    rw [compute_order_0_eq, hi] at cq
    exact ⟨_, _, cp, cq, rfl, rfl, translated_stencils_agree k _ _ cp rfl rfl rfl⟩
  · have ho : 0 < order := by omega
    by_cases h1 : M = 1 ∨ order ≤ 1
    · obtain ⟨M1, rfl⟩ : ∃ M1, M = M1 + 1 := ⟨M - 1, by omega⟩
      have cp := construct_order_1 M1 delta order ho (by omega)
      have cq := construct_order_1 M1 (delta + (k : ℚ)) order ho (by omega)
      rw [compute_order_1_eq] at cp
      rw [compute_order_1_eq, hoff, hi] at cq
      by_cases hs : nearest_cell_center_offset delta ≥ 0
      · rw [if_pos hs] at cp cq
        have hf : nearest_cell_center_index delta + k + 1
            = nearest_cell_center_index delta + 1 + k := by ring
        exact ⟨_, _, cp, cq, rfl, hf, translated_stencils_agree k _ _ cp rfl hf rfl⟩
      · rw [if_neg hs] at cp cq
        have hf : nearest_cell_center_index delta + k - 1
            = nearest_cell_center_index delta - 1 + k := by ring
        have hl : nearest_cell_center_index delta + k - 1 + 1
            = nearest_cell_center_index delta - 1 + 1 + k := by ring
        exact ⟨_, _, cp, cq, hf, hl, translated_stencils_agree k _ _ cp hf hl rfl⟩
    · obtain ⟨M2, rfl⟩ : ∃ M2, M = M2 + 2 := ⟨M - 2, by omega⟩
      have cp := construct_order_2 M2 delta order (by omega)
      have cq := construct_order_2 M2 (delta + (k : ℚ)) order (by omega)
      rw [compute_order_2_eq] at cp
      rw [compute_order_2_eq, hoff, hi] at cq
      have hf : nearest_cell_center_index delta + k - 1
          = nearest_cell_center_index delta - 1 + k := by ring
      have hl : nearest_cell_center_index delta + k - 1 + 2
          = nearest_cell_center_index delta - 1 + 2 + k := by ring
      exact ⟨_, _, cp, cq, hf, hl, translated_stencils_agree k _ _ cp hf hl rfl⟩


/-! ## The program on machine numbers: agreement with exact arithmetic -/

theorem to_int_ok {z : Int} (h1 : -2147483648 ≤ z) (h2 : z ≤ 2147483647) :
    Machine.to_int z = .ok z := by
  simp [Machine.to_int, Machine.INT_MIN, Machine.INT_MAX, h1, h2]

theorem to_int_overflow {z : Int} (h : z < -2147483648 ∨ 2147483647 < z) :
    Machine.to_int z = .error Fault.int_overflow := by
  have : ¬ (-2147483648 ≤ z ∧ z ≤ 2147483647) := by omega
  simp [Machine.to_int, Machine.INT_MIN, Machine.INT_MAX, this]

theorem to_int_eq_ok {z y : Int} (h : Machine.to_int z = .ok y) :
    y = z ∧ -2147483648 ≤ z ∧ z ≤ 2147483647 := by
  unfold Machine.to_int Machine.INT_MIN Machine.INT_MAX at h
  split_ifs at h with hz
  · cases h
    exact ⟨rfl, hz.1, hz.2⟩

theorem bind_eq_ok {ε α β : Type} {x : Except ε α} {f : α → Except ε β} {b : β}
    (h : x.bind f = .ok b) : ∃ a, x = .ok a ∧ f a = .ok b := by
  cases x with
  | error e => cases h
  | ok a => exact ⟨a, rfl, h⟩

/-- Rounding toward zero never increases the magnitude. -/
theorem static_cast_int_range (x : ℚ) (lo hi : Int) (h1 : (lo : ℚ) ≤ x) (h2 : x ≤ (hi : ℚ))
    (hlo : lo ≤ 0) (hhi : 0 ≤ hi) : lo ≤ static_cast_int x ∧ static_cast_int x ≤ hi := by
  by_cases h : 0 ≤ x
  · rw [static_cast_int_of_nonneg h]
    exact ⟨le_trans hlo (Int.floor_nonneg.mpr h), Int.floor_le_iff.mpr (by linarith)⟩
  · have hneg : x < 0 := not_le.mp h
    rw [static_cast_int_of_neg hneg]
    refine ⟨Int.le_ceil_iff.mpr (by linarith), le_trans ?_ hhi⟩
    exact Int.ceil_le.mpr (by exact_mod_cast le_of_lt hneg)

/-- Inside the range, with the executed operations exact, the machine index is the exact
index. -/
theorem machine_index_eq {rnd : ℚ → ℚ} {delta : ℚ} (hr : Machine.InRange delta)
    (hx : Machine.ExactIndex rnd delta) :
    Machine.nearest_cell_center_index rnd delta = .ok (nearest_cell_center_index delta) := by
  obtain ⟨hsign, hsub⟩ := hx
  obtain ⟨a, b⟩ := nearest_cell_center_index_bounds delta
  have hd : (if rnd (delta - 1 / 2) < 0 then rnd (delta - 1) else delta)
      = (if delta - 1 / 2 < 0 then delta - 1 else delta) := by
    by_cases h : delta - 1 / 2 < 0
    · rw [if_pos (hsign.mpr h), if_pos h, hsub h]
    · rw [if_neg (fun h2 => h (hsign.mp h2)), if_neg h]
  unfold Machine.nearest_cell_center_index Machine.static_cast_int
  simp only [hd]
  have e : static_cast_int (if delta - 1 / 2 < 0 then delta - 1 else delta)
      = nearest_cell_center_index delta := rfl
  rw [e]
  apply to_int_ok
  · have : (-2147483647 : ℚ) ≤ (nearest_cell_center_index delta : ℚ) := by linarith [hr.1]
    have : (-2147483647 : Int) ≤ nearest_cell_center_index delta := by exact_mod_cast this
    omega
  · have : (nearest_cell_center_index delta : ℚ) ≤ (2147483646 : ℚ) := by linarith [hr.2]
    have : nearest_cell_center_index delta ≤ (2147483646 : Int) := by exact_mod_cast this
    omega

/-- Inside the range the conversion of `delta` itself succeeds. -/
theorem machine_static_cast_int_eq {delta : ℚ} (hr : Machine.InRange delta) :
    Machine.static_cast_int delta = .ok (static_cast_int delta) := by
  have h := static_cast_int_range delta (-2147483646) 2147483646
    (by have := hr.1; push_cast; linarith) (by have := hr.2; push_cast; linarith)
    (by norm_num) (by norm_num)
  unfold Machine.static_cast_int
  exact to_int_ok (by omega) (by omega)

/-- Inside the range, with the executed operations exact, the machine offset is the exact
offset. -/
theorem machine_offset_eq {rnd : ℚ → ℚ} {delta : ℚ} (hr : Machine.InRange delta)
    (hx : Machine.ExactOffset rnd delta) :
    Machine.nearest_cell_center_offset rnd delta = .ok (nearest_cell_center_offset delta) := by
  obtain ⟨h1, h2, h3, h4⟩ := hx
  unfold Machine.nearest_cell_center_offset
  rw [machine_static_cast_int_eq hr]
  simp only [Except.bind, h1, h2]
  unfold nearest_cell_center_offset
  by_cases h : delta ≤ 0
  · simp only [if_pos h, h3 h]
  · simp only [if_neg h, h4 h]

/-! ## The three computations on machine numbers, written out -/

theorem machine_compute_order_0_eq {rnd : ℚ → ℚ} {delta : ℚ} {n : Int} (M : Nat)
    (hi : Machine.nearest_cell_center_index rnd delta = .ok n) :
    Machine.compute_order_0 rnd M delta =
      .ok { first_cell := n, last_cell := n,
            shape_functions := some 1 :: List.replicate M none } := by
  simp [Machine.compute_order_0, hi, Except.bind, Machine.store, fresh_shape_functions,
    List.replicate_succ]

theorem machine_compute_order_1_eq {rnd : ℚ → ℚ} {delta : ℚ} {n : Int} {o : ℚ} (M : Nat)
    (hi : Machine.nearest_cell_center_index rnd delta = .ok n)
    (ho : Machine.nearest_cell_center_offset rnd delta = .ok o) :
    Machine.compute_order_1 rnd (M + 1) delta =
      if o ≥ 0 then
        (Machine.to_int (n + 1)).bind fun l =>
        .ok { first_cell := n, last_cell := l,
              shape_functions := some (rnd (1 - o)) :: some o :: List.replicate M none }
      else
        (Machine.to_int (n - 1)).bind fun f =>
        (Machine.to_int (f + 1)).bind fun l =>
        .ok { first_cell := f, last_cell := l,
              shape_functions := some (-o) :: some (rnd (1 + o)) :: List.replicate M none } := by
  simp [Machine.compute_order_1, hi, ho, Except.bind, Machine.store, fresh_shape_functions,
    List.replicate_succ]

theorem machine_compute_order_2_eq {rnd : ℚ → ℚ} {delta : ℚ} {n : Int} {o : ℚ} (M : Nat)
    (hi : Machine.nearest_cell_center_index rnd delta = .ok n)
    (ho : Machine.nearest_cell_center_offset rnd delta = .ok o)
    (h1 : -2147483648 ≤ n - 1) (h2 : n - 1 + 2 ≤ 2147483647) :
    Machine.compute_order_2 rnd (M + 2) delta =
      .ok { first_cell := n - 1, last_cell := n - 1 + 2,
            shape_functions :=
              some (rnd (rnd (1 / 2 * rnd (1 / 2 - o)) * rnd (1 / 2 - o))) ::
              some (rnd (3 / 4 - rnd (o * o))) ::
              some (rnd (rnd (1 / 2 * rnd (1 / 2 + o)) * rnd (1 / 2 + o))) ::
              List.replicate M none } := by
  have t1 : Machine.to_int (n - 1) = .ok (n - 1) := to_int_ok h1 (by omega)
  have t2 : Machine.to_int (n - 1 + 2) = .ok (n - 1 + 2) := to_int_ok (by omega) h2
  simp [Machine.compute_order_2, hi, ho, t1, t2, Except.bind, Machine.store,
    fresh_shape_functions, List.replicate_succ]

theorem machine_construct_order_0 (rnd : ℚ → ℚ) (M : Nat) (delta : ℚ) (order : Int)
    (h : M = 0 ∨ order ≤ 0) :
    Machine.construct rnd M delta order = Machine.compute_order_0 rnd M delta := by
  have a : ¬ (M ≥ 2 ∧ order > 1) := by
    rintro ⟨a, b⟩
    rcases h with h | h <;> omega
  have b : ¬ (M ≥ 1 ∧ order > 0) := by
    rintro ⟨a, b⟩
    rcases h with h | h <;> omega
  rw [Machine.construct, if_neg a, if_neg b]

theorem machine_construct_order_1 (rnd : ℚ → ℚ) (M : Nat) (delta : ℚ) (order : Int)
    (h : 0 < order) (h2 : M = 0 ∨ order ≤ 1) :
    Machine.construct rnd (M + 1) delta order = Machine.compute_order_1 rnd (M + 1) delta := by
  have : ¬ (M + 1 ≥ 2 ∧ order > 1) := by
    rintro ⟨a, b⟩
    rcases h2 with h2 | h2 <;> omega
  rw [Machine.construct, if_neg this, if_pos ⟨by omega, h⟩]

theorem machine_construct_order_2 (rnd : ℚ → ℚ) (M : Nat) (delta : ℚ) (order : Int)
    (h : 1 < order) :
    Machine.construct rnd (M + 2) delta order = Machine.compute_order_2 rnd (M + 2) delta := by
  rw [Machine.construct, if_pos ⟨by omega, h⟩]

/-- The exact index leaves room in `int` for the three cells of a stencil. -/
theorem index_in_int_range {delta : ℚ} (hr : Machine.InRange delta) :
    -2147483647 ≤ nearest_cell_center_index delta ∧
      nearest_cell_center_index delta ≤ 2147483646 := by
  obtain ⟨a, b⟩ := nearest_cell_center_index_bounds delta
  constructor
  · have : (-2147483647 : ℚ) ≤ (nearest_cell_center_index delta : ℚ) := by linarith [hr.1]
    exact_mod_cast this
  · have : (nearest_cell_center_index delta : ℚ) ≤ (2147483646 : ℚ) := by linarith [hr.2]
    exact_mod_cast this

/-- Inside the range, with every executed operation exact, the constructor on machine
numbers returns the stencil of exact arithmetic. -/
theorem machine_construct_eq {rnd : ℚ → ℚ} {M : Nat} {delta : ℚ} {order : Int}
    (hr : Machine.InRange delta) (hx : Machine.Exact rnd M delta order) :
    ∃ p, ParticleInterpolator.construct M delta order = some p ∧
      Machine.construct rnd M delta order = .ok p := by
  obtain ⟨r1, r2⟩ := index_in_int_range hr
  by_cases h0 : M = 0 ∨ order ≤ 0
  · have a : ¬ (M ≥ 2 ∧ order > 1) := by
      rintro ⟨a, b⟩
      rcases h0 with h | h <;> omega
    have b : ¬ (M ≥ 1 ∧ order > 0) := by
      rintro ⟨a, b⟩
      rcases h0 with h | h <;> omega
    rw [Machine.Exact, if_neg a, if_neg b] at hx
    refine ⟨_, by rw [construct_order_0 M delta order h0, compute_order_0_eq], ?_⟩
    rw [machine_construct_order_0 rnd M delta order h0,
      machine_compute_order_0_eq M (machine_index_eq hr hx)]
  · have ho : 0 < order := by omega
    by_cases h1 : M = 1 ∨ order ≤ 1
    · obtain ⟨M1, rfl⟩ : ∃ M1, M = M1 + 1 := ⟨M - 1, by omega⟩
      have a : ¬ (M1 + 1 ≥ 2 ∧ order > 1) := by
        rintro ⟨a, b⟩
        rcases h1 with h | h <;> omega
      rw [Machine.Exact, if_neg a, if_pos ⟨by omega, ho⟩] at hx
      obtain ⟨xi, xo, w1, w2⟩ := hx
      have hc := construct_order_1 M1 delta order ho (by omega)
      rw [compute_order_1_eq] at hc
      have hm := machine_construct_order_1 rnd M1 delta order ho (by omega)
      rw [machine_compute_order_1_eq M1 (machine_index_eq hr xi) (machine_offset_eq hr xo)] at hm
      by_cases hs : nearest_cell_center_offset delta ≥ 0
      · rw [if_pos hs] at hc hm
        rw [to_int_ok (by omega) (by omega)] at hm
        simp only [Except.bind, w1 hs] at hm
        exact ⟨_, hc, hm⟩
      · rw [if_neg hs] at hc hm
        rw [to_int_ok (by omega) (by omega)] at hm
        simp only [Except.bind] at hm
        rw [to_int_ok (by omega) (by omega)] at hm
        simp only [w2 hs] at hm
        exact ⟨_, hc, hm⟩
    · obtain ⟨M2, rfl⟩ : ∃ M2, M = M2 + 2 := ⟨M - 2, by omega⟩
      rw [Machine.Exact, if_pos ⟨by omega, by omega⟩] at hx
      obtain ⟨xi, xo, e1, e2, e3, e4, e5, e6, e7, e8⟩ := hx
      have hc := construct_order_2 M2 delta order (by omega)
      rw [compute_order_2_eq] at hc
      have hm := machine_construct_order_2 rnd M2 delta order (by omega)
      rw [machine_compute_order_2_eq M2 (machine_index_eq hr xi) (machine_offset_eq hr xo)
        (by omega) (by omega)] at hm
      simp only [e1, e2, e3, e4, e5, e6, e7, e8] at hm
      exact ⟨_, hc, hm⟩

/-! ## Queries on machine numbers -/

/-- A query that succeeds in the exact reading succeeds with the same weight on machine
numbers, in every build, provided the slot index fits an `int`. -/
theorem machine_call_of_call {M : Nat} (a : Bool) (junk : Nat → ℚ) (p : ParticleInterpolator M)
    (i : Int) (w : ℚ) (h : p.call i = .ok w) (hi : i - p.first ≤ 2147483647) :
    Machine.call a junk p i = .ok w := by
  unfold ParticleInterpolator.call AMREX_ASSERT at h
  by_cases hc : (decide (i ≥ p.first) && decide (i ≤ p.last)) = true
  · simp only [hc, if_true] at h
    have hr : p.first ≤ i := by
      simp only [Bool.and_eq_true, decide_eq_true_eq] at hc
      exact hc.1
    unfold load at h
    have hk : ¬ (i - p.first < 0) := by omega
    rw [if_neg hk] at h
    unfold Machine.call Machine.AMREX_ASSERT
    rw [to_int_ok (by omega) hi]
    cases a <;> simp only [hc, if_true, Except.bind, Machine.load, if_neg hk] <;>
      · revert h
        cases p.shape_functions.get? (i - p.first).toNat with
        | none => intro h; cases h
        | some x =>
          cases x with
          | none => intro h; cases h
          | some v => intro h; exact h
  · simp only [hc] at h
    cases h

/-- With the assertion active, a query outside the range fails the assertion. -/
theorem machine_call_out_of_range {M : Nat} (junk : Nat → ℚ) (p : ParticleInterpolator M)
    (i : Int) (h : ¬ (p.first ≤ i ∧ i ≤ p.last)) :
    Machine.call true junk p i = .error Fault.assertion_failed := by
  have : (decide (i ≥ p.first) && decide (i ≤ p.last)) = false := by
    simpa [not_and] using h
  simp [Machine.call, Machine.AMREX_ASSERT, this, Except.bind]

theorem mem_cells {M : Nat} (p : ParticleInterpolator M) (i : Int) (h : i ∈ p.cells) :
    p.first ≤ i ∧ i ≤ p.last := by
  simp only [ParticleInterpolator.cells, List.mem_map, List.bind_eq_flatMap, List.mem_flatMap,
    List.mem_range, List.pure_def, List.mem_singleton] at h
  obtain ⟨j, ⟨k, hk, rfl⟩, rfl⟩ := h
  constructor <;> omega

theorem machine_weightsOn_of {M : Nat} (a : Bool) (junk : Nat → ℚ)
    (p : ParticleInterpolator M) (l : List Int) :
    ∀ ws, p.weightsOn l = .ok ws → (∀ i ∈ l, i - p.first ≤ 2147483647) →
      Machine.weightsOn a junk p l = .ok ws := by
  induction l with
  | nil =>
    intro ws h _
    simpa [ParticleInterpolator.weightsOn, Machine.weightsOn] using h
  | cons i rest ih =>
    intro ws h hb
    unfold ParticleInterpolator.weightsOn at h
    cases hc : p.call i with
    | error e => rw [hc] at h; cases h
    | ok w =>
      rw [hc] at h
      cases hr : p.weightsOn rest with
      | error e => simp only [hr] at h; cases h
      | ok ws2 =>
        simp only [hr] at h
        unfold Machine.weightsOn
        rw [machine_call_of_call a junk p i w hc (hb i (List.mem_cons_self _ _)),
          ih ws2 hr (fun j hj => hb j (List.mem_cons_of_mem _ hj))]
        simpa [Except.bind] using h

/-- The weights over the stencil agree with the exact reading when the stencil is at most
`2^31` cells wide. -/
theorem machine_weights_of {M : Nat} (a : Bool) (junk : Nat → ℚ) (p : ParticleInterpolator M)
    (ws : List ℚ) (h : p.weights = .ok ws) (hw : p.last - p.first ≤ 2147483647) :
    Machine.weights a junk p = .ok ws := by
  unfold Machine.weights
  apply machine_weightsOn_of a junk p p.cells ws h
  intro i hi
  have := mem_cells p i hi
  omega

/-! ## The shape of every stencil the constructor returns, for any rounding -/

theorem machine_index_fits {rnd : ℚ → ℚ} {delta : ℚ} {n : Int}
    (h : Machine.nearest_cell_center_index rnd delta = .ok n) :
    -2147483648 ≤ n ∧ n ≤ 2147483647 := by
  unfold Machine.nearest_cell_center_index Machine.static_cast_int at h
  obtain ⟨rfl, a, b⟩ := to_int_eq_ok h
  exact ⟨a, b⟩

/-- Whatever the rounding, a stencil returned by the constructor has one of three shapes,
chosen by the guards of the constructor: one, two or three written weights followed by
unwritten slots, with `Last()` equal to `First()` plus 0, 1 or 2, all within `int`. -/
theorem machine_construct_shape {rnd : ℚ → ℚ} {M : Nat} {delta : ℚ} {order : Int}
    {p : ParticleInterpolator M} (h : Machine.construct rnd M delta order = .ok p) :
    (¬ (M ≥ 2 ∧ order > 1) ∧ ¬ (M ≥ 1 ∧ order > 0) ∧
      ∃ n r, p = { first_cell := n, last_cell := n, shape_functions := some 1 :: r }
        ∧ r.length = M ∧ -2147483648 ≤ n ∧ n ≤ 2147483647) ∨
    (¬ (M ≥ 2 ∧ order > 1) ∧ (M ≥ 1 ∧ order > 0) ∧
      ∃ n w0 w1 r, p = { first_cell := n, last_cell := n + 1,
                         shape_functions := some w0 :: some w1 :: r }
        ∧ r.length + 1 = M ∧ -2147483648 ≤ n ∧ n + 1 ≤ 2147483647) ∨
    ((M ≥ 2 ∧ order > 1) ∧
      ∃ n w0 w1 w2 r, p = { first_cell := n, last_cell := n + 2,
                            shape_functions := some w0 :: some w1 :: some w2 :: r }
        ∧ r.length + 2 = M ∧ -2147483648 ≤ n ∧ n + 2 ≤ 2147483647) := by
  unfold Machine.construct at h
  by_cases c2 : M ≥ 2 ∧ order > 1
  · right; right
    rw [if_pos c2] at h
    obtain ⟨M2, rfl⟩ : ∃ M2, M = M2 + 2 := ⟨M - 2, by omega⟩
    unfold Machine.compute_order_2 at h
    obtain ⟨n, hn, h⟩ := bind_eq_ok h
    obtain ⟨f, hf, h⟩ := bind_eq_ok h
    obtain ⟨l, hl, h⟩ := bind_eq_ok h
    obtain ⟨o, ho, h⟩ := bind_eq_ok h
    obtain ⟨rfl, f1, f2⟩ := to_int_eq_ok hf
    obtain ⟨rfl, l1, l2⟩ := to_int_eq_ok hl
    simp only [Machine.store, fresh_shape_functions, List.replicate_succ, List.length_cons,
      Nat.zero_lt_succ, if_true, Except.bind, List.set_cons_zero, List.set_cons_succ,
      Nat.succ_lt_succ_iff, lt_add_iff_pos_left, add_pos_iff, zero_lt_one, or_true,
      Except.ok.injEq] at h
    exact ⟨c2, _, _, _, _, _, h.symm, by simp, f1, l2⟩
  · rw [if_neg c2] at h
    by_cases c1 : M ≥ 1 ∧ order > 0
    · right; left
      rw [if_pos c1] at h
      obtain ⟨M1, rfl⟩ : ∃ M1, M = M1 + 1 := ⟨M - 1, by omega⟩
      unfold Machine.compute_order_1 at h
      obtain ⟨n, hn, h⟩ := bind_eq_ok h
      obtain ⟨o, ho, h⟩ := bind_eq_ok h
      obtain ⟨n1, n2⟩ := machine_index_fits hn
      by_cases hs : o ≥ 0
      · rw [if_pos hs] at h
        simp only [Machine.store, fresh_shape_functions, List.replicate_succ, List.length_cons,
          Nat.zero_lt_succ, if_true, Except.bind, List.set_cons_zero, List.set_cons_succ,
          Nat.succ_lt_succ_iff, lt_add_iff_pos_left, add_pos_iff, zero_lt_one, or_true] at h
        obtain ⟨l, hl, h⟩ := bind_eq_ok h
        obtain ⟨rfl, l1, l2⟩ := to_int_eq_ok hl
        simp only [Except.ok.injEq] at h
        exact ⟨c2, c1, _, _, _, _, h.symm, by simp, n1, l2⟩
      · rw [if_neg hs] at h
        obtain ⟨f, hf, h⟩ := bind_eq_ok h
        obtain ⟨rfl, f1, f2⟩ := to_int_eq_ok hf
        simp only [Machine.store, fresh_shape_functions, List.replicate_succ, List.length_cons,
          Nat.zero_lt_succ, if_true, Except.bind, List.set_cons_zero, List.set_cons_succ,
          Nat.succ_lt_succ_iff, lt_add_iff_pos_left, add_pos_iff, zero_lt_one, or_true] at h
        obtain ⟨l, hl, h⟩ := bind_eq_ok h
        obtain ⟨rfl, l1, l2⟩ := to_int_eq_ok hl
        simp only [Except.ok.injEq] at h
        exact ⟨c2, c1, _, _, _, _, h.symm, by simp, f1, l2⟩
    · left
      rw [if_neg c1] at h
      unfold Machine.compute_order_0 at h
      obtain ⟨n, hn, h⟩ := bind_eq_ok h
      obtain ⟨n1, n2⟩ := machine_index_fits hn
      simp only [Machine.store, fresh_shape_functions, List.replicate_succ, List.length_cons,
        Nat.zero_lt_succ, if_true, Except.bind, List.set_cons_zero, Except.ok.injEq] at h
      exact ⟨c2, c1, _, _, h.symm, by simp, n1, n2⟩

/-- The constructor never writes a weight outside the weight array, whatever its inputs. -/
theorem machine_construct_no_out_of_bounds (rnd : ℚ → ℚ) (M : Nat) (delta : ℚ) (order : Int) :
    Machine.construct rnd M delta order ≠ .error Fault.out_of_bounds := by
  have ti : ∀ z : Int, Machine.to_int z ≠ .error Fault.out_of_bounds := by
    intro z
    unfold Machine.to_int
    split_ifs <;> simp
  have hidx : Machine.nearest_cell_center_index rnd delta ≠ .error Fault.out_of_bounds := by
    unfold Machine.nearest_cell_center_index Machine.static_cast_int
    exact ti _
  have hoff : Machine.nearest_cell_center_offset rnd delta ≠ .error Fault.out_of_bounds := by
    unfold Machine.nearest_cell_center_offset Machine.static_cast_int
    cases ht : Machine.to_int (static_cast_int delta) with
    | error e =>
      simp only [Except.bind]
      intro hc
      cases hc
      exact ti _ ht
    | ok t => simp [Except.bind]
  intro h
  unfold Machine.construct at h
  by_cases c2 : M ≥ 2 ∧ order > 1
  · rw [if_pos c2] at h
    obtain ⟨M2, rfl⟩ : ∃ M2, M = M2 + 2 := ⟨M - 2, by omega⟩
    unfold Machine.compute_order_2 at h
    cases hn : Machine.nearest_cell_center_index rnd delta with
    | error e =>
      rw [hn] at h hidx
      simp only [Except.bind, Except.error.injEq] at h
      exact hidx (by rw [h])
    | ok n =>
      rw [hn] at h
      simp only [Except.bind] at h
      cases hf : Machine.to_int (n - 1) with
      | error e =>
        rw [hf] at h
        simp only [Except.error.injEq] at h
        exact ti _ (by rw [hf, h])
      | ok f =>
        rw [hf] at h
        simp only [] at h
        cases hl : Machine.to_int (f + 2) with
        | error e =>
          rw [hl] at h
          simp only [Except.error.injEq] at h
          exact ti _ (by rw [hl, h])
        | ok l =>
          rw [hl] at h
          simp only [] at h
          cases ho : Machine.nearest_cell_center_offset rnd delta with
          | error e =>
            rw [ho] at h hoff
            simp only [Except.error.injEq] at h
            exact hoff (by rw [h])
          | ok o =>
            rw [ho] at h
            simp [Machine.store, fresh_shape_functions, List.replicate_succ] at h
  · rw [if_neg c2] at h
    by_cases c1 : M ≥ 1 ∧ order > 0
    · rw [if_pos c1] at h
      obtain ⟨M1, rfl⟩ : ∃ M1, M = M1 + 1 := ⟨M - 1, by omega⟩
      unfold Machine.compute_order_1 at h
      cases hn : Machine.nearest_cell_center_index rnd delta with
      | error e =>
        rw [hn] at h hidx
        simp only [Except.bind, Except.error.injEq] at h
        exact hidx (by rw [h])
      | ok n =>
        rw [hn] at h
        simp only [Except.bind] at h
        cases ho : Machine.nearest_cell_center_offset rnd delta with
        | error e =>
          rw [ho] at h hoff
          simp only [Except.error.injEq] at h
          exact hoff (by rw [h])
        | ok o =>
          rw [ho] at h
          simp only [] at h
          by_cases hs : o ≥ 0
          · rw [if_pos hs] at h
            simp only [Machine.store, fresh_shape_functions, List.replicate_succ,
              List.length_cons, Nat.zero_lt_succ, if_true, List.set_cons_zero,
              List.set_cons_succ, Nat.succ_lt_succ_iff, lt_add_iff_pos_left, add_pos_iff,
              zero_lt_one, or_true] at h
            cases hl : Machine.to_int (n + 1) with
            | error e =>
              rw [hl] at h
              simp only [Except.error.injEq] at h
              exact ti _ (by rw [hl, h])
            | ok l =>
              rw [hl] at h
              cases h
          · rw [if_neg hs] at h
            cases hf : Machine.to_int (n - 1) with
            | error e =>
              rw [hf] at h
              simp only [Except.error.injEq] at h
              exact ti _ (by rw [hf, h])
            | ok f =>
              rw [hf] at h
              simp only [Machine.store, fresh_shape_functions, List.replicate_succ,
                List.length_cons, Nat.zero_lt_succ, if_true, List.set_cons_zero,
                List.set_cons_succ, Nat.succ_lt_succ_iff, lt_add_iff_pos_left, add_pos_iff,
                zero_lt_one, or_true] at h
              cases hl : Machine.to_int (f + 1) with
              | error e =>
                rw [hl] at h
                simp only [Except.error.injEq] at h
                exact ti _ (by rw [hl, h])
              | ok l =>
                rw [hl] at h
                cases h
    · rw [if_neg c1] at h
      unfold Machine.compute_order_0 at h
      cases hn : Machine.nearest_cell_center_index rnd delta with
      | error e =>
        rw [hn] at h hidx
        simp only [Except.bind, Except.error.injEq] at h
        exact hidx (by rw [h])
      | ok n =>
        rw [hn] at h
        simp [Except.bind, Machine.store, fresh_shape_functions, List.replicate_succ] at h

/-! ## IEEE rounding -/

/-- A value at most half a unit above an integer, the half excluded, rounds to that
integer. -/
theorem round_half_even_of_near {m : ℚ} {n : Int} (h1 : (n : ℚ) ≤ m) (h2 : m - (n : ℚ) < 1 / 2) :
    Machine.round_half_even m = n := by
  have hf : ⌊m⌋ = n := by
    rw [Int.floor_eq_iff]
    constructor <;> linarith
  unfold Machine.round_half_even
  rw [hf, if_pos h2]

/-- The binary exponent of a positive rational is determined by the enclosing powers of
two. -/
theorem int_log_two_eq {r : ℚ} {e : Int} (h1 : (2 : ℚ) ^ e ≤ r) (h2 : r < (2 : ℚ) ^ (e + 1)) :
    Int.log 2 r = e := by
  have hr : 0 < r := lt_of_lt_of_le (zpow_pos (by norm_num) e) h1
  have a : e ≤ Int.log 2 r := by
    have := (Int.zpow_le_iff_le_log (b := 2) (by norm_num) hr (x := e)).mp
      (by simpa using h1)
    exact this
  have b : Int.log 2 r < e + 1 := by
    have := (Int.lt_zpow_iff_log_lt (b := 2) (by norm_num) hr (x := e + 1)).mp
      (by simpa using h2)
    exact this
  omega

/-- Evaluation of the rounding: with `2^e ≤ |x| < 2^(e+1)` and the unit `2^q` of that
binade, a value whose multiple of the unit lies less than half a unit above the integer `n`
rounds to `n` units. -/
theorem round_binary_eval {prec : Nat} {emin : Int} {x : ℚ} (e q n : Int)
    (h1 : (2 : ℚ) ^ e ≤ |x|) (h2 : |x| < (2 : ℚ) ^ (e + 1))
    (hq : q = max (e + 1 - (prec : Int)) emin)
    (hn1 : (n : ℚ) ≤ x / (2 : ℚ) ^ q) (hn2 : x / (2 : ℚ) ^ q - (n : ℚ) < 1 / 2) :
    Machine.round_binary prec emin x = (n : ℚ) * (2 : ℚ) ^ q := by
  have hx : x ≠ 0 := by
    intro h0
    rw [h0, abs_zero] at h1
    exact absurd h1 (not_le.mpr (zpow_pos (by norm_num) e))
  unfold Machine.round_binary
  rw [if_neg hx]
  simp only [int_log_two_eq h1 h2, ← hq, round_half_even_of_near hn1 hn2]

/-- A dyadic rational `n / 2^k` whose numerator has fewer than `prec` bits is a number of
the format, and rounding leaves it unchanged. -/
theorem round_binary_dyadic {prec : Nat} {emin : Int} (n : Int) (k : Nat)
    (hn : |n| < 2 ^ prec) (hk : emin ≤ -(k : Int)) :
    Machine.round_binary prec emin ((n : ℚ) / (2 : ℚ) ^ k) = (n : ℚ) / (2 : ℚ) ^ k := by
  by_cases h0 : n = 0
  · subst h0
    simp [Machine.round_binary]
  have hpos : (0 : ℚ) < (2 : ℚ) ^ k := pow_pos (by norm_num) k
  have hx : (n : ℚ) / (2 : ℚ) ^ k ≠ 0 := by
    apply div_ne_zero
    · exact_mod_cast h0
    · exact ne_of_gt hpos
  have habs : |(n : ℚ) / (2 : ℚ) ^ k| = (|n| : ℚ) / (2 : ℚ) ^ k := by
    rw [abs_div, abs_of_pos hpos]
  have hxpos : 0 < |(n : ℚ) / (2 : ℚ) ^ k| := abs_pos.mpr hx
  -- the exponent of the binade is below `prec - k`
  have he : Int.log 2 |(n : ℚ) / (2 : ℚ) ^ k| + 1 - (prec : Int) ≤ -(k : Int) := by
    have hlt : |(n : ℚ) / (2 : ℚ) ^ k| < ((2 : ℕ) : ℚ) ^ ((prec : Int) - (k : Int)) := by
      rw [habs, zpow_sub₀ (by norm_num), zpow_natCast, zpow_natCast]
      apply div_lt_div_of_pos_right _ hpos
      have : ((|n| : Int) : ℚ) < ((2 ^ prec : Int) : ℚ) := by exact_mod_cast hn
      push_cast at this
      simpa using this
    have := (Int.lt_zpow_iff_log_lt (b := 2) (by norm_num) hxpos).mp hlt
    omega
  have hq : max (Int.log 2 |(n : ℚ) / (2 : ℚ) ^ k| + 1 - (prec : Int)) emin ≤ -(k : Int) :=
    max_le he hk
  unfold Machine.round_binary
  rw [if_neg hx]
  simp only []
  generalize max (Int.log 2 |(n : ℚ) / (2 : ℚ) ^ k| + 1 - (prec : Int)) emin = q at hq
  -- `x / 2^q` is the integer `n * 2^(-k-q)`
  obtain ⟨j, hj⟩ : ∃ j : Nat, -(k : Int) - q = (j : Int) := ⟨(-(k : Int) - q).toNat, by omega⟩
  have hqk : q = -(k : Int) - (j : Int) := by omega
  have hdiv : (n : ℚ) / (2 : ℚ) ^ k / (2 : ℚ) ^ q = ((n * 2 ^ j : Int) : ℚ) := by
    rw [hqk, zpow_sub₀ (by norm_num), zpow_neg, zpow_natCast, zpow_natCast]
    push_cast
    field_simp
    ring
  rw [hdiv, round_half_even_of_near (n := n * 2 ^ j) (le_refl _) (by simp)]
  rw [hqk, zpow_sub₀ (by norm_num), zpow_neg, zpow_natCast, zpow_natCast]
  push_cast
  field_simp
  ring

/-- Double precision represents every `n / 2^k` with `|n| < 2^53` and `k ≤ 1074`. -/
theorem binary64_dyadic (n : Int) (k : Nat) (hn : |n| < 2 ^ 53) (hk : k ≤ 1074) :
    Machine.binary64 ((n : ℚ) / (2 : ℚ) ^ k) = (n : ℚ) / (2 : ℚ) ^ k := by
  unfold Machine.binary64
  exact round_binary_dyadic n k hn (by omega)

/-- Double precision represents `x` when `x = n / 2^k` with `|n| < 2^53` and `k ≤ 1074`. -/
theorem binary64_exact {x : ℚ} (n : Int) (k : Nat) (hx : x = (n : ℚ) / (2 : ℚ) ^ k)
    (hn : |n| < 2 ^ 53) (hk : k ≤ 1074) : Machine.binary64 x = x := by
  rw [hx]
  exact binary64_dyadic n k hn hk

/-- In double precision `2^-60 - 1` rounds to `-1`. -/
theorem binary64_tiny_sub_one : Machine.binary64 (1 / 2 ^ 60 - 1) = -1 := by
  unfold Machine.binary64
  rw [round_binary_eval (-1) (-53) (-(2 ^ 53)) (by norm_num [abs_of_neg]) (by norm_num [abs_of_neg])
    (by norm_num) (by norm_num) (by norm_num)]
  norm_num

/-- In double precision `2^-60 - 1/2` rounds to `-1/2`. -/
theorem binary64_tiny_sub_half : Machine.binary64 (1 / 2 ^ 60 - 1 / 2) = -(1 / 2) := by
  unfold Machine.binary64
  rw [round_binary_eval (-2) (-54) (-(2 ^ 53)) (by norm_num [abs_of_neg]) (by norm_num [abs_of_neg])
    (by norm_num) (by norm_num) (by norm_num)]
  norm_num

/-! ## Double precision just above the lower edge of the domain

At `delta = 2^-60` the subtraction `delta - 1` of `nearest_cell_center_index` rounds to
`-1`, and the subtraction `fraction - 1/2` of `nearest_cell_center_offset` rounds to `-1/2`. -/

theorem binary64_index_tiny :
    Machine.nearest_cell_center_index Machine.binary64 (1 / 2 ^ 60) = .ok (-1) := by
  unfold Machine.nearest_cell_center_index Machine.static_cast_int
  rw [binary64_tiny_sub_half, binary64_tiny_sub_one]
  have h : static_cast_int (-1 : ℚ) = -1 := by
    have c : ⌈(-1 : ℚ)⌉ = -1 := by
      rw [Int.ceil_eq_iff]
      constructor <;> norm_num
    rw [static_cast_int_of_neg (by norm_num), c]
  simp only [show (-(1 / 2) : ℚ) < 0 by norm_num, if_true, h]
  exact to_int_ok (by norm_num) (by norm_num)

theorem binary64_offset_tiny :
    Machine.nearest_cell_center_offset Machine.binary64 (1 / 2 ^ 60) = .ok (-(1 / 2)) := by
  unfold Machine.nearest_cell_center_offset Machine.static_cast_int
  have h : static_cast_int (1 / 2 ^ 60 : ℚ) = 0 := by
    unfold static_cast_int
    rw [if_pos (by norm_num), Int.floor_eq_iff]
    constructor <;> norm_num
  rw [h, to_int_ok (by norm_num) (by norm_num)]
  have z : Machine.binary64 ((0 : Int) : ℚ) = 0 := by
    simp [Machine.binary64, Machine.round_binary]
  have e : Machine.binary64 (1 / 2 ^ 60 - 0) = 1 / 2 ^ 60 :=
    (binary64_exact 1 60 (by norm_num) (by norm_num) (by norm_num)).trans (by norm_num)
  simp only [Except.bind, z, e, show ¬ ((1 / 2 ^ 60 : ℚ) ≤ 0) by norm_num, if_false,
    binary64_tiny_sub_half]

/-- In double precision the order-1 stencil at `delta = 2^-60` is cells `-2` and `-1` with
weights `1/2` and `1/2`. -/
theorem binary64_order_1_tiny (M : Nat) :
    Machine.construct Machine.binary64 (M + 1) (1 / 2 ^ 60) 1 =
      .ok { first_cell := -2, last_cell := -1,
            shape_functions := some (1 / 2) :: some (1 / 2) :: List.replicate M none } := by
  rw [machine_construct_order_1 _ M _ 1 (by norm_num) (Or.inr (le_refl _)),
    machine_compute_order_1_eq M binary64_index_tiny binary64_offset_tiny,
    if_neg (by norm_num)]
  have e : Machine.binary64 (1 + -(1 / 2)) = 1 / 2 :=
    (binary64_exact 1 1 (by norm_num) (by norm_num) (by norm_num)).trans (by norm_num)
  rw [e, to_int_ok (by norm_num) (by norm_num)]
  simp only [Except.bind]
  rw [to_int_ok (by norm_num) (by norm_num)]
  norm_num

/-- In double precision the order-2 stencil at `delta = 2^-60` is cells `-2`, `-1`, `0` with
weights `1/2`, `1/2`, `0`. -/
theorem binary64_order_2_tiny (M : Nat) :
    Machine.construct Machine.binary64 (M + 2) (1 / 2 ^ 60) 2 =
      .ok { first_cell := -2, last_cell := 0,
            shape_functions :=
              some (1 / 2) :: some (1 / 2) :: some 0 :: List.replicate M none } := by
  rw [machine_construct_order_2 _ M _ 2 (by norm_num),
    machine_compute_order_2_eq M binary64_index_tiny binary64_offset_tiny (by norm_num)
      (by norm_num)]
  have e1 : Machine.binary64 (1 / 2 - -(1 / 2)) = 1 :=
    (binary64_exact 1 0 (by norm_num) (by norm_num) (by norm_num)).trans (by norm_num)
  have e2 : Machine.binary64 (1 / 2 * 1) = 1 / 2 :=
    (binary64_exact 1 1 (by norm_num) (by norm_num) (by norm_num)).trans (by norm_num)
  have e3 : Machine.binary64 (-(1 / 2) * -(1 / 2)) = 1 / 4 :=
    (binary64_exact 1 2 (by norm_num) (by norm_num) (by norm_num)).trans (by norm_num)
  have e4 : Machine.binary64 (3 / 4 - 1 / 4) = 1 / 2 :=
    (binary64_exact 1 1 (by norm_num) (by norm_num) (by norm_num)).trans (by norm_num)
  have e5 : Machine.binary64 (1 / 2 + -(1 / 2)) = 0 :=
    (binary64_exact 0 0 (by norm_num) (by norm_num) (by norm_num)).trans (by norm_num)
  have e6 : Machine.binary64 (1 / 2 * 0) = 0 :=
    (binary64_exact 0 0 (by norm_num) (by norm_num) (by norm_num)).trans (by norm_num)
  have e7 : Machine.binary64 (0 * 0) = 0 :=
    (binary64_exact 0 0 (by norm_num) (by norm_num) (by norm_num)).trans (by norm_num)
  simp only [e1, e2, e3, e4, e5, e6, e7]
  norm_num

/-! ## Double precision on the grid of spacing `2^-20`

For a position that is a multiple of `2^-20` inside the range, every operation of the
constructor is exact in double precision. -/

theorem small_product_bound (c d : Int) (hc : |c| ≤ 1048576) (hd : |d| ≤ 1048576) :
    |c * d| < 2 ^ 53 := by
  rw [abs_mul]
  have : |c| * |d| ≤ 1048576 * 1048576 :=
    mul_le_mul hc hd (abs_nonneg d) (by norm_num)
  calc |c| * |d| ≤ 1048576 * 1048576 := this
    _ < 2 ^ 53 := by norm_num

/-- On the grid the exact offset is a multiple of `2^-20` of magnitude at most `1/2`. -/
theorem grid_offset (n : Int) :
    ∃ m : Int, |m| ≤ 524288 ∧
      nearest_cell_center_offset ((n : ℚ) / 2 ^ 20) = (m : ℚ) / 2 ^ 20 := by
  obtain ⟨lo, hi⟩ := nearest_cell_center_offset_bounds ((n : ℚ) / 2 ^ 20)
  have he := nearest_cell_center_offset_eq ((n : ℚ) / 2 ^ 20)
  refine ⟨n - nearest_cell_center_index ((n : ℚ) / 2 ^ 20) * 1048576 - 524288, ?_, ?_⟩
  · have e : nearest_cell_center_offset ((n : ℚ) / 2 ^ 20)
        = ((n - nearest_cell_center_index ((n : ℚ) / 2 ^ 20) * 1048576 - 524288 : Int) : ℚ)
            / 2 ^ 20 := by
      rw [he]; push_cast; ring
    rw [e] at lo hi
    rw [abs_le]
    constructor
    · have : ((-524288 : Int) : ℚ) ≤
          ((n - nearest_cell_center_index ((n : ℚ) / 2 ^ 20) * 1048576 - 524288 : Int) : ℚ) := by
        rw [le_div_iff₀ (by norm_num)] at lo
        push_cast at lo ⊢
        linarith
      exact_mod_cast this
    · have : ((n - nearest_cell_center_index ((n : ℚ) / 2 ^ 20) * 1048576 - 524288 : Int) : ℚ)
          ≤ ((524288 : Int) : ℚ) := by
        rw [div_le_iff₀ (by norm_num)] at hi
        push_cast at hi ⊢
        linarith
      exact_mod_cast this
  · rw [he]; push_cast; ring

theorem grid_numerator_bound {n : Int} (hr : Machine.InRange ((n : ℚ) / 2 ^ 20)) :
    -2251799811588096 ≤ n ∧ n ≤ 2251799811588096 := by
  obtain ⟨a, b⟩ := hr
  rw [le_div_iff₀ (by norm_num)] at a
  rw [div_le_iff₀ (by norm_num)] at b
  constructor
  · have : ((-2251799811588096 : Int) : ℚ) ≤ (n : ℚ) := by push_cast; linarith
    exact_mod_cast this
  · have : (n : ℚ) ≤ ((2251799811588096 : Int) : ℚ) := by push_cast; linarith
    exact_mod_cast this

theorem binary64_exact_index_grid {n : Int} (hr : Machine.InRange ((n : ℚ) / 2 ^ 20)) :
    Machine.ExactIndex Machine.binary64 ((n : ℚ) / 2 ^ 20) := by
  obtain ⟨a, b⟩ := grid_numerator_bound hr
  have e1 : Machine.binary64 ((n : ℚ) / 2 ^ 20 - 1 / 2) = (n : ℚ) / 2 ^ 20 - 1 / 2 :=
    binary64_exact (n - 524288) 20 (by push_cast; ring) (by rw [abs_lt]; constructor <;> omega)
      (by norm_num)
  have e2 : Machine.binary64 ((n : ℚ) / 2 ^ 20 - 1) = (n : ℚ) / 2 ^ 20 - 1 :=
    binary64_exact (n - 1048576) 20 (by push_cast; ring) (by rw [abs_lt]; constructor <;> omega)
      (by norm_num)
  exact ⟨by rw [e1], fun _ => e2⟩

theorem binary64_exact_offset_grid {n : Int} (hr : Machine.InRange ((n : ℚ) / 2 ^ 20)) :
    Machine.ExactOffset Machine.binary64 ((n : ℚ) / 2 ^ 20) := by
  obtain ⟨a, b⟩ := grid_numerator_bound hr
  have ht := static_cast_int_range ((n : ℚ) / 2 ^ 20) (-2147483646) 2147483646 (by have := hr.1; push_cast; linarith)
    (by have := hr.2; push_cast; linarith) (by norm_num) (by norm_num)
  unfold Machine.ExactOffset
  generalize static_cast_int ((n : ℚ) / 2 ^ 20) = t at ht ⊢
  obtain ⟨t1, t2⟩ := ht
  refine ⟨?_, ?_, fun _ => ?_, fun _ => ?_⟩
  · exact binary64_exact t 0 (by simp) (by rw [abs_lt]; constructor <;> omega) (by norm_num)
  · exact binary64_exact (n - t * 1048576) 20 (by push_cast; ring)
      (by rw [abs_lt]; constructor <;> omega) (by norm_num)
  · exact binary64_exact (n - t * 1048576 + 524288) 20 (by push_cast; ring)
      (by rw [abs_lt]; constructor <;> omega) (by norm_num)
  · exact binary64_exact (n - t * 1048576 - 524288) 20 (by push_cast; ring)
      (by rw [abs_lt]; constructor <;> omega) (by norm_num)

theorem binary64_exact_order_1_grid {n : Int} (hr : Machine.InRange ((n : ℚ) / 2 ^ 20)) :
    Machine.ExactOrder1 Machine.binary64 ((n : ℚ) / 2 ^ 20) := by
  obtain ⟨m, hm, ho⟩ := grid_offset n
  rw [abs_le] at hm
  refine ⟨binary64_exact_index_grid hr, binary64_exact_offset_grid hr, fun _ => ?_, fun _ => ?_⟩
  · rw [ho]
    exact binary64_exact (1048576 - m) 20 (by push_cast; ring)
      (by rw [abs_lt]; constructor <;> omega) (by norm_num)
  · rw [ho]
    exact binary64_exact (1048576 + m) 20 (by push_cast; ring)
      (by rw [abs_lt]; constructor <;> omega) (by norm_num)

theorem binary64_exact_order_2_grid {n : Int} (hr : Machine.InRange ((n : ℚ) / 2 ^ 20)) :
    Machine.ExactOrder2 Machine.binary64 ((n : ℚ) / 2 ^ 20) := by
  obtain ⟨m, hm, ho⟩ := grid_offset n
  have hm2 := hm
  rw [abs_le] at hm2
  have ba : |524288 - m| ≤ 1048576 := by rw [abs_le]; constructor <;> omega
  have bb : |524288 + m| ≤ 1048576 := by rw [abs_le]; constructor <;> omega
  have bm : |m| ≤ 1048576 := by omega
  have sq : 0 ≤ m * m ∧ m * m ≤ 274877906944 := by
    constructor
    · exact mul_self_nonneg m
    · have := abs_mul_abs_self m
      have h2 : |m| * |m| ≤ 524288 * 524288 := mul_le_mul hm hm (abs_nonneg m) (by norm_num)
      rw [this] at h2
      linarith
  refine ⟨binary64_exact_index_grid hr, binary64_exact_offset_grid hr, ?_, ?_, ?_, ?_, ?_, ?_,
    ?_, ?_⟩ <;> rw [ho]
  · exact binary64_exact (524288 - m) 20 (by push_cast; ring)
      (by rw [abs_lt]; constructor <;> omega) (by norm_num)
  · exact binary64_exact (524288 - m) 21 (by push_cast; ring)
      (by rw [abs_lt]; constructor <;> omega) (by norm_num)
  · exact binary64_exact ((524288 - m) * (524288 - m)) 41 (by push_cast; ring)
      (small_product_bound _ _ ba ba) (by norm_num)
  · exact binary64_exact (m * m) 40 (by push_cast; ring)
      (small_product_bound _ _ bm bm) (by norm_num)
  · exact binary64_exact (824633720832 - m * m) 40 (by push_cast; ring)
      (by rw [abs_lt]; constructor <;> linarith [sq.1, sq.2]) (by norm_num)
  · exact binary64_exact (524288 + m) 20 (by push_cast; ring)
      (by rw [abs_lt]; constructor <;> omega) (by norm_num)
  · exact binary64_exact (524288 + m) 21 (by push_cast; ring)
      (by rw [abs_lt]; constructor <;> omega) (by norm_num)
  · exact binary64_exact ((524288 + m) * (524288 + m)) 41 (by push_cast; ring)
      (small_product_bound _ _ bb bb) (by norm_num)

/-- For a multiple of `2^-20` inside the range, every operation the constructor executes is
exact in double precision, whatever the orders. -/
theorem binary64_exact_grid {n : Int} (hr : Machine.InRange ((n : ℚ) / 2 ^ 20)) (M : Nat)
    (order : Int) : Machine.Exact Machine.binary64 M ((n : ℚ) / 2 ^ 20) order := by
  unfold Machine.Exact
  split_ifs
  · exact binary64_exact_order_2_grid hr
  · exact binary64_exact_order_1_grid hr
  · exact binary64_exact_index_grid hr

/-! ## Helpers for the properties on machine numbers -/

/-- Exact arithmetic rounds nothing. -/
theorem exact_id (M : Nat) (delta : ℚ) (order : Int) : Machine.Exact id M delta order := by
  unfold Machine.Exact Machine.ExactOrder2 Machine.ExactOrder1 Machine.ExactOffset
    Machine.ExactIndex
  split_ifs <;> simp

/-- A returned stencil is at most three cells wide. -/
theorem machine_width {rnd : ℚ → ℚ} {M : Nat} {delta : ℚ} {order : Int}
    {p : ParticleInterpolator M} (h : Machine.construct rnd M delta order = .ok p) :
    0 ≤ p.last - p.first ∧ p.last - p.first ≤ 2 ∧ p.last - p.first ≤ (M : Int) ∧
      p.shape_functions.length = M + 1 := by
  rcases machine_construct_shape h with
    ⟨-, -, n, r, rfl, hr, -⟩ | ⟨-, -, n, w0, w1, r, rfl, hr, -⟩ |
    ⟨-, n, w0, w1, w2, r, rfl, hr, -⟩ <;>
  · simp only [ParticleInterpolator.first, ParticleInterpolator.last, List.length_cons]
    omega

/-- Inside the range, with every executed operation exact, the stencil on machine numbers
is the stencil of exact arithmetic, and every query inside its range returns the same
weight in every build. -/
theorem machine_agrees {rnd : ℚ → ℚ} {M : Nat} {delta : ℚ} {order : Int}
    (hr : Machine.InRange delta) (hx : Machine.Exact rnd M delta order) :
    ∃ p, ParticleInterpolator.construct M delta order = some p ∧
      Machine.construct rnd M delta order = .ok p ∧
      (∀ (a : Bool) (junk : Nat → ℚ) (i : Int) (w : ℚ),
        p.call i = .ok w → Machine.call a junk p i = .ok w) ∧
      (∀ (a : Bool) (junk : Nat → ℚ) (ws : List ℚ),
        p.weights = .ok ws → Machine.weights a junk p = .ok ws) := by
  obtain ⟨p, hp, hm⟩ := machine_construct_eq hr hx
  obtain ⟨w0, w2, -, -⟩ := machine_width hm
  refine ⟨p, hp, hm, fun a junk i w hw => ?_, fun a junk ws hw => ?_⟩
  · apply machine_call_of_call a junk p i w hw
    by_cases hin : p.first ≤ i ∧ i ≤ p.last
    · omega
    · rw [call_out_of_range p i hin] at hw
      cases hw
  · exact machine_weights_of a junk p ws hw (by omega)

/-- When the last cell of the order-2 stencil does not fit an `int`, the construction
stops with an integer overflow. -/
theorem machine_compute_order_2_overflow {rnd : ℚ → ℚ} {delta : ℚ} {n : Int} (M : Nat)
    (hi : Machine.nearest_cell_center_index rnd delta = .ok n)
    (h1 : -2147483648 ≤ n - 1) (h2 : 2147483647 < n - 1 + 2) :
    Machine.compute_order_2 rnd M delta = .error Fault.int_overflow := by
  have hf := machine_index_fits hi
  have t1 : Machine.to_int (n - 1) = .ok (n - 1) := to_int_ok h1 (by omega)
  have t2 : Machine.to_int (n - 1 + 2) = .error Fault.int_overflow :=
    to_int_overflow (Or.inr h2)
  simp [Machine.compute_order_2, hi, t1, t2, Except.bind]

/-- In exact arithmetic the index at `2147483647 + 1/2` is `2147483647`, the greatest
`int`. -/
theorem machine_index_at_int_max :
    Machine.nearest_cell_center_index id (4294967295 / 2) = .ok 2147483647 := by
  have hi : nearest_cell_center_index (4294967295 / 2) = 2147483647 :=
    nearest_cell_center_index_interior (k := 2147483647) (by norm_num) (by norm_num)
  unfold Machine.nearest_cell_center_index Machine.static_cast_int
  simp only [id]
  have e : static_cast_int (if (4294967295 / 2 - 1 / 2 : ℚ) < 0 then (4294967295 / 2 - 1 : ℚ)
      else 4294967295 / 2) = nearest_cell_center_index (4294967295 / 2) := rfl
  rw [e, hi]
  exact to_int_ok (by norm_num) (by norm_num)

/-- In exact arithmetic the order-2 construction at `2147483647 + 1/2` overflows `int` in
`last_cell = first_cell + 2`. -/
theorem machine_order_2_at_int_max (M : Nat) (order : Int) (ho : 1 < order) :
    Machine.construct id (M + 2) (4294967295 / 2) order = .error Fault.int_overflow := by
  rw [machine_construct_order_2 id M _ order ho]
  exact machine_compute_order_2_overflow (M + 2) machine_index_at_int_max (by norm_num)
    (by norm_num)

/-- The conversion of `3000000000` to `int` overflows, in any arithmetic. -/
theorem machine_index_three_billion :
    Machine.nearest_cell_center_index id 3000000000 = .error Fault.int_overflow := by
  have hi : static_cast_int (3000000000 : ℚ) = 3000000000 := by
    rw [static_cast_int_of_nonneg (by norm_num)]
    simp
  unfold Machine.nearest_cell_center_index Machine.static_cast_int
  simp only [id]
  rw [if_neg (by norm_num), hi]
  exact to_int_overflow (Or.inr (by norm_num))

/-! ## Properties of the constructed stencil on machine numbers -/

/-- C1, as stated, fails: in exact arithmetic, at `delta = 2147483647 + 1/2` with order 2
the index is `2147483647`, `first_cell` is `2147483646`, and `last_cell = first_cell + 2`
does not fit an `int`, so no stencil is constructed and no weights sum to one. -/
theorem partition_of_unity_counterexample :
    Machine.construct id 2 (4294967295 / 2) 2 = .error Fault.int_overflow ∧
    ¬ ∃ p ws, Machine.construct id 2 (4294967295 / 2) 2 = .ok p ∧
      Machine.weights true (fun _ => 0) p = .ok ws ∧ ws.sum = 1 := by
  have h := machine_order_2_at_int_max 0 2 (by norm_num)
  refine ⟨h, ?_⟩
  rintro ⟨p, ws, hp, -⟩
  rw [show (0 + 2 : Nat) = 2 from rfl] at h
  rw [h] at hp
  cases hp

/-- C1, amended: for every maximum order `M`, every integer `order`, every rounding of the
real type and every `delta` with `|delta| ≤ 2^31 - 2` at which the operations of the
constructor are exact (always so in exact rational arithmetic), the construction succeeds,
every query `Weight(i)` for `i` from `First()` to `Last()` succeeds, in every build, and the
weights returned add up to exactly one. -/
theorem machine_partition_of_unity (rnd : ℚ → ℚ) (a : Bool) (junk : Nat → ℚ) (M : Nat) (delta : ℚ)
    (order : Int) (hr : Machine.InRange delta) (hx : Machine.Exact rnd M delta order) :
    ∃ p ws, Machine.construct rnd M delta order = .ok p ∧
      Machine.weights a junk p = .ok ws ∧ ws.sum = 1 := by
  obtain ⟨p, hp, hm, -, hw⟩ := machine_agrees hr hx
  obtain ⟨p2, ws, hp2, hws, hs⟩ := exact_partition_of_unity M delta order
  rw [hp] at hp2
  obtain rfl := Option.some.inj hp2
  exact ⟨p, ws, hm, hw a junk ws hws, hs⟩

/-- Witness for C1 amended: double precision, maximum order 2, order 2, `delta = 3/4`
written as `786432 / 2^20`, in a build without assertions. -/
theorem machine_partition_of_unity_witness :
    Machine.InRange (((786432 : Int) : ℚ) / 2 ^ 20) ∧
    Machine.Exact Machine.binary64 2 (((786432 : Int) : ℚ) / 2 ^ 20) 2 ∧
    ∃ p ws, Machine.construct Machine.binary64 2 (((786432 : Int) : ℚ) / 2 ^ 20) 2 = .ok p ∧
      Machine.weights false (fun _ => 0) p = .ok ws ∧ ws.sum = 1 :=
  have hr : Machine.InRange (((786432 : Int) : ℚ) / 2 ^ 20) := by
    constructor <;> norm_num
  ⟨hr, binary64_exact_grid hr 2 2,
    machine_partition_of_unity Machine.binary64 false (fun _ => 0) 2 _ 2 hr (binary64_exact_grid hr 2 2)⟩

/-- C2, as stated, fails: at `delta = 3000000000` with order 1 the conversion
`static_cast<int>(delta)` in `nearest_cell_center_index` does not fit an `int`; the
behaviour is undefined and no stencil with non-negative weights is constructed. -/
theorem weights_nonneg_counterexample :
    Machine.construct id 1 3000000000 1 = .error Fault.int_overflow ∧
    ¬ ∃ p, Machine.construct id 1 3000000000 1 = .ok p ∧
      ∀ i : Int, p.first ≤ i → i ≤ p.last →
        ∃ w, Machine.call true (fun _ => 0) p i = .ok w ∧ 0 ≤ w := by
  have h : Machine.construct id 1 3000000000 1 = .error Fault.int_overflow := by
    rw [machine_construct_order_1 id 0 _ 1 (by norm_num) (Or.inl rfl)]
    simp [Machine.compute_order_1, machine_index_three_billion, Except.bind]
  refine ⟨h, ?_⟩
  rintro ⟨p, hp, -⟩
  rw [h] at hp
  cases hp

/-- C2, amended: for every maximum order `M`, every integer `order`, every rounding of the
real type and every `delta` with `|delta| ≤ 2^31 - 2` at which the operations of the
constructor are exact, each query `Weight(i)` with `First() ≤ i ≤ Last()` on the constructed
stencil returns, in every build, a weight that is at least zero. -/
theorem machine_weights_nonneg (rnd : ℚ → ℚ) (a : Bool) (junk : Nat → ℚ) (M : Nat) (delta : ℚ)
    (order : Int) (hr : Machine.InRange delta) (hx : Machine.Exact rnd M delta order) :
    ∃ p, Machine.construct rnd M delta order = .ok p ∧
      ∀ i : Int, p.first ≤ i → i ≤ p.last →
        ∃ w, Machine.call a junk p i = .ok w ∧ 0 ≤ w := by
  obtain ⟨p, hp, hm, hc, -⟩ := machine_agrees hr hx
  obtain ⟨p2, hp2, hw⟩ := exact_weights_nonneg M delta order
  rw [hp] at hp2
  obtain rfl := Option.some.inj hp2
  refine ⟨p, hm, fun i h1 h2 => ?_⟩
  obtain ⟨w, hcw, h0⟩ := hw i h1 h2
  exact ⟨w, hc a junk i w hcw, h0⟩

/-- Witness for C2 amended: double precision, maximum order 2, order 1, `delta = -1/4`
written as `-262144 / 2^20`. -/
theorem machine_weights_nonneg_witness :
    Machine.InRange (((-262144 : Int) : ℚ) / 2 ^ 20) ∧
    Machine.Exact Machine.binary64 2 (((-262144 : Int) : ℚ) / 2 ^ 20) 1 ∧
    ∃ p, Machine.construct Machine.binary64 2 (((-262144 : Int) : ℚ) / 2 ^ 20) 1 = .ok p ∧
      ∀ i : Int, p.first ≤ i → i ≤ p.last →
        ∃ w, Machine.call true (fun _ => 0) p i = .ok w ∧ 0 ≤ w :=
  have hr : Machine.InRange (((-262144 : Int) : ℚ) / 2 ^ 20) := by
    constructor <;> norm_num
  ⟨hr, binary64_exact_grid hr 2 1,
    machine_weights_nonneg Machine.binary64 true (fun _ => 0) 2 _ 1 hr (binary64_exact_grid hr 2 1)⟩

/-- C3, as stated, fails: in exact arithmetic, at `delta = 2147483647 + 1/2` with order 2 and
maximum order 3, `last_cell = first_cell + 2` overflows `int`; no stencil with
`Last() - First() = 2` is constructed. -/
theorem stencil_width_counterexample :
    ((2 : Int) = 0 ∨ (2 : Int) = 1 ∨ (2 : Int) = 2) ∧ (2 : Int) ≤ ((3 : Nat) : Int) ∧
    Machine.construct id 3 (4294967295 / 2) 2 = .error Fault.int_overflow ∧
    ¬ ∃ p, Machine.construct id 3 (4294967295 / 2) 2 = .ok p ∧ p.last - p.first = 2 := by
  have h := machine_order_2_at_int_max 1 2 (by norm_num)
  rw [show (1 + 2 : Nat) = 3 from rfl] at h
  refine ⟨by decide, by decide, h, ?_⟩
  rintro ⟨p, hp, -⟩
  rw [h] at hp
  cases hp

/-- C3, amended: for every `order` among 0, 1 and 2 with maximum order `M ≥ order`, every
rounding of the real type and every `delta`: every stencil the constructor returns (that is,
whenever no `int` overflows) satisfies `Last() - First() = order`; and the constructor does
return a stencil for every `delta` with `|delta| ≤ 2^31 - 2` at which its operations are
exact. -/
theorem machine_stencil_width (rnd : ℚ → ℚ) (M : Nat) (delta : ℚ) (order : Int)
    (ho : order = 0 ∨ order = 1 ∨ order = 2) (hM : order ≤ (M : Int)) :
    (∀ p, Machine.construct rnd M delta order = .ok p → p.last - p.first = order) ∧
    (Machine.InRange delta → Machine.Exact rnd M delta order →
      ∃ p, Machine.construct rnd M delta order = .ok p) := by
  constructor
  · intro p hp
    rcases machine_construct_shape hp with
      ⟨c2, c1, n, r, rfl, -⟩ | ⟨c2, c1, n, w0, w1, r, rfl, -⟩ |
      ⟨c2, n, w0, w1, w2, r, rfl, -⟩ <;>
    · simp only [ParticleInterpolator.first, ParticleInterpolator.last]
      omega
  · intro hr hx
    obtain ⟨p, -, hm, -⟩ := machine_agrees hr hx
    exact ⟨p, hm⟩

/-- Witness for C3 amended: double precision, maximum order 2, order 2, `delta = 3/4`. -/
theorem machine_stencil_width_witness :
    ((2 : Int) = 0 ∨ (2 : Int) = 1 ∨ (2 : Int) = 2) ∧ (2 : Int) ≤ ((2 : Nat) : Int) ∧
    ((∀ p, Machine.construct Machine.binary64 2 (((786432 : Int) : ℚ) / 2 ^ 20) 2 = .ok p →
        p.last - p.first = 2) ∧
      (Machine.InRange (((786432 : Int) : ℚ) / 2 ^ 20) →
        Machine.Exact Machine.binary64 2 (((786432 : Int) : ℚ) / 2 ^ 20) 2 →
        ∃ p, Machine.construct Machine.binary64 2 (((786432 : Int) : ℚ) / 2 ^ 20) 2 = .ok p)) :=
  ⟨by decide, by decide,
    machine_stencil_width Machine.binary64 2 (((786432 : Int) : ℚ) / 2 ^ 20) 2 (by decide) (by decide)⟩

/-- C5, as stated, fails: in exact arithmetic, at `delta = 2147483647 + 1/2`, maximum order 2
and requested order 7, `last_cell = first_cell + 2` overflows `int`; no stencil with
`0 ≤ Last() - First() ≤ 2` is constructed. -/
theorem weight_storage_counterexample :
    Machine.construct id 2 (4294967295 / 2) 7 = .error Fault.int_overflow ∧
    ¬ ∃ p, Machine.construct id 2 (4294967295 / 2) 7 = .ok p ∧
      0 ≤ p.last - p.first ∧ p.last - p.first ≤ 2 := by
  have h := machine_order_2_at_int_max 0 7 (by norm_num)
  rw [show (0 + 2 : Nat) = 2 from rfl] at h
  refine ⟨h, ?_⟩
  rintro ⟨p, hp, -⟩
  rw [h] at hp
  cases hp

/-- C5, amended: for every maximum order `M`, every integer `order` (above `M` and negative
ones included), every rounding of the real type and every `delta`: the constructor never
writes a weight outside the weight array; every stencil it returns (that is, whenever no
`int` overflows) keeps the `M + 1` slots, satisfies `0 ≤ Last() - First() ≤ M`, and every slot
`i - First()` read by `Weight(i)` for `First() ≤ i ≤ Last()` lies within the `M + 1` slots; and
the constructor does return a stencil for every `delta` with `|delta| ≤ 2^31 - 2` at which
its operations are exact. -/
theorem machine_weight_storage_in_bounds (rnd : ℚ → ℚ) (M : Nat) (delta : ℚ) (order : Int) :
    Machine.construct rnd M delta order ≠ .error Fault.out_of_bounds ∧
    (∀ p, Machine.construct rnd M delta order = .ok p →
      p.shape_functions.length = M + 1 ∧
      0 ≤ p.last - p.first ∧ p.last - p.first ≤ (M : Int) ∧
      ∀ i : Int, p.first ≤ i → i ≤ p.last →
        0 ≤ i - p.first ∧ (i - p.first).toNat < p.shape_functions.length) ∧
    (Machine.InRange delta → Machine.Exact rnd M delta order →
      ∃ p, Machine.construct rnd M delta order = .ok p) := by
  refine ⟨machine_construct_no_out_of_bounds rnd M delta order, fun p hp => ?_,
    fun hr hx => ?_⟩
  · obtain ⟨w0, -, wM, hl⟩ := machine_width hp
    refine ⟨hl, w0, wM, fun i h1 h2 => ⟨by omega, ?_⟩⟩
    rw [hl]
    omega
  · obtain ⟨p, -, hm, -⟩ := machine_agrees hr hx
    exact ⟨p, hm⟩

/-- C6, as stated, fails: in a build without the assertion, the order-0 stencil at
`delta = 1/2` with maximum order 2 has `First() = Last() = 0`, and the query `Weight(1)`,
outside that range, fails no assertion and returns a value: what the unwritten slot 1 of
the weight array holds (here `7`). -/
theorem weight_query_counterexample :
    ∃ p, Machine.construct id 2 (1 / 2) 0 = .ok p ∧ p.first = 0 ∧ p.last = 0 ∧
      ¬ (p.first ≤ 1 ∧ 1 ≤ p.last) ∧
      Machine.call false (fun _ => 7) p 1 = .ok 7 := by
  have hr : Machine.InRange (1 / 2) := by constructor <;> norm_num
  have hi := machine_index_eq hr (exact_id 0 (1 / 2) 0)
  have ia : nearest_cell_center_index (1 / 2) = 0 :=
    nearest_cell_center_index_interior (k := 0) (by norm_num) (by norm_num)
  rw [ia] at hi
  have hc := machine_construct_order_0 id 2 (1 / 2) 0 (Or.inr (le_refl _))
  rw [machine_compute_order_0_eq 2 hi] at hc
  refine ⟨_, hc, rfl, rfl, ?_, ?_⟩
  · simp [ParticleInterpolator.first, ParticleInterpolator.last]
  · simp [Machine.call, Machine.AMREX_ASSERT, Machine.to_int, Machine.INT_MIN, Machine.INT_MAX,
      Machine.load, Except.bind, ParticleInterpolator.first, List.replicate_succ]

/-- C6, amended: for every stencil the constructor returns and every integer `i`: when
`First() ≤ i ≤ Last()` the query `Weight(i)` succeeds, in every build, and returns the weight
stored in slot `i - First()`; in a build with the range assertion active, the query for `i`
outside that range fails the assertion and returns no weight, so that the query succeeds
exactly when `i` is in range.  (What an out-of-range query does in a build without the
assertion is left open.) -/
theorem machine_weight_query_contract (rnd : ℚ → ℚ) (M : Nat) (delta : ℚ) (order : Int)
    (p : ParticleInterpolator M) (hp : Machine.construct rnd M delta order = .ok p)
    (a : Bool) (junk : Nat → ℚ) (i : Int) :
    ((p.first ≤ i ∧ i ≤ p.last) →
      ∃ w, p.shape_functions.get? (i - p.first).toNat = some (some w) ∧
        Machine.call a junk p i = .ok w) ∧
    (a = true → ¬ (p.first ≤ i ∧ i ≤ p.last) →
      Machine.call a junk p i = .error Fault.assertion_failed) ∧
    (a = true → ((∃ w, Machine.call a junk p i = .ok w) ↔ (p.first ≤ i ∧ i ≤ p.last))) := by
  have inr : (p.first ≤ i ∧ i ≤ p.last) →
      ∃ w, p.shape_functions.get? (i - p.first).toNat = some (some w) ∧
        Machine.call a junk p i = .ok w := by
    rintro ⟨h1, h2⟩
    have hwid := (machine_width hp).2.1
    rcases machine_construct_shape hp with
      ⟨-, -, n, r, rfl, -⟩ | ⟨-, -, n, w0, w1, r, rfl, -⟩ | ⟨-, n, w0, w1, w2, r, rfl, -⟩
    · have hi : i = n := le_antisymm h2 h1
      refine ⟨1, by simp [ParticleInterpolator.first, hi], ?_⟩
      exact machine_call_of_call a junk _ i 1 (call_shape_one n 1 r i h1 h2) (by omega)
    · rcases call_shape_two (M := M) n w0 w1 r i h1 h2 with ⟨hi, h⟩ | ⟨hi, h⟩
      · exact ⟨w0, by simp [ParticleInterpolator.first, hi],
          machine_call_of_call a junk _ i w0 h (by omega)⟩
      · exact ⟨w1, by simp [ParticleInterpolator.first, hi],
          machine_call_of_call a junk _ i w1 h (by omega)⟩
    · rcases call_shape_three (M := M) n w0 w1 w2 r i h1 h2 with ⟨hi, h⟩ | ⟨hi, h⟩ | ⟨hi, h⟩
      · exact ⟨w0, by simp [ParticleInterpolator.first, hi],
          machine_call_of_call a junk _ i w0 h (by omega)⟩
      · exact ⟨w1, by simp [ParticleInterpolator.first, hi],
          machine_call_of_call a junk _ i w1 h (by omega)⟩
      · exact ⟨w2, by simp [ParticleInterpolator.first, hi],
          machine_call_of_call a junk _ i w2 h (by omega)⟩
  refine ⟨inr, fun ha hout => ?_, fun ha => ⟨?_, fun hin => ?_⟩⟩
  · subst ha
    exact machine_call_out_of_range junk p i hout
  · rintro ⟨w, hw⟩
    by_contra hn
    subst ha
    rw [machine_call_out_of_range junk p i hn] at hw
    cases hw
  · obtain ⟨w, -, hw⟩ := inr hin
    exact ⟨w, hw⟩

/-- Witness for C6 amended: double precision, maximum order 2, order 1, `delta = 3/4`, the
stencil returned there, a build with the assertion active, and the cell `i = 5`. -/
theorem machine_weight_query_contract_witness :
    ∃ p, Machine.construct Machine.binary64 2 (((786432 : Int) : ℚ) / 2 ^ 20) 1 = .ok p ∧
      (((p.first ≤ 5 ∧ 5 ≤ p.last) →
        ∃ w, p.shape_functions.get? (5 - p.first).toNat = some (some w) ∧
          Machine.call true (fun _ => 0) p 5 = .ok w) ∧
      (true = true → ¬ (p.first ≤ 5 ∧ 5 ≤ p.last) →
        Machine.call true (fun _ => 0) p 5 = .error Fault.assertion_failed) ∧
      (true = true → ((∃ w, Machine.call true (fun _ => 0) p 5 = .ok w) ↔
        (p.first ≤ 5 ∧ 5 ≤ p.last)))) :=
  have hr : Machine.InRange (((786432 : Int) : ℚ) / 2 ^ 20) := by
    constructor <;> norm_num
  Exists.elim (machine_agrees hr (binary64_exact_grid hr 2 1)) fun p h =>
    ⟨p, h.2.1, machine_weight_query_contract Machine.binary64 2 _ 1 p h.2.1 true (fun _ => 0) 5⟩

/-- C8, as stated, fails: in exact arithmetic, for `k = 2147483647` the order-2 construction
at `delta = k + 1/2` overflows `int` in `last_cell = first_cell + 2`; no stencil is
constructed. -/
theorem order_2_symmetry_counterexample :
    Machine.construct id 2 (((2147483647 : Int) : ℚ) + 1 / 2) 2 = .error Fault.int_overflow ∧
    ¬ ∃ p, Machine.construct id 2 (((2147483647 : Int) : ℚ) + 1 / 2) 2 = .ok p ∧
      p.last = p.first + 2 := by
  have e : (((2147483647 : Int) : ℚ) + 1 / 2) = 4294967295 / 2 := by norm_num
  have h := machine_order_2_at_int_max 0 2 (by norm_num)
  rw [show (0 + 2 : Nat) = 2 from rfl] at h
  rw [e]
  refine ⟨h, ?_⟩
  rintro ⟨p, hp, -⟩
  rw [h] at hp
  cases hp

/-- C8, amended: for every maximum order `M ≥ 2`, every rounding of the real type and every
integer `k` (positive, zero or negative) such that `delta = k + 1/2` satisfies
`|delta| ≤ 2^31 - 2` and the operations of the constructor are exact at `delta`: the offset
at `delta` is zero and the order-2 stencil has `Last() = First() + 2`,
`Weight(First()) = Weight(Last()) = 1/8`, middle weight `Weight(First()+1) = 3/4`, and
`First() + 1 = k`, in every build. -/
theorem machine_order_2_symmetric_at_centre (rnd : ℚ → ℚ) (a : Bool) (junk : Nat → ℚ) (M : Nat)
    (k : Int) (hM : 2 ≤ M) (hr : Machine.InRange ((k : ℚ) + 1 / 2))
    (hx : Machine.Exact rnd M ((k : ℚ) + 1 / 2) 2) :
    Machine.nearest_cell_center_offset rnd ((k : ℚ) + 1 / 2) = .ok 0 ∧
    ∃ p, Machine.construct rnd M ((k : ℚ) + 1 / 2) 2 = .ok p ∧
      p.last = p.first + 2 ∧
      Machine.call a junk p p.first = .ok (1 / 8) ∧
      Machine.call a junk p p.last = .ok (1 / 8) ∧
      Machine.call a junk p (p.first + 1) = .ok (3 / 4) ∧ p.first + 1 = k := by
  obtain ⟨h0, p2, hp2, hl, c1, c2, c3, hk⟩ := exact_order_2_symmetric_at_centre M k hM
  obtain ⟨p, hp, hm, hc, -⟩ := machine_agrees hr hx
  rw [hp] at hp2
  obtain rfl := Option.some.inj hp2
  have hxo : Machine.ExactOffset rnd ((k : ℚ) + 1 / 2) := by
    rw [Machine.Exact, if_pos ⟨hM, by norm_num⟩] at hx
    exact hx.2.1
  refine ⟨?_, p, hm, hl, hc a junk _ _ c1, hc a junk _ _ c2, hc a junk _ _ c3, hk⟩
  rw [machine_offset_eq hr hxo, h0]

/-- Witness for C8 amended: double precision, maximum order 2, the cell `k = -3`, in a build
with the assertion active. -/
theorem machine_order_2_symmetric_at_centre_witness :
    2 ≤ 2 ∧ Machine.InRange (((-3 : Int) : ℚ) + 1 / 2) ∧
    Machine.Exact Machine.binary64 2 (((-3 : Int) : ℚ) + 1 / 2) 2 ∧
    (Machine.nearest_cell_center_offset Machine.binary64 (((-3 : Int) : ℚ) + 1 / 2) = .ok 0 ∧
    ∃ p, Machine.construct Machine.binary64 2 (((-3 : Int) : ℚ) + 1 / 2) 2 = .ok p ∧
      p.last = p.first + 2 ∧
      Machine.call true (fun _ => 0) p p.first = .ok (1 / 8) ∧
      Machine.call true (fun _ => 0) p p.last = .ok (1 / 8) ∧
      Machine.call true (fun _ => 0) p (p.first + 1) = .ok (3 / 4) ∧ p.first + 1 = -3) :=
  have e : (((-3 : Int) : ℚ) + 1 / 2) = ((-2621440 : Int) : ℚ) / 2 ^ 20 := by norm_num
  have hr : Machine.InRange (((-3 : Int) : ℚ) + 1 / 2) := by
    constructor <;> norm_num
  have hx : Machine.Exact Machine.binary64 2 (((-3 : Int) : ℚ) + 1 / 2) 2 := by
    rw [e]
    exact binary64_exact_grid (by rw [← e]; exact hr) 2 2
  ⟨le_refl 2, hr, hx,
    machine_order_2_symmetric_at_centre Machine.binary64 true (fun _ => 0) 2 (-3) (le_refl 2) hr hx⟩

/-! ## The helpers on machine numbers -/

/-- C9, amended: for every integer `k`, every `delta1` with `k < delta1 < k + 1/2` and every
`delta2` with `k + 1/2 < delta2 < k + 1`, both with magnitude at most `2^31 - 2`, every
`order` among 0, 1 and 2 with maximum order `M ≥ order`, and every rounding of the real type
under which the operations of the constructor are exact at `delta1` and at `delta2`: with
order 1 the stencil for `delta2` has `First()` and `Last()` each exactly one greater than the
stencil for `delta1`; with order 0 or 2 the two stencils have the same `First()` and the same
`Last()`. -/
theorem machine_stencil_shift_at_half_integer (rnd : ℚ → ℚ) (M : Nat) (order : Int) (k : Int)
    (delta1 delta2 : ℚ)
    (ho : order = 0 ∨ order = 1 ∨ order = 2) (hM : order ≤ (M : Int))
    (h1 : (k : ℚ) < delta1) (h1' : delta1 < (k : ℚ) + 1 / 2)
    (h2 : (k : ℚ) + 1 / 2 < delta2) (h2' : delta2 < (k : ℚ) + 1)
    (hr1 : Machine.InRange delta1) (hr2 : Machine.InRange delta2)
    (hx1 : Machine.Exact rnd M delta1 order) (hx2 : Machine.Exact rnd M delta2 order) :
    ∃ p1 p2, Machine.construct rnd M delta1 order = .ok p1 ∧
      Machine.construct rnd M delta2 order = .ok p2 ∧
      (order = 1 → p2.first = p1.first + 1 ∧ p2.last = p1.last + 1) ∧
      (order ≠ 1 → p2.first = p1.first ∧ p2.last = p1.last) := by
  obtain ⟨q1, q2, e1, e2, hs, hn⟩ :=
    exact_stencil_shift_at_half_integer M order k delta1 delta2 ho hM h1 h1' h2 h2'
  obtain ⟨p1, hp1, hm1, -⟩ := machine_agrees hr1 hx1
  obtain ⟨p2, hp2, hm2, -⟩ := machine_agrees hr2 hx2
  rw [hp1] at e1
  rw [hp2] at e2
  obtain rfl := Option.some.inj e1
  obtain rfl := Option.some.inj e2
  exact ⟨p1, p2, hm1, hm2, hs, hn⟩

/-- Witness for C9 amended: double precision, maximum order 2, order 1, `k = -1`, positions
`-3/4` and `-1/4` written as multiples of `2^-20`. -/
theorem machine_stencil_shift_at_half_integer_witness :
    ((1 : Int) = 0 ∨ (1 : Int) = 1 ∨ (1 : Int) = 2) ∧ (1 : Int) ≤ ((2 : Nat) : Int) ∧
    (((-1 : Int) : ℚ) < ((-786432 : Int) : ℚ) / 2 ^ 20 ∧
      ((-786432 : Int) : ℚ) / 2 ^ 20 < ((-1 : Int) : ℚ) + 1 / 2) ∧
    (((-1 : Int) : ℚ) + 1 / 2 < ((-262144 : Int) : ℚ) / 2 ^ 20 ∧
      ((-262144 : Int) : ℚ) / 2 ^ 20 < ((-1 : Int) : ℚ) + 1) ∧
    (Machine.InRange (((-786432 : Int) : ℚ) / 2 ^ 20) ∧
      Machine.InRange (((-262144 : Int) : ℚ) / 2 ^ 20)) ∧
    (Machine.Exact Machine.binary64 2 (((-786432 : Int) : ℚ) / 2 ^ 20) 1 ∧
      Machine.Exact Machine.binary64 2 (((-262144 : Int) : ℚ) / 2 ^ 20) 1) ∧
    ∃ p1 p2,
      Machine.construct Machine.binary64 2 (((-786432 : Int) : ℚ) / 2 ^ 20) 1 = .ok p1 ∧
      Machine.construct Machine.binary64 2 (((-262144 : Int) : ℚ) / 2 ^ 20) 1 = .ok p2 ∧
      ((1 : Int) = 1 → p2.first = p1.first + 1 ∧ p2.last = p1.last + 1) ∧
      ((1 : Int) ≠ 1 → p2.first = p1.first ∧ p2.last = p1.last) :=
  have hr1 : Machine.InRange (((-786432 : Int) : ℚ) / 2 ^ 20) := by
    constructor <;> norm_num
  have hr2 : Machine.InRange (((-262144 : Int) : ℚ) / 2 ^ 20) := by
    constructor <;> norm_num
  ⟨by decide, by decide, by norm_num, by norm_num, ⟨hr1, hr2⟩,
    ⟨binary64_exact_grid hr1 2 1, binary64_exact_grid hr2 2 1⟩,
    machine_stencil_shift_at_half_integer Machine.binary64 2 1 (-1) _ _ (by decide) (by decide)
      (by norm_num) (by norm_num) (by norm_num) (by norm_num) hr1 hr2
      (binary64_exact_grid hr1 2 1) (binary64_exact_grid hr2 2 1)⟩

/-- C10, amended: for every rounding of the real type and every `delta` with
`|delta| ≤ 2^31 - 2` at which the operations of `nearest_cell_center_offset` are exact, the
offset is returned, lies in the closed interval from `-1/2` to `1/2`, and equals `-1/2`
exactly when `delta` is a positive integer (so `-1/2 < offset ≤ 1/2` for every other such
`delta`). -/
theorem machine_offset_range (rnd : ℚ → ℚ) (delta : ℚ) (hr : Machine.InRange delta)
    (hx : Machine.ExactOffset rnd delta) :
    ∃ o, Machine.nearest_cell_center_offset rnd delta = .ok o ∧
      -(1 / 2) ≤ o ∧ o ≤ 1 / 2 ∧
      (o = -(1 / 2) ↔ 0 < delta ∧ ∃ n : Int, delta = (n : ℚ)) := by
  obtain ⟨a, b, c⟩ := exact_offset_range delta
  exact ⟨_, machine_offset_eq hr hx, a, b, c⟩

/-- Witness for C10 amended: double precision at `delta = 5`, a positive integer, written as
`5242880 / 2^20`. -/
theorem machine_offset_range_witness :
    Machine.InRange (((5242880 : Int) : ℚ) / 2 ^ 20) ∧
    Machine.ExactOffset Machine.binary64 (((5242880 : Int) : ℚ) / 2 ^ 20) ∧
    ∃ o, Machine.nearest_cell_center_offset Machine.binary64 (((5242880 : Int) : ℚ) / 2 ^ 20)
        = .ok o ∧
      -(1 / 2) ≤ o ∧ o ≤ 1 / 2 ∧
      (o = -(1 / 2) ↔ 0 < ((5242880 : Int) : ℚ) / 2 ^ 20 ∧
        ∃ n : Int, ((5242880 : Int) : ℚ) / 2 ^ 20 = (n : ℚ)) :=
  have hr : Machine.InRange (((5242880 : Int) : ℚ) / 2 ^ 20) := by
    constructor <;> norm_num
  ⟨hr, binary64_exact_offset_grid hr,
    machine_offset_range Machine.binary64 _ hr (binary64_exact_offset_grid hr)⟩

/-- C11, as stated, fails: in double precision at `delta = 2^-60` the subtraction
`delta - 1` rounds to `-1`, the index returned is `-1`, and the centre `1/2` of cell 0 is
strictly nearer to `delta` than the centre `-1/2` of cell `-1`.  At `delta = 3000000000` the
conversion to `int` overflows and no index is returned. -/
theorem nearest_index_counterexample :
    Machine.nearest_cell_center_index Machine.binary64 (1 / 2 ^ 60) = .ok (-1) ∧
    ¬ (|(1 / 2 ^ 60 : ℚ) - (((-1 : Int) : ℚ) + 1 / 2)|
        ≤ |(1 / 2 ^ 60 : ℚ) - (((0 : Int) : ℚ) + 1 / 2)|) ∧
    Machine.nearest_cell_center_index id 3000000000 = .error Fault.int_overflow := by
  refine ⟨binary64_index_tiny, ?_, machine_index_three_billion⟩
  rw [abs_of_pos (by norm_num), abs_of_neg (by norm_num)]
  norm_num

/-- C11, amended: for every rounding of the real type and every `delta` with
`|delta| ≤ 2^31 - 2` at which the operations of `nearest_cell_center_index` are exact, the
index `n` is returned and, for every integer `j`, the distance from `delta` to the centre
`n + 1/2` is at most the distance from `delta` to the centre `j + 1/2`. -/
theorem machine_index_is_nearest (rnd : ℚ → ℚ) (delta : ℚ)
    (hr : Machine.InRange delta) (hx : Machine.ExactIndex rnd delta) :
    ∃ n, Machine.nearest_cell_center_index rnd delta = .ok n ∧
      ∀ j : Int, |delta - ((n : ℚ) + 1 / 2)| ≤ |delta - ((j : ℚ) + 1 / 2)| :=
  ⟨_, machine_index_eq hr hx, fun j => exact_nearest_cell_center_index_is_nearest delta j⟩

/-- Witness for C11 amended: double precision at `delta = -1/4`. -/
theorem machine_index_is_nearest_witness :
    Machine.InRange (((-262144 : Int) : ℚ) / 2 ^ 20) ∧
    Machine.ExactIndex Machine.binary64 (((-262144 : Int) : ℚ) / 2 ^ 20) ∧
    ∃ n, Machine.nearest_cell_center_index Machine.binary64 (((-262144 : Int) : ℚ) / 2 ^ 20)
        = .ok n ∧
      ∀ j : Int, |((-262144 : Int) : ℚ) / 2 ^ 20 - ((n : ℚ) + 1 / 2)|
        ≤ |((-262144 : Int) : ℚ) / 2 ^ 20 - ((j : ℚ) + 1 / 2)| :=
  have hr : Machine.InRange (((-262144 : Int) : ℚ) / 2 ^ 20) := by
    constructor <;> norm_num
  ⟨hr, binary64_exact_index_grid hr,
    machine_index_is_nearest Machine.binary64 _ hr (binary64_exact_index_grid hr)⟩

/-- C12, as stated, fails: in double precision at `delta = 2^-60` the index returned is `-1`
and the offset returned is `-1/2`, while `delta - (index + 1/2)` is `2^-60 + 1/2`: the two
helpers disagree by a whole cell. -/
theorem helpers_disagree_counterexample :
    Machine.nearest_cell_center_index Machine.binary64 (1 / 2 ^ 60) = .ok (-1) ∧
    Machine.nearest_cell_center_offset Machine.binary64 (1 / 2 ^ 60) = .ok (-(1 / 2)) ∧
    (-(1 / 2) : ℚ) ≠ 1 / 2 ^ 60 - (((-1 : Int) : ℚ) + 1 / 2) := by
  refine ⟨binary64_index_tiny, binary64_offset_tiny, ?_⟩
  norm_num

/-- C12, amended: for every rounding of the real type and every `delta` with
`|delta| ≤ 2^31 - 2` (integer and negative positions included) at which the operations of the
two helpers are exact, the index `n` and the offset `o` are returned and
`o = delta - (n + 1/2)`. -/
theorem machine_offset_agrees_with_index (rnd : ℚ → ℚ) (delta : ℚ) (hr : Machine.InRange delta)
    (hi : Machine.ExactIndex rnd delta) (ho : Machine.ExactOffset rnd delta) :
    ∃ n o, Machine.nearest_cell_center_index rnd delta = .ok n ∧
      Machine.nearest_cell_center_offset rnd delta = .ok o ∧
      o = delta - ((n : ℚ) + 1 / 2) :=
  ⟨_, _, machine_index_eq hr hi, machine_offset_eq hr ho, exact_offset_agrees_with_index delta⟩

/-- Witness for C12 amended: double precision at `delta = -2`, a negative integer. -/
theorem machine_offset_agrees_with_index_witness :
    Machine.InRange (((-2097152 : Int) : ℚ) / 2 ^ 20) ∧
    Machine.ExactIndex Machine.binary64 (((-2097152 : Int) : ℚ) / 2 ^ 20) ∧
    Machine.ExactOffset Machine.binary64 (((-2097152 : Int) : ℚ) / 2 ^ 20) ∧
    ∃ n o, Machine.nearest_cell_center_index Machine.binary64
        (((-2097152 : Int) : ℚ) / 2 ^ 20) = .ok n ∧
      Machine.nearest_cell_center_offset Machine.binary64
        (((-2097152 : Int) : ℚ) / 2 ^ 20) = .ok o ∧
      o = ((-2097152 : Int) : ℚ) / 2 ^ 20 - ((n : ℚ) + 1 / 2) :=
  have hr : Machine.InRange (((-2097152 : Int) : ℚ) / 2 ^ 20) := by
    constructor <;> norm_num
  ⟨hr, binary64_exact_index_grid hr, binary64_exact_offset_grid hr,
    machine_offset_agrees_with_index Machine.binary64 _ hr (binary64_exact_index_grid hr)
      (binary64_exact_offset_grid hr)⟩

/-! ## Order-1 and order-2 weights on machine numbers -/

/-- C15, as stated, fails: in double precision at `delta = 2^-60` the order-1 stencil is
cells `-2` and `-1`, whose centres `-3/2` and `-1/2` both lie below `delta`. -/
theorem order_1_brackets_counterexample :
    ∃ p, Machine.construct Machine.binary64 1 (1 / 2 ^ 60) 1 = .ok p ∧
      p.first = -2 ∧ p.last = -1 ∧
      ¬ ((p.first : ℚ) + 1 / 2 ≤ 1 / 2 ^ 60 ∧ (1 / 2 ^ 60 : ℚ) ≤ (p.last : ℚ) + 1 / 2) := by
  refine ⟨_, binary64_order_1_tiny 0, rfl, rfl, ?_⟩
  simp only [ParticleInterpolator.first, ParticleInterpolator.last]
  norm_num

/-- C15, amended: for every maximum order `M + 1 ≥ 1`, every rounding of the real type and
every `delta` with `|delta| ≤ 2^31 - 2` at which the operations of the order-1 construction
are exact, the two cells of the order-1 stencil are adjacent, `Last() = First() + 1`, and
their centres bracket `delta`: `First() + 1/2 ≤ delta ≤ Last() + 1/2`. -/
theorem machine_order_1_brackets (rnd : ℚ → ℚ) (M : Nat) (delta : ℚ) (hr : Machine.InRange delta)
    (hx : Machine.Exact rnd (M + 1) delta 1) :
    ∃ p, Machine.construct rnd (M + 1) delta 1 = .ok p ∧
      p.last = p.first + 1 ∧
      (p.first : ℚ) + 1 / 2 ≤ delta ∧ delta ≤ (p.last : ℚ) + 1 / 2 := by
  obtain ⟨p, hp, hm, -⟩ := machine_agrees hr hx
  obtain ⟨p2, hp2, h⟩ := exact_order_1_brackets M delta
  rw [hp] at hp2
  obtain rfl := Option.some.inj hp2
  exact ⟨p, hm, h⟩

/-- Witness for C15 amended: double precision, maximum order 1, `delta = 3/4`. -/
theorem machine_order_1_brackets_witness :
    Machine.InRange (((786432 : Int) : ℚ) / 2 ^ 20) ∧
    Machine.Exact Machine.binary64 (0 + 1) (((786432 : Int) : ℚ) / 2 ^ 20) 1 ∧
    ∃ p, Machine.construct Machine.binary64 (0 + 1) (((786432 : Int) : ℚ) / 2 ^ 20) 1 = .ok p ∧
      p.last = p.first + 1 ∧
      (p.first : ℚ) + 1 / 2 ≤ ((786432 : Int) : ℚ) / 2 ^ 20 ∧
      ((786432 : Int) : ℚ) / 2 ^ 20 ≤ (p.last : ℚ) + 1 / 2 :=
  have hr : Machine.InRange (((786432 : Int) : ℚ) / 2 ^ 20) := by
    constructor <;> norm_num
  ⟨hr, binary64_exact_grid hr (0 + 1) 1,
    machine_order_1_brackets Machine.binary64 0 _ hr (binary64_exact_grid hr (0 + 1) 1)⟩

/-- C16, as stated, fails: in double precision at `delta = 2^-60` the order-1 stencil is
cells `-2` and `-1`; `Weight(-2)` is `1/2` where the tent function gives
`1 - |delta + 3/2| < 0`, and cell `0`, outside the stencil, has its centre at distance less
than one from `delta`. -/
theorem order_1_tent_counterexample :
    ∃ p, Machine.construct Machine.binary64 1 (1 / 2 ^ 60) 1 = .ok p ∧
      p.first = -2 ∧ p.last = -1 ∧
      Machine.call true (fun _ => 0) p (-2) = .ok (1 / 2) ∧
      (1 / 2 : ℚ) ≠ 1 - |(1 / 2 ^ 60 : ℚ) - (((-2 : Int) : ℚ) + 1 / 2)| ∧
      ¬ (1 ≤ |(1 / 2 ^ 60 : ℚ) - (((0 : Int) : ℚ) + 1 / 2)|) := by
  refine ⟨_, binary64_order_1_tiny 0, rfl, rfl, ?_, ?_, ?_⟩
  · apply machine_call_of_call
    · rcases call_shape_two (M := 1) (-2) (1 / 2) (1 / 2) (List.replicate 0 none) (-2)
        (le_refl _) (by norm_num) with ⟨-, h⟩ | ⟨hi, -⟩
      · exact h
      · exact absurd hi (by norm_num)
    · simp [ParticleInterpolator.first]
  · rw [abs_of_pos (by norm_num)]
    norm_num
  · rw [abs_of_neg (by norm_num)]
    norm_num

/-- C16, amended: for every maximum order `M + 1 ≥ 1`, every rounding of the real type and
every `delta` with `|delta| ≤ 2^31 - 2` at which the operations of the order-1 construction
are exact: for every cell `i` with `First() ≤ i ≤ Last()` of the order-1 stencil,
`Weight(i) = 1 - |delta - (i + 1/2)|`, in every build; and for every integer `j` outside that
range, `|delta - (j + 1/2)| ≥ 1`. -/
theorem machine_order_1_weights_are_tent (rnd : ℚ → ℚ) (a : Bool) (junk : Nat → ℚ) (M : Nat)
    (delta : ℚ) (hr : Machine.InRange delta) (hx : Machine.Exact rnd (M + 1) delta 1) :
    ∃ p, Machine.construct rnd (M + 1) delta 1 = .ok p ∧
      (∀ i : Int, p.first ≤ i → i ≤ p.last →
        Machine.call a junk p i = .ok (1 - |delta - ((i : ℚ) + 1 / 2)|)) ∧
      (∀ j : Int, ¬ (p.first ≤ j ∧ j ≤ p.last) → 1 ≤ |delta - ((j : ℚ) + 1 / 2)|) := by
  obtain ⟨p, hp, hm, hc, -⟩ := machine_agrees hr hx
  obtain ⟨p2, hp2, hin, hout⟩ := exact_order_1_weights_are_tent M delta
  rw [hp] at hp2
  obtain rfl := Option.some.inj hp2
  exact ⟨p, hm, fun i h1 h2 => hc a junk i _ (hin i h1 h2), hout⟩

/-- Witness for C16 amended: double precision, maximum order 1, `delta = -1/4`. -/
theorem machine_order_1_weights_are_tent_witness :
    Machine.InRange (((-262144 : Int) : ℚ) / 2 ^ 20) ∧
    Machine.Exact Machine.binary64 (0 + 1) (((-262144 : Int) : ℚ) / 2 ^ 20) 1 ∧
    ∃ p, Machine.construct Machine.binary64 (0 + 1) (((-262144 : Int) : ℚ) / 2 ^ 20) 1 = .ok p ∧
      (∀ i : Int, p.first ≤ i → i ≤ p.last →
        Machine.call false (fun _ => 0) p i
          = .ok (1 - |((-262144 : Int) : ℚ) / 2 ^ 20 - ((i : ℚ) + 1 / 2)|)) ∧
      (∀ j : Int, ¬ (p.first ≤ j ∧ j ≤ p.last) →
        1 ≤ |((-262144 : Int) : ℚ) / 2 ^ 20 - ((j : ℚ) + 1 / 2)|) :=
  have hr : Machine.InRange (((-262144 : Int) : ℚ) / 2 ^ 20) := by
    constructor <;> norm_num
  ⟨hr, binary64_exact_grid hr (0 + 1) 1,
    machine_order_1_weights_are_tent Machine.binary64 false (fun _ => 0) 0 _ hr
      (binary64_exact_grid hr (0 + 1) 1)⟩

/-- C17, as stated, fails: in double precision at `delta = 2^-60` the order-2 stencil is
cells `-2`, `-1`, `0` with weights `1/2`, `1/2`, `0`; for cell `-2` the distance
`x = delta + 3/2` exceeds `3/2`, and `Weight(-2) = 1/2` is not the kernel value
`(1/2) * (3/2 - |x|)^2`. -/
theorem order_2_bspline_counterexample :
    ∃ p, Machine.construct Machine.binary64 2 (1 / 2 ^ 60) 2 = .ok p ∧
      p.first = -2 ∧ p.last = 0 ∧
      Machine.call true (fun _ => 0) p (-2) = .ok (1 / 2) ∧
      ¬ (|(1 / 2 ^ 60 : ℚ) - (((-2 : Int) : ℚ) + 1 / 2)| ≤ 3 / 2) ∧
      (1 / 2 : ℚ) ≠ 1 / 2 * (3 / 2 - |(1 / 2 ^ 60 : ℚ) - (((-2 : Int) : ℚ) + 1 / 2)|) ^ 2 := by
  refine ⟨_, binary64_order_2_tiny 0, rfl, rfl, ?_, ?_, ?_⟩
  · apply machine_call_of_call
    · rcases call_shape_three (M := 2) (-2) (1 / 2) (1 / 2) 0 (List.replicate 0 none) (-2)
        (le_refl _) (by norm_num) with ⟨-, h⟩ | ⟨hi, -⟩ | ⟨hi, -⟩
      · exact h
      · exact absurd hi (by norm_num)
      · exact absurd hi (by norm_num)
    · simp [ParticleInterpolator.first]
  · rw [abs_of_pos (by norm_num)]
    norm_num
  · rw [abs_of_pos (by norm_num)]
    norm_num

/-- C17, amended: for every maximum order `M + 2 ≥ 2`, every rounding of the real type and
every `delta` with `|delta| ≤ 2^31 - 2` at which the operations of the order-2 construction
are exact: for every cell `i` with `First() ≤ i ≤ Last()` of the order-2 stencil, writing
`x = delta - (i + 1/2)`, the query returns, in every build, a weight `w` with `|x| ≤ 3/2`,
`w = 3/4 - x^2` when `|x| ≤ 1/2`, and `w = (1/2) * (3/2 - |x|)^2` when `1/2 ≤ |x|`. -/
theorem machine_order_2_weights_are_bspline (rnd : ℚ → ℚ) (a : Bool) (junk : Nat → ℚ) (M : Nat)
    (delta : ℚ) (hr : Machine.InRange delta) (hx : Machine.Exact rnd (M + 2) delta 2) :
    ∃ p, Machine.construct rnd (M + 2) delta 2 = .ok p ∧
      ∀ i : Int, p.first ≤ i → i ≤ p.last →
        ∃ w, Machine.call a junk p i = .ok w ∧
          |delta - ((i : ℚ) + 1 / 2)| ≤ 3 / 2 ∧
          (|delta - ((i : ℚ) + 1 / 2)| ≤ 1 / 2 → w = 3 / 4 - (delta - ((i : ℚ) + 1 / 2)) ^ 2) ∧
          (1 / 2 ≤ |delta - ((i : ℚ) + 1 / 2)| →
            w = 1 / 2 * (3 / 2 - |delta - ((i : ℚ) + 1 / 2)|) ^ 2) := by
  obtain ⟨p, hp, hm, hc, -⟩ := machine_agrees hr hx
  obtain ⟨p2, hp2, h⟩ := exact_order_2_weights_are_bspline M delta
  rw [hp] at hp2
  obtain rfl := Option.some.inj hp2
  refine ⟨p, hm, fun i h1 h2 => ?_⟩
  obtain ⟨w, hw, rest⟩ := h i h1 h2
  exact ⟨w, hc a junk i w hw, rest⟩

/-- Witness for C17 amended: double precision, maximum order 2, `delta = -1/4`. -/
theorem machine_order_2_weights_are_bspline_witness :
    Machine.InRange (((-262144 : Int) : ℚ) / 2 ^ 20) ∧
    Machine.Exact Machine.binary64 (0 + 2) (((-262144 : Int) : ℚ) / 2 ^ 20) 2 ∧
    ∃ p, Machine.construct Machine.binary64 (0 + 2) (((-262144 : Int) : ℚ) / 2 ^ 20) 2 = .ok p ∧
      ∀ i : Int, p.first ≤ i → i ≤ p.last →
        ∃ w, Machine.call false (fun _ => 0) p i = .ok w ∧
          |((-262144 : Int) : ℚ) / 2 ^ 20 - ((i : ℚ) + 1 / 2)| ≤ 3 / 2 ∧
          (|((-262144 : Int) : ℚ) / 2 ^ 20 - ((i : ℚ) + 1 / 2)| ≤ 1 / 2 →
            w = 3 / 4 - (((-262144 : Int) : ℚ) / 2 ^ 20 - ((i : ℚ) + 1 / 2)) ^ 2) ∧
          (1 / 2 ≤ |((-262144 : Int) : ℚ) / 2 ^ 20 - ((i : ℚ) + 1 / 2)| →
            w = 1 / 2 * (3 / 2 - |((-262144 : Int) : ℚ) / 2 ^ 20 - ((i : ℚ) + 1 / 2)|) ^ 2) :=
  have hr : Machine.InRange (((-262144 : Int) : ℚ) / 2 ^ 20) := by
    constructor <;> norm_num
  ⟨hr, binary64_exact_grid hr (0 + 2) 2,
    machine_order_2_weights_are_bspline Machine.binary64 false (fun _ => 0) 0 _ hr
      (binary64_exact_grid hr (0 + 2) 2)⟩

/-! ## Closed form of the index and translation by whole cells, on machine numbers -/

/-- A value exactly half a unit above an even integer rounds to that integer. -/
theorem round_half_even_of_tie_even {m : ℚ} {n : Int} (h : m = (n : ℚ) + 1 / 2)
    (he : n % 2 = 0) : Machine.round_half_even m = n := by
  have hf : ⌊m⌋ = n := by
    rw [Int.floor_eq_iff]
    constructor <;> linarith
  have e : m - (n : ℚ) = 1 / 2 := by linarith
  unfold Machine.round_half_even
  rw [hf, e, if_neg (lt_irrefl _), if_neg (lt_irrefl _), if_pos he]

/-- Evaluation of the rounding at a tie above an even multiple of the unit. -/
theorem round_binary_eval_tie {prec : Nat} {emin : Int} {x : ℚ} (e q n : Int)
    (h1 : (2 : ℚ) ^ e ≤ |x|) (h2 : |x| < (2 : ℚ) ^ (e + 1))
    (hq : q = max (e + 1 - (prec : Int)) emin)
    (hn : x / (2 : ℚ) ^ q = (n : ℚ) + 1 / 2) (he : n % 2 = 0) :
    Machine.round_binary prec emin x = (n : ℚ) * (2 : ℚ) ^ q := by
  have hx : x ≠ 0 := by
    intro h0
    rw [h0, abs_zero] at h1
    exact absurd h1 (not_le.mpr (zpow_pos (by norm_num) e))
  unfold Machine.round_binary
  rw [if_neg hx]
  simp only [int_log_two_eq h1 h2, ← hq, round_half_even_of_tie_even hn he]

/-- In double precision the index at `delta = -(1 - 2^-53)`, the double just above `-1`, is
`-2`: the subtraction `delta - 1` rounds to `-2`. -/
theorem binary64_index_above_minus_one :
    Machine.nearest_cell_center_index Machine.binary64 (1 / 2 ^ 53 - 1) = .ok (-2) := by
  have a : Machine.binary64 (1 / 2 ^ 53 - 1 - 1 / 2) = -(3 / 2) := by
    unfold Machine.binary64
    rw [round_binary_eval_tie 0 (-52) (-6755399441055744) (by norm_num [abs_of_neg])
      (by norm_num [abs_of_neg]) (by norm_num) (by norm_num) (by norm_num)]
    norm_num
  have b : Machine.binary64 (1 / 2 ^ 53 - 1 - 1) = -2 := by
    unfold Machine.binary64
    rw [round_binary_eval_tie 0 (-52) (-9007199254740992) (by norm_num [abs_of_neg])
      (by norm_num [abs_of_neg]) (by norm_num) (by norm_num) (by norm_num)]
    norm_num
  have c : static_cast_int (-2 : ℚ) = -2 := by
    rw [static_cast_int_of_neg (by norm_num), Int.ceil_eq_iff]
    constructor <;> norm_num
  unfold Machine.nearest_cell_center_index Machine.static_cast_int
  rw [a, b]
  simp only [show (-(3 / 2) : ℚ) < 0 by norm_num, if_true, c]
  exact to_int_ok (by norm_num) (by norm_num)

/-- In double precision the index at `delta = 2^-53` is `0`. -/
theorem binary64_index_two_pow_minus_53 :
    Machine.nearest_cell_center_index Machine.binary64 (1 / 2 ^ 53 - 1 + ((1 : Int) : ℚ))
      = .ok 0 := by
  have a : Machine.binary64 (1 / 2 ^ 53 - 1 + ((1 : Int) : ℚ) - 1 / 2)
      = 1 / 2 ^ 53 - 1 / 2 :=
    (binary64_exact (1 - 2 ^ 52) 53 (by push_cast; ring) (by norm_num) (by norm_num)).trans
      (by push_cast; ring)
  have b : Machine.binary64 (1 / 2 ^ 53 - 1 + ((1 : Int) : ℚ) - 1) = 1 / 2 ^ 53 - 1 :=
    (binary64_exact (1 - 2 ^ 53) 53 (by push_cast; ring) (by norm_num) (by norm_num)).trans
      (by push_cast; ring)
  have c : static_cast_int (1 / 2 ^ 53 - 1 : ℚ) = 0 := by
    rw [static_cast_int_of_neg (by norm_num), Int.ceil_eq_iff]
    constructor <;> norm_num
  unfold Machine.nearest_cell_center_index Machine.static_cast_int
  rw [a, b]
  simp only [show (1 / 2 ^ 53 - 1 / 2 : ℚ) < 0 by norm_num, if_true, c]
  exact to_int_ok (by norm_num) (by norm_num)

/-- C18, as stated, fails: in double precision at `delta = 2^-60`, which is not an integer
and whose floor is `0`, the index returned is `-1`. -/
theorem index_closed_form_counterexample :
    (∀ n : Int, (1 / 2 ^ 60 : ℚ) ≠ (n : ℚ)) ∧ ⌊(1 / 2 ^ 60 : ℚ)⌋ = 0 ∧
    Machine.nearest_cell_center_index Machine.binary64 (1 / 2 ^ 60) = .ok (-1) ∧
    Machine.nearest_cell_center_index Machine.binary64 (1 / 2 ^ 60)
      ≠ .ok ⌊(1 / 2 ^ 60 : ℚ)⌋ := by
  have hf : ⌊(1 / 2 ^ 60 : ℚ)⌋ = 0 := by
    rw [Int.floor_eq_iff]
    constructor <;> norm_num
  refine ⟨fun n h => ?_, hf, binary64_index_tiny, ?_⟩
  · have h1 : (0 : ℚ) < (n : ℚ) := by rw [← h]; norm_num
    have h2 : (n : ℚ) < 1 := by rw [← h]; norm_num
    have a : 0 < n := by exact_mod_cast h1
    have b : n < 1 := by exact_mod_cast h2
    omega
  · rw [binary64_index_tiny, hf]
    intro h
    cases h

/-- C18, amended: for every rounding of the real type and every `delta` with
`|delta| ≤ 2^31 - 2` at which the operations of `nearest_cell_center_index` are exact: when
`delta` is not an integer (negative or positive) the index is `⌊delta⌋`, the cell containing
`delta`; when `delta` is an integer `n` the index is `n` for `n ≥ 1` and `n - 1` for `n ≤ 0`.
In double precision `delta = 0` gives cell `-1` and `delta = 1` gives cell `1`. -/
theorem machine_index_closed_form :
    (∀ (rnd : ℚ → ℚ) (delta : ℚ), Machine.InRange delta → Machine.ExactIndex rnd delta →
      (∀ n : Int, delta ≠ (n : ℚ)) →
      Machine.nearest_cell_center_index rnd delta = .ok ⌊delta⌋) ∧
    (∀ (rnd : ℚ → ℚ) (n : Int), Machine.InRange (n : ℚ) → Machine.ExactIndex rnd (n : ℚ) →
      1 ≤ n → Machine.nearest_cell_center_index rnd (n : ℚ) = .ok n) ∧
    (∀ (rnd : ℚ → ℚ) (n : Int), Machine.InRange (n : ℚ) → Machine.ExactIndex rnd (n : ℚ) →
      n ≤ 0 → Machine.nearest_cell_center_index rnd (n : ℚ) = .ok (n - 1)) ∧
    Machine.nearest_cell_center_index Machine.binary64 0 = .ok (-1) ∧
    Machine.nearest_cell_center_index Machine.binary64 1 = .ok 1 := by
  obtain ⟨c1, c2, c3, c4, c5⟩ := exact_nearest_cell_center_index_closed_form
  refine ⟨fun rnd delta hr hx hd => ?_, fun rnd n hr hx hn => ?_, fun rnd n hr hx hn => ?_,
    ?_, ?_⟩
  · rw [machine_index_eq hr hx, c1 delta hd]
  · rw [machine_index_eq hr hx, c2 n hn]
  · rw [machine_index_eq hr hx, c3 n hn]
  · have hr : Machine.InRange 0 := by constructor <;> norm_num
    have hx : Machine.ExactIndex Machine.binary64 0 :=
      ⟨by rw [binary64_exact (-1) 1 (by norm_num) (by norm_num) (by norm_num)],
        fun _ => binary64_exact (-1) 0 (by norm_num) (by norm_num) (by norm_num)⟩
    rw [machine_index_eq hr hx, c4]
  · have hr : Machine.InRange 1 := by constructor <;> norm_num
    have hx : Machine.ExactIndex Machine.binary64 1 :=
      ⟨by rw [binary64_exact 1 1 (by norm_num) (by norm_num) (by norm_num)],
        fun h => absurd h (by norm_num)⟩
    rw [machine_index_eq hr hx, c5]

/-- C19, as stated, fails.  In double precision at `delta = -(1 - 2^-53)`, not an integer,
and `k = 1`: with order 0, `First()` is `-2` at `delta` and `0` at `delta + 1 = 2^-53`, not
`-2 + 1`.  In exact arithmetic at `delta = 1/2` and `k = 2147483647`: with order 2 the stencil
at `delta` is constructed while the construction at `delta + k` overflows `int`. -/
theorem translation_counterexample :
    (∃ p q, Machine.construct Machine.binary64 0 (1 / 2 ^ 53 - 1) 0 = .ok p ∧
      Machine.construct Machine.binary64 0 (1 / 2 ^ 53 - 1 + ((1 : Int) : ℚ)) 0 = .ok q ∧
      p.first = -2 ∧ q.first = 0 ∧ q.first ≠ p.first + 1) ∧
    ((∃ p, Machine.construct id 2 (1 / 2) 2 = .ok p) ∧
      Machine.construct id 2 (1 / 2 + ((2147483647 : Int) : ℚ)) 2
        = .error Fault.int_overflow) := by
  have cp := machine_construct_order_0 Machine.binary64 0 (1 / 2 ^ 53 - 1) 0 (Or.inl rfl)
  rw [machine_compute_order_0_eq 0 binary64_index_above_minus_one] at cp
  have cq := machine_construct_order_0 Machine.binary64 0
    (1 / 2 ^ 53 - 1 + ((1 : Int) : ℚ)) 0 (Or.inl rfl)
  rw [machine_compute_order_0_eq 0 binary64_index_two_pow_minus_53] at cq
  refine ⟨⟨_, _, cp, cq, rfl, rfl, ?_⟩, ?_, ?_⟩
  · simp [ParticleInterpolator.first]
  · have hr : Machine.InRange (1 / 2) := by constructor <;> norm_num
    obtain ⟨p, -, hm, -⟩ := machine_agrees hr (exact_id 2 (1 / 2) 2)
    exact ⟨p, hm⟩
  · have e : (1 / 2 + ((2147483647 : Int) : ℚ)) = 4294967295 / 2 := by norm_num
    rw [e]
    exact machine_order_2_at_int_max 0 2 (by norm_num)

/-- C19, amended: for every maximum order `M`, every integer `order`, every integer `k`,
every rounding of the real type and every `delta` that is not an integer, such that `delta`
and `delta + k` both have magnitude at most `2^31 - 2` and the operations of the constructor
are exact at both: the stencil for `delta + k` has `First()` and `Last()` equal to those for
`delta` plus `k`, and for `First() ≤ i ≤ Last()` the query `Weight(i + k)` at `delta + k`
returns, in every build, the weight that `Weight(i)` returns at `delta`.  The positions may
lie on opposite sides of `0` or of `1/2`. -/
theorem machine_translation_invariant (rnd : ℚ → ℚ) (a : Bool) (junk : Nat → ℚ) (M : Nat)
    (order : Int) (delta : ℚ) (k : Int) (hd : ∀ n : Int, delta ≠ (n : ℚ))
    (hr1 : Machine.InRange delta) (hr2 : Machine.InRange (delta + (k : ℚ)))
    (hx1 : Machine.Exact rnd M delta order)
    (hx2 : Machine.Exact rnd M (delta + (k : ℚ)) order) :
    ∃ p q, Machine.construct rnd M delta order = .ok p ∧
      Machine.construct rnd M (delta + (k : ℚ)) order = .ok q ∧
      q.first = p.first + k ∧ q.last = p.last + k ∧
      ∀ i : Int, p.first ≤ i → i ≤ p.last →
        ∃ w, Machine.call a junk p i = .ok w ∧ Machine.call a junk q (i + k) = .ok w := by
  obtain ⟨p2, q2, e1, e2, hf, hl, hw⟩ := exact_translation_invariant M order delta k hd
  obtain ⟨p, hp, hm1, hc1, -⟩ := machine_agrees hr1 hx1
  obtain ⟨q, hq, hm2, hc2, -⟩ := machine_agrees hr2 hx2
  rw [hp] at e1
  rw [hq] at e2
  obtain rfl := Option.some.inj e1
  obtain rfl := Option.some.inj e2
  refine ⟨p, q, hm1, hm2, hf, hl, fun i h1 h2 => ?_⟩
  obtain ⟨w, w1, w2⟩ := hw i h1 h2
  exact ⟨w, hc1 a junk i w w1, hc2 a junk (i + k) w w2⟩

/-- Witness for C19 amended: double precision, maximum order 2, order 1, `delta = -1/4`
moved by `k = 1` cell to `3/4`, across both `0` and `1/2`. -/
theorem machine_translation_invariant_witness :
    (∀ n : Int, ((-262144 : Int) : ℚ) / 2 ^ 20 ≠ (n : ℚ)) ∧
    Machine.InRange (((-262144 : Int) : ℚ) / 2 ^ 20) ∧
    Machine.InRange (((-262144 : Int) : ℚ) / 2 ^ 20 + ((1 : Int) : ℚ)) ∧
    Machine.Exact Machine.binary64 2 (((-262144 : Int) : ℚ) / 2 ^ 20) 1 ∧
    Machine.Exact Machine.binary64 2 (((-262144 : Int) : ℚ) / 2 ^ 20 + ((1 : Int) : ℚ)) 1 ∧
    ∃ p q, Machine.construct Machine.binary64 2 (((-262144 : Int) : ℚ) / 2 ^ 20) 1 = .ok p ∧
      Machine.construct Machine.binary64 2 (((-262144 : Int) : ℚ) / 2 ^ 20 + ((1 : Int) : ℚ)) 1
        = .ok q ∧
      q.first = p.first + 1 ∧ q.last = p.last + 1 ∧
      ∀ i : Int, p.first ≤ i → i ≤ p.last →
        ∃ w, Machine.call true (fun _ => 0) p i = .ok w ∧
          Machine.call true (fun _ => 0) q (i + 1) = .ok w :=
  have hd : ∀ n : Int, ((-262144 : Int) : ℚ) / 2 ^ 20 ≠ (n : ℚ) := by
    intro n h
    have h4 : ((4 * n : Int) : ℚ) = ((-1 : Int) : ℚ) := by
      push_cast
      rw [← h]
      norm_num
    have : 4 * n = -1 := by exact_mod_cast h4
    omega
  have hr1 : Machine.InRange (((-262144 : Int) : ℚ) / 2 ^ 20) := by
    constructor <;> norm_num
  have e : ((-262144 : Int) : ℚ) / 2 ^ 20 + ((1 : Int) : ℚ) = ((786432 : Int) : ℚ) / 2 ^ 20 := by
    norm_num
  have hr2 : Machine.InRange (((-262144 : Int) : ℚ) / 2 ^ 20 + ((1 : Int) : ℚ)) := by
    constructor <;> norm_num
  have hx2 : Machine.Exact Machine.binary64 2
      (((-262144 : Int) : ℚ) / 2 ^ 20 + ((1 : Int) : ℚ)) 1 := by
    rw [e]
    exact binary64_exact_grid (by rw [← e]; exact hr2) 2 1
  ⟨hd, hr1, hr2, binary64_exact_grid hr1 2 1, hx2,
    machine_translation_invariant Machine.binary64 true (fun _ => 0) 2 1 _ 1 hd hr1 hr2
      (binary64_exact_grid hr1 2 1) hx2⟩

end Emu
